import Mathlib

/-!
Verification development for the URL Extraction & Normalization Engine of
`src/backend/server.py` (the body of `predict`, lines 69-180).

The Python code relies on `urllib.parse`; those library functions
(`urlparse`, `parse_qs`, `urlencode`, `urlunparse`, `quote_plus`,
`unquote`) are embedded here following CPython 3.11.6 `urllib/parse.py`:
`urlsplit` lstrips leading C0-control-or-space characters and removes
tab, CR and LF everywhere (bpo-43882, in every maintained CPython since
2021), and `urlunsplit` re-inserts `//` for netloc-carrying schemes
(`uses_netloc`).  One simplification: of `urlsplit`'s netloc validation
only the mismatched-bracket `ValueError` is modelled; the additional
CPython 3.11 validation of the inside of a balanced `[...]` host is not
(it only affects URLs with a bracketed non-IPv6 host).  The body
preprocessor's `str.lower()` is modelled per character by the ASCII
mapping plus the one multi-character lowercase mapping in Unicode,
`İ` (U+0130 → `i` U+0307), whose expansion shifts the `find` index the
program then applies to the original body; all other non-ASCII
lowerings are modelled as the identity, which cannot change the result
of the ASCII marker search: U+212A (lowering to `k`) is the only
non-ASCII character with an ASCII lowercase and `k` occurs in neither
marker.  The extension filter's `parsed_path.lower()` stays ASCII-only:
no ignored extension contains `k`, and the `İ` expansion cannot
complete an ASCII suffix because the combining dot follows the `i`.
Strings are modelled as `List Char`; `String`
wrappers appear at the statement boundary.
-/

namespace PhishSpec

abbrev Str := List Char

/-! ### Character helpers -/

/-- ASCII lower-casing of one character (model of `str.lower` on ASCII). -/
def asciiLower (c : Char) : Char :=
  if 'A' ≤ c ∧ c ≤ 'Z' then Char.ofNat (c.toNat + 32) else c

/-- The WHATWG "C0 control or space" class stripped by `urlsplit`
(code points 0x00-0x20). -/
def isC0OrSpace (c : Char) : Bool := c.toNat ≤ 0x20

/-- The characters removed everywhere by `urlsplit`
(`_UNSAFE_URL_BYTES_TO_REMOVE` = tab, CR, LF). -/
def isUnsafeUrlByte (c : Char) : Bool := c = '\t' ∨ c = '\r' ∨ c = '\n'

/-- Model of Python `str.isspace` (the class stripped by `str.strip()`). -/
def pyIsSpace (c : Char) : Bool :=
  let n := c.toNat
  (0x09 ≤ n ∧ n ≤ 0x0D) ∨ n = 0x20 ∨ (0x1C ≤ n ∧ n ≤ 0x1F) ∨ n = 0x85 ∨ n = 0xA0 ∨
  n = 0x1680 ∨ (0x2000 ≤ n ∧ n ≤ 0x200A) ∨ n = 0x2028 ∨ n = 0x2029 ∨ n = 0x202F ∨
  n = 0x205F ∨ n = 0x3000

/-- The characters allowed in a URL scheme by `urlsplit`
(`scheme_chars` = ASCII letters, digits, `+`, `-`, `.`). -/
def schemeChar (c : Char) : Bool := c.isAlpha ∨ c.isDigit ∨ c = '+' ∨ c = '-' ∨ c = '.'

/-- Value of one hex digit, in either case (Python `_hextobyte` accepts both). -/
def hexVal (c : Char) : Option Nat :=
  if '0' ≤ c ∧ c ≤ '9' then some (c.toNat - 48)
  else if 'A' ≤ c ∧ c ≤ 'F' then some (c.toNat - 55)
  else if 'a' ≤ c ∧ c ≤ 'f' then some (c.toNat - 87)
  else none

/-- Upper-case hex digit of a value below 16 (Python `quote` emits upper case). -/
def hexDigitUpper (n : Nat) : Char :=
  if n < 10 then Char.ofNat (48 + n) else Char.ofNat (55 + n)

/-! ### List helpers -/

/-- Drop trailing characters satisfying `p`. -/
def dropTrailing (p : Char → Bool) (l : Str) : Str :=
  (l.reverse.dropWhile p).reverse

/-- Split at the first occurrence of `sep`: `splitFirst sep l = some (a, b)`
when `l = a ++ sep :: b` with `sep ∉ a`; `none` when `sep ∉ l`.
This is Python `str.split(sep, 1)` / `str.find(sep)`. -/
def splitFirst (sep : Char) : Str → Option (Str × Str)
  | [] => none
  | c :: cs =>
    if c = sep then some ([], cs)
    else (splitFirst sep cs).map (fun ab => (c :: ab.1, ab.2))

/-- Split at the last occurrence of `sep` (Python `str.rfind`). -/
def splitLast (sep : Char) (l : Str) : Option (Str × Str) :=
  (splitFirst sep l.reverse).map (fun ab => (ab.2.reverse, ab.1.reverse))

/-- Index of the first occurrence of the pattern `pat` as a contiguous
substring (Python `str.find` for a nonempty needle). -/
def findIdx (pat : Str) : Str → Option Nat
  | [] => if pat = [] then some 0 else none
  | c :: rest =>
    if pat.isPrefixOf (c :: rest) then some 0
    else (findIdx pat rest).map (· + 1)

/-- Substring containment (Python `in` on strings). -/
def containsSub (pat l : Str) : Bool := (findIdx pat l).isSome

/-! ### UTF-8 (Python `bytes.decode("utf-8", errors="replace")` and `str.encode`) -/

/-- The Unicode replacement character U+FFFD. -/
def repChar : Char := Char.ofNat 0xFFFD

/-- Is a byte a UTF-8 continuation byte. -/
def utf8Cont (n : Nat) : Bool := 0x80 ≤ n ∧ n ≤ 0xBF

/-- Decoder state for a pending multi-byte UTF-8 sequence: number of
continuation bytes still expected, value accumulated so far, and the
allowed range for the next byte (the first continuation of `E0`, `ED`,
`F0`, `F4` has a restricted range, which is what excludes overlong forms
and surrogates, as in CPython's decoder). -/
structure Utf8Pending where
  need : Nat
  val : Nat
  lo : Nat
  hi : Nat
deriving DecidableEq

/-- Classify one byte as a fresh sequence start: either a finished ASCII
character, a pending multi-byte state, or an error (replacement). -/
def utf8Lead (b : Nat) : List Char × Option Utf8Pending :=
  if b ≤ 0x7F then ([Char.ofNat b], none)
  else if 0xC2 ≤ b ∧ b ≤ 0xDF then ([], some ⟨1, b - 0xC0, 0x80, 0xBF⟩)
  else if 0xE0 ≤ b ∧ b ≤ 0xEF then
    ([], some ⟨2, b - 0xE0, if b = 0xE0 then 0xA0 else 0x80, if b = 0xED then 0x9F else 0xBF⟩)
  else if 0xF0 ≤ b ∧ b ≤ 0xF4 then
    ([], some ⟨3, b - 0xF0, if b = 0xF0 then 0x90 else 0x80, if b = 0xF4 then 0x8F else 0xBF⟩)
  else ([repChar], none)

/-- UTF-8 decoding with `errors="replace"` (maximal-subpart replacement as
in CPython's decoder): an invalid or out-of-range byte ends the pending
sequence with one replacement character and is then reconsidered as a
fresh lead byte; a truncated sequence at the end yields one replacement. -/
def utf8dGo : Option Utf8Pending → List Nat → List Char
  | none, [] => []
  | some _, [] => [repChar]
  | none, b :: bs =>
    match utf8Lead b with
    | (cs, st) => cs ++ utf8dGo st bs
  | some pend, b :: bs =>
    if pend.lo ≤ b ∧ b ≤ pend.hi then
      if pend.need = 1 then Char.ofNat (pend.val * 0x40 + (b - 0x80)) :: utf8dGo none bs
      else utf8dGo (some ⟨pend.need - 1, pend.val * 0x40 + (b - 0x80), 0x80, 0xBF⟩) bs
    else
      match utf8Lead b with
      | (cs, st) => repChar :: (cs ++ utf8dGo st bs)

/-- UTF-8 decoding with `errors="replace"`: bytes are `Nat` values below 256. -/
def utf8d (bs : List Nat) : List Char := utf8dGo none bs

/-- UTF-8 encoding of one character. -/
def utf8EncodeChar (c : Char) : List Nat :=
  let n := c.toNat
  if n ≤ 0x7F then [n]
  else if n ≤ 0x7FF then [0xC0 + n / 0x40, 0x80 + n % 0x40]
  else if n ≤ 0xFFFF then [0xE0 + n / 0x1000, 0x80 + (n / 0x40) % 0x40, 0x80 + n % 0x40]
  else [0xF0 + n / 0x40000, 0x80 + (n / 0x1000) % 0x40, 0x80 + (n / 0x40) % 0x40,
        0x80 + n % 0x40]

/-- UTF-8 encoding of a string. -/
def utf8Encode (s : Str) : List Nat := s.flatMap utf8EncodeChar

/-! ### Percent decoding / encoding (Python `unquote`, `quote`, `quote_plus`) -/

/-- Decode one piece that followed a `%` (Python `unquote_to_bytes` loop
body): two leading hex digits become one byte, otherwise the `%` stays
literal; the rest of the piece contributes its character codes. -/
def pctPiece (piece : Str) : List Nat :=
  match piece with
  | c1 :: c2 :: rest =>
    match hexVal c1, hexVal c2 with
    | some h, some l => (16 * h + l) :: rest.map Char.toNat
    | _, _ => 0x25 :: piece.map Char.toNat
  | _ => 0x25 :: piece.map Char.toNat

/-- Split on `%` (Python `string.split("%")` inside `unquote_to_bytes`):
returns the piece before the first `%` and the list of pieces that each
followed a `%`. -/
def splitPct : Str → Str × List Str
  | [] => ([], [])
  | c :: rest =>
    let r := splitPct rest
    if c = '%' then ([], r.1 :: r.2) else (c :: r.1, r.2)

/-- Percent-decode an ASCII segment to bytes (Python `unquote_to_bytes`):
split on `%`; the first piece is literal, each later piece starts with an
escaped byte when its first two characters are hex digits. -/
def pctDecodeBytes (s : Str) : List Nat :=
  (splitPct s).1.map Char.toNat ++ (splitPct s).2.flatMap pctPiece

/-- Decode one maximal ASCII segment of `unquote` input. -/
def unquoteAscii (seg : Str) : Str := utf8d (pctDecodeBytes seg)

/-- Worker for `unquote`: Python splits the string into maximal ASCII runs
(`_asciire`), percent-decodes each run through bytes and UTF-8, and passes
non-ASCII characters through unchanged.  `acc` is the current ASCII run,
reversed. -/
def unquoteGo : Str → Str → Str
  | acc, [] => unquoteAscii acc.reverse
  | acc, c :: rest =>
    if c.toNat ≤ 0x7F then unquoteGo (c :: acc) rest
    else unquoteAscii acc.reverse ++ c :: unquoteGo [] rest

/-- Python `urllib.parse.unquote` with `errors="replace"`. -/
def unquote (s : Str) : Str := unquoteGo [] s

/-- Python `urllib.parse.unquote_plus`: `+` becomes a space, then `unquote`. -/
def unquotePlus (s : Str) : Str :=
  unquote (s.map (fun c => if c = '+' then ' ' else c))

/-- Bytes never quoted by Python `quote` (`_ALWAYS_SAFE`): ASCII letters,
digits, `_`, `.`, `-`, `~`. -/
def alwaysSafeByte (n : Nat) : Bool :=
  (0x41 ≤ n ∧ n ≤ 0x5A) ∨ (0x61 ≤ n ∧ n ≤ 0x7A) ∨ (0x30 ≤ n ∧ n ≤ 0x39) ∨
  n = 0x5F ∨ n = 0x2E ∨ n = 0x2D ∨ n = 0x7E

/-- Quote one byte given extra safe bytes. -/
def quoteByte (safeExtra : List Nat) (n : Nat) : Str :=
  if alwaysSafeByte n ∨ n ∈ safeExtra then [Char.ofNat n]
  else ['%', hexDigitUpper (n / 16), hexDigitUpper (n % 16)]

/-- Python `urllib.parse.quote(s, safe)` over the UTF-8 bytes of `s`. -/
def pyQuote (safeExtra : List Nat) (s : Str) : Str :=
  (utf8Encode s).flatMap (quoteByte safeExtra)

/-- Python `urllib.parse.quote_plus(s, safe="")`: when `s` contains a space,
quote with space safe and then replace spaces by `+`; otherwise plain quote. -/
def quotePlus (s : Str) : Str :=
  if ' ' ∈ s then (pyQuote [0x20] s).map (fun c => if c = ' ' then '+' else c)
  else pyQuote [] s

/-! ### `urlparse` / `urlunparse` -/

/-- The six components of Python's `ParseResult`. -/
structure UrlParts where
  scheme : Str
  netloc : Str
  path : Str
  params : Str
  query : Str
  fragment : Str
deriving DecidableEq

/-- Scheme extraction of `urlsplit`: the text before the first `:` is a
scheme when it is nonempty, starts with an ASCII letter and consists of
scheme characters only; it is lower-cased. -/
def extractScheme (url : Str) : Option (Str × Str) :=
  match splitFirst ':' url with
  | none => none
  | some (pre, post) =>
    match pre with
    | [] => none
    | c0 :: _ => if c0.isAlpha ∧ pre.all schemeChar then some (pre.map asciiLower, post) else none

/-- Netloc extraction of `urlsplit` (`_splitnetloc`): everything from
position 2 up to the first `/`, `?` or `#`. -/
def splitNetloc (l : Str) : Str × Str :=
  (l.takeWhile (fun c => ¬(c = '/' ∨ c = '?' ∨ c = '#')),
   l.dropWhile (fun c => ¬(c = '/' ∨ c = '?' ∨ c = '#')))

/-- The schemes for which `urlparse` splits `;params` from the path
(`uses_params`). -/
def usesParamsStrs : List String :=
  ["", "ftp", "hdl", "prospero", "http", "imap", "https", "shttp", "rtsp", "rtsps",
   "rtspu", "sip", "sips", "mms", "sftp", "tel"]

/-- Is the (lower-cased) scheme in `uses_params`. -/
def inUsesParams (s : Str) : Bool := usesParamsStrs.any (fun t => t.data == s)

/-- The schemes for which `urlunsplit` re-inserts `//` (`uses_netloc`);
the empty string is in the Python list but the `urlunsplit` condition
separately requires a truthy scheme. -/
def usesNetlocStrs : List String :=
  ["", "ftp", "http", "gopher", "nntp", "telnet", "imap", "wais", "file", "mms",
   "https", "shttp", "snews", "prospero", "rtsp", "rtsps", "rtspu", "rsync", "svn",
   "svn+ssh", "sftp", "nfs", "git", "git+ssh", "ws", "wss"]

/-- Is the scheme in `uses_netloc`. -/
def inUsesNetloc (s : Str) : Bool := usesNetlocStrs.any (fun t => t.data == s)

/-- The `_splitparams` helper of `urlparse`: when the path contains `/`, the
params start at the first `;` at or after the last `/`; otherwise at the
first `;`. -/
def splitParams (p : Str) : Str × Str :=
  match splitLast '/' p with
  | some (a, b) =>
    match splitFirst ';' b with
    | some (b1, b2) => (a ++ '/' :: b1, b2)
    | none => (p, [])
  | none =>
    match splitFirst ';' p with
    | some (p1, p2) => (p1, p2)
    | none => (p, [])

/-- Python `urllib.parse.urlparse`: returns `none` where the Python
function raises `ValueError` (a netloc containing `[` without `]` or vice
versa; see the header for the one unmodelled bracket check).  Note that
`urlsplit` only lstrips the C0-or-space class — trailing ones are kept. -/
def urlparse? (url0 : Str) : Option UrlParts :=
  let url1 := url0.dropWhile isC0OrSpace
  let url2 := url1.filter (fun c => ¬ isUnsafeUrlByte c)
  let sp := match extractScheme url2 with
    | some sr => sr
    | none => ([], url2)
  let scheme := sp.1
  let rest := sp.2
  let nr : Option (Str × Str) :=
    if rest.take 2 = ['/', '/'] then
      let nl := splitNetloc (rest.drop 2)
      if (nl.1.contains '[' != nl.1.contains ']') then none else some nl
    else some ([], rest)
  match nr with
  | none => none
  | some (netloc, rest2) =>
    let pf := match splitFirst '#' rest2 with
      | some ab => ab
      | none => (rest2, [])
    let pq := match splitFirst '?' pf.1 with
      | some ab => ab
      | none => (pf.1, [])
    let pp := if inUsesParams scheme ∧ ';' ∈ pq.1 then splitParams pq.1 else (pq.1, [])
    some ⟨scheme, netloc, pp.1, pp.2, pq.2, pf.2⟩

/-- Python `urllib.parse.urlunparse` composed with `urlunsplit` (CPython
3.11: the `//` is inserted when the netloc is nonempty, or when the scheme
is truthy, in `uses_netloc`, and the path does not already start `//`). -/
def urlunparse (p : UrlParts) : Str :=
  let u1 := if p.params = [] then p.path else p.path ++ ';' :: p.params
  let u2 :=
    if p.netloc ≠ [] ∨ (p.scheme ≠ [] ∧ inUsesNetloc p.scheme ∧ u1.take 2 ≠ ['/', '/']) then
      let u1' := if u1 ≠ [] ∧ u1.head? ≠ some '/' then '/' :: u1 else u1
      '/' :: '/' :: (p.netloc ++ u1')
    else u1
  let u3 := if p.scheme = [] then u2 else p.scheme ++ ':' :: u2
  let u4 := if p.query = [] then u3 else u3 ++ '?' :: p.query
  if p.fragment = [] then u4 else u4 ++ '#' :: p.fragment

/-! ### `parse_qs` / `urlencode` -/

/-- Python `parse_qsl` with default arguments: split on `&`, skip empty
segments, skip segments without `=`, skip pairs with an empty value,
percent-decode names and values with `+` as space. -/
def parseQsl (qs : Str) : List (Str × Str) :=
  (qs.splitOn '&').filterMap (fun seg =>
    if seg = [] then none
    else match splitFirst '=' seg with
      | none => none
      | some (n, v) => if v = [] then none else some (unquotePlus n, unquotePlus v))

/-- Insert one pair into the ordered dict-of-lists (Python dict semantics:
first occurrence fixes the key's position, values append in order). -/
def qsInsert : List (Str × List Str) → Str → Str → List (Str × List Str)
  | [], k, v => [(k, [v])]
  | (k', vs) :: rest, k, v =>
    if k' = k then (k', vs ++ [v]) :: rest else (k', vs) :: qsInsert rest k v

/-- Python `urllib.parse.parse_qs` with default arguments. -/
def parseQs (qs : Str) : List (Str × List Str) :=
  (parseQsl qs).foldl (fun acc kv => qsInsert acc kv.1 kv.2) []

/-- Dict membership test (`k in qs`). -/
def qsHas (m : List (Str × List Str)) (k : Str) : Bool :=
  m.any (fun kv => kv.1 == k)

/-- First value of a key (`qs[k][0]`), `none` when the key is absent. -/
def qsGet (m : List (Str × List Str)) (k : Str) : Option Str :=
  match m.find? (fun kv => kv.1 == k) with
  | some kv => kv.2.head?
  | none => none

/-- Python `urllib.parse.urlencode(m, doseq=True)` with the default
`quote_plus` quoting: one `k=v` pair per list element, joined with `&`. -/
def urlencode (m : List (Str × List Str)) : Str :=
  (List.intercalate ['&']
    (m.flatMap (fun kv => kv.2.map (fun v => quotePlus kv.1 ++ '=' :: quotePlus v))))

/-- The per-segment decoder of `parseQsl`, named for reuse in proofs. -/
def qslSeg (seg : Str) : Option (Str × Str) :=
  if seg = [] then none
  else match splitFirst '=' seg with
    | none => none
    | some (n, v) => if v = [] then none else some (unquotePlus n, unquotePlus v)

/-- The `k=v` pieces joined by `urlencode`. -/
def qsPieces (m : List (Str × List Str)) : List Str :=
  m.flatMap (fun kv => kv.2.map (fun v => quotePlus kv.1 ++ '=' :: quotePlus v))

/-- The pair list a dict-of-lists stands for (one pair per value, in
order): the inverse direction of `parse_qs` grouping. -/
def qsFlatten (m : List (Str × List Str)) : List (Str × Str) :=
  m.flatMap (fun kv => kv.2.map (fun v => (kv.1, v)))

/-- Well-formedness of a parsed query dict as `parse_qs` produces it:
every key has a nonempty value list, every value is a nonempty string,
and keys are pairwise distinct. -/
def wfQS (m : List (Str × List Str)) : Prop :=
  (∀ kv ∈ m, kv.2 ≠ [] ∧ ∀ v ∈ kv.2, v ≠ []) ∧
  m.Pairwise (fun a b => a.1 ≠ b.1)

/-! ### The canonicalizer `clean_url_display` (server.py lines 126-143) -/

/-- The tracking parameters removed by `clean_url_display`. -/
def trackingParams : List String :=
  ["inf_ver", "inf_ctx", "utm_source", "utm_medium", "utm_campaign", "utm_term", "utm_content"]

/-- Is a decoded query key one of the tracking parameters. -/
def isTracking (k : Str) : Bool := trackingParams.any (fun t => t.data == k)

/-- The query rewrite of `clean_url_display`: parse the query, drop
tracking keys, re-encode. -/
def cleanQuery (q : Str) : Str :=
  urlencode ((parseQs q).filter (fun kv => ¬ isTracking kv.1))

/-- `clean_url_display` (server.py lines 126-143): on a parse failure the
`except` clause returns the input unchanged; otherwise the URL is rebuilt
with the cleaned query (`parsed._replace(query=new_query)`). -/
def cleanL (u : Str) : Str :=
  match urlparse? u with
  | none => u
  | some p => urlunparse { p with query := cleanQuery p.query }

/-- String-level wrapper of `clean_url_display`. -/
def clean_url_display (s : String) : String := ⟨cleanL s.data⟩

/-! ### The unwrapper `unwrap_url` (server.py lines 99-123) -/

/-- The SafeLinks rule's domain marker. -/
def marker1 : Str := "safelinks.protection.outlook.com".data

/-- The Inflection tracking rule's domain marker. -/
def marker2 : Str := "tracking.inflection.io".data

/-- Second wrapper rule (server.py lines 112-117): fires when the
Inflection marker is a substring, the URL parses, and `redirect` is in the
query; a parse failure (`except`) halts. -/
def unwrapStep2 (u : Str) : Option Str :=
  if containsSub marker2 u then
    match urlparse? u with
    | none => none
    | some p => qsGet (parseQs p.query) "redirect".data
  else none

/-- One iteration of the `for` loop of `unwrap_url` (server.py lines
101-122): `some v` means the iteration rewrote the URL to `v` and
`continue`d; `none` means the loop `break`s (no rule fired, or `urlparse`
raised inside the `try`).  When the SafeLinks marker matches but `url` is
absent from the query, control falls through to the Inflection rule. -/
def unwrapStep (u : Str) : Option Str :=
  if containsSub marker1 u then
    match urlparse? u with
    | none => none
    | some p =>
      match qsGet (parseQs p.query) "url".data with
      | some v => some v
      | none => unwrapStep2 u
  else unwrapStep2 u

/-- The bounded loop of `unwrap_url`: at most `fuel` transitions, returning
the current URL at the first halting iteration or when the bound runs out. -/
def unwrapGo : Nat → Str → Str
  | 0, u => u
  | n + 1, u =>
    match unwrapStep u with
    | some v => unwrapGo n v
    | none => u

/-- `unwrap_url` (server.py lines 99-123) with `max_depth = 5`. -/
def unwrap_url (s : String) : String := ⟨unwrapGo 5 s.data⟩

/-! ### The per-candidate loop of `predict` (server.py lines 145-180) -/

/-- The ignored infrastructure domains (server.py line 146). -/
def ignoredDomains : List String :=
  ["w3.org", "xml.org", "schemas.microsoft.com", "purl.org", "xmlns.com",
   "fonts.googleapis.com", "fonts.gstatic.com"]

/-- The ignored file extensions (server.py line 147). -/
def ignoredExts : List String :=
  [".png", ".jpg", ".jpeg", ".gif", ".svg", ".css", ".js", ".woff", ".woff2", ".ico"]

/-- The basic cleanup of lines 155-157: `url.strip()` and removal of one
trailing `)` regex artifact. -/
def trimCand (l : Str) : Str :=
  let t := dropTrailing pyIsSpace (l.dropWhile pyIsSpace)
  if t.getLast? = some ')' then t.dropLast else t

/-- Domain filter (lines 161-164): any ignored domain as a substring of the
whole URL string. -/
def domainIgnored (u : Str) : Bool := ignoredDomains.any (fun d => containsSub d.data u)

/-- Extension filter (lines 168-172): the parsed path, lower-cased, ends
with an ignored extension. -/
def extIgnored (path : Str) : Bool :=
  ignoredExts.any (fun e => e.data.isSuffixOf (path.map asciiLower))

/-- One iteration of the candidate loop (server.py lines 150-177): unwrap,
trim, filter, canonicalize.  `Except.error ()` models the uncaught
`ValueError` that `urlparse(url)` on line 168 raises for a mismatched
bracket netloc — the only statement of the loop body not guarded by a
`try`; `ok none` is a filtered-out candidate and `ok (some v)` a survivor
appended to `cleaned_urls`. -/
def processCandidate (u0 : Str) : Except Unit (Option Str) :=
  let u1 := unwrapGo 5 u0
  let u2 := trimCand u1
  if domainIgnored u2 then Except.ok none
  else
    match urlparse? u2 with
    | none => Except.error ()
    | some p =>
      if extIgnored p.path then Except.ok none
      else Except.ok (some (cleanL u2))

/-- The whole candidate loop: an exception aborts the remaining
candidates; survivors accumulate in order (`cleaned_urls`). -/
def collectSurvivors : List Str → Except Unit (List Str)
  | [] => Except.ok []
  | u :: rest =>
    match processCandidate u with
    | Except.error e => Except.error e
    | Except.ok none => collectSurvivors rest
    | Except.ok (some v) => (collectSurvivors rest).map (fun l => v :: l)

/-- Python string comparison (lexicographic by code point). -/
def lexLt : Str → Str → Bool
  | [], [] => false
  | [], _ :: _ => true
  | _ :: _, [] => false
  | a :: as_, b :: bs => if a < b then true else if b < a then false else lexLt as_ bs

/-- Insert into a strictly sorted list, skipping duplicates. -/
def insertSorted (s : Str) : List Str → List Str
  | [] => [s]
  | t :: rest =>
    if s = t then t :: rest
    else if lexLt s t then s :: t :: rest else t :: insertSorted s rest

/-- `sorted(list(set(cleaned_urls)))` (server.py line 180): the strictly
increasing enumeration of the distinct strings. -/
def dedupSort (l : List Str) : List Str := l.foldr insertSorted []

/-- The URL engine on a list of extracted candidate strings: the loop of
lines 149-177 followed by the dedup/sort of line 180. -/
def enginePipeline (cands : List Str) : Except Unit (List Str) :=
  (collectSurvivors cands).map dedupSort

/-- String-level wrapper of the engine. -/
def engineOutput (cands : List String) : Except Unit (List String) :=
  (enginePipeline (cands.map String.data)).map (fun l => l.map (fun u => (⟨u⟩ : String)))

/-! ### The preprocessor (server.py lines 69-77) -/

/-- Marker for the start of an HTML document. -/
def htmlMarker : Str := "<html".data

/-- Marker for a doctype declaration. -/
def doctypeMarker : Str := "<!doctype html".data

/-- Python `str.lower()` of one character, as used on the body: ASCII
uppercase lowers, and `İ` (U+0130) expands to `i` followed by the
combining dot above (U+0307) — the one multi-character lowercase mapping
in Unicode, which makes `lower()` change string length.  Other non-ASCII
lowerings are modelled as the identity; this cannot affect the marker
search (see the header note). -/
def pyLowerChar (c : Char) : Str :=
  if c = Char.ofNat 0x130 then ['i', Char.ofNat 0x307] else [asciiLower c]

/-- The preprocessor of lines 69-77: the marker is looked up in
`body.lower()` (whose `İ` expansions shift indices), and the resulting
index slices the original body; `<html` is tested first, then
`<!doctype html`; with neither present the body is unchanged. -/
def preprocessBody (body : Str) : Str :=
  let lower := body.flatMap pyLowerChar
  match findIdx htmlMarker lower with
  | some i => body.drop i
  | none =>
    match findIdx doctypeMarker lower with
    | some i => body.drop i
    | none => body

/-- String-level wrapper of the preprocessor. -/
def preprocess (body : String) : String := ⟨preprocessBody body.data⟩

/-! ### The text-source URL regex (server.py line 94)

The pattern is `https?://`, an optional `www.`, then 1 to 256 host
characters, a dot, 1 to 6 TLD characters, a word boundary, and a greedy
tail of URL characters, matched with `re.findall` over the visible text.
`\b` is modelled with ASCII word characters (the scenario texts are
ASCII). -/

/-- Character class of the host part (`[-a-zA-Z0-9@:%._+~#=]`). -/
def classA (c : Char) : Bool :=
  c.isAlpha ∨ c.isDigit ∨ c = '-' ∨ c = '@' ∨ c = ':' ∨ c = '%' ∨ c = '.' ∨ c = '_' ∨
  c = '+' ∨ c = '~' ∨ c = '#' ∨ c = '='

/-- Character class of the TLD part (`[a-zA-Z0-9()]`). -/
def classB (c : Char) : Bool := c.isAlpha ∨ c.isDigit ∨ c = '(' ∨ c = ')'

/-- Character class of the tail part (`[-a-zA-Z0-9()@:%_+.~#?&/=]`). -/
def classC (c : Char) : Bool :=
  c.isAlpha ∨ c.isDigit ∨ c = '-' ∨ c = '(' ∨ c = ')' ∨ c = '@' ∨ c = ':' ∨ c = '%' ∨
  c = '_' ∨ c = '+' ∨ c = '.' ∨ c = '~' ∨ c = '#' ∨ c = '?' ∨ c = '&' ∨ c = '/' ∨ c = '='

/-- Regex word character (`\w`): ASCII alphanumerics and underscore;
non-ASCII characters are treated as word characters (exact for Unicode
letters and digits, an approximation for non-alphanumeric symbols). -/
def isWordChar (c : Char) : Bool := c.isAlpha ∨ c.isDigit ∨ c = '_' ∨ 0x7F < c.toNat

/-- Does a word boundary (`\b`) stand between a preceding character and
the rest of the input. -/
def wordBoundary (prev : Char) (rest : Str) : Bool :=
  match rest with
  | [] => isWordChar prev
  | c :: _ => isWordChar prev != isWordChar c

/-- Greedy-with-backtracking match of the TLD part (1 to 6 `classB`
characters followed by a word boundary) at the start of `rest`, trying `k`
characters then shorter; returns the consumed count. -/
def matchTld (rest : Str) : Nat → Option Nat
  | 0 => none
  | k + 1 =>
    let b := rest.take (k + 1)
    if b.length = k + 1 ∧ b.all classB ∧
        wordBoundary (b.getLastD ' ') (rest.drop (k + 1)) then some (k + 1)
    else matchTld rest k

/-- Greedy-with-backtracking match of the host-and-tail part (1 to `n`
`classA` characters, a dot, the TLD part, then a greedy `classC` tail)
against `l`, trying the longest `classA` run first (the regex engine's
backtracking order); returns the number of characters consumed. -/
def matchHostTail (l : Str) : Nat → Option Nat
  | 0 => none
  | n + 1 =>
    let a := l.take (n + 1)
    if a.length = n + 1 ∧ a.all classA then
      match l.drop (n + 1) with
      | '.' :: rest =>
        let bmax := min 6 ((rest.takeWhile classB).length)
        match matchTld rest bmax with
        | some k =>
          let tail := (rest.drop k).takeWhile classC
          some (n + 1 + 1 + k + tail.length)
        | none => matchHostTail l n
      | _ => matchHostTail l n
    else matchHostTail l n

/-- Match the whole URL pattern at the start of `l`; returns the length of
the match. -/
def matchUrlAt (l : Str) : Option Nat :=
  match l with
  | 'h' :: 't' :: 't' :: 'p' :: rest0 =>
    let afterScheme : Option (Nat × Str) :=
      match rest0 with
      | 's' :: ':' :: '/' :: '/' :: r => some (8, r)
      | ':' :: '/' :: '/' :: r => some (7, r)
      | _ => none
    match afterScheme with
    | none => none
    | some (n0, r0) =>
      let tryBody : Str → Option Nat := fun r =>
        matchHostTail r (min 256 ((r.takeWhile classA).length))
      match r0 with
      | 'w' :: 'w' :: 'w' :: '.' :: r1 =>
        match tryBody r1 with
        | some k => some (n0 + 4 + k)
        | none =>
          match tryBody r0 with
          | some k => some (n0 + k)
          | none => none
      | _ =>
        match tryBody r0 with
        | some k => some (n0 + k)
        | none => none
  | _ => none

/-- `re.findall` scan: repeatedly search for the leftmost match and
continue after it; `fuel` bounds the scan by the text length. -/
def findUrlsGo : Nat → Str → List Str
  | 0, _ => []
  | _ + 1, [] => []
  | fuel + 1, c :: rest =>
    match matchUrlAt (c :: rest) with
    | some k => (c :: rest).take k :: findUrlsGo fuel ((c :: rest).drop k)
    | none => findUrlsGo fuel rest

/-- All matches of the URL regex in a text (server.py lines 94-95). -/
def findUrls (text : Str) : List Str := findUrlsGo text.length text

/-- The candidate extractor (server.py lines 85-96) applied to the result
of the markup-parsing capability: href attribute values first, then the
regex matches over the visible text. -/
def extractCandidates (hrefs : List String) (visibleText : String) : List String :=
  hrefs ++ (findUrls visibleText.data).map (fun u => (⟨u⟩ : String))

/-- Does a string parse with both a nonempty scheme and a nonempty netloc
(the "syntactically a URL" reading of the spec's invariant). -/
def hasSchemeAndHost (s : String) : Bool :=
  match urlparse? s.data with
  | some p => p.scheme ≠ [] ∧ p.netloc ≠ []
  | none => false

/-- Exactly `k` unwrap transitions from `u`: `none` when some state within
the first `k` halts. -/
def stepN? : Nat → Str → Option Str
  | 0, u => some u
  | n + 1, u => (unwrapStep u).bind (stepN? n)

/-- The spec's WrapperRule table (section 3): ordered pairs of domain
marker and query parameter. -/
def wrapperRules : List (Str × Str) :=
  [(marker1, "url".data), (marker2, "redirect".data)]

/-- One wrapper rule fully fires on `u` when its domain marker is a
substring, the URL parses, and its query parameter is present; the result
is the parameter's first value. -/
def ruleFire (u : Str) (r : Str × Str) : Option Str :=
  if containsSub r.1 u then (urlparse? u).bind (fun p => qsGet (parseQs p.query) r.2)
  else none

/-- The pattern `pat` occurs in `l` at index `i`. -/
def OccursAt (pat l : Str) (i : Nat) : Prop := pat.isPrefixOf (l.drop i) = true

/-- The strict sorting order used in claim statements, as a proposition. -/
def LexLt (a b : Str) : Prop := lexLt a b = true

/-- The path-plus-params portion rebuilt by `urlunparse` (the `url` local
of the Python function before netloc handling). -/
def joinPP (p : UrlParts) : Str :=
  if p.params = [] then p.path else p.path ++ ';' :: p.params

/-- The final path segment: everything after the last `/` (the whole
string when there is no `/`). -/
def afterLastSlash (l : Str) : Str :=
  match splitLast '/' l with
  | some ab => ab.2
  | none => l

/-- Characters that can appear in a `urlencode` result: printable and not
a `?` or `#` URL delimiter (in particular not one of the removed or
stripped control characters). -/
def encChar (c : Char) : Bool := 0x20 < c.toNat ∧ c ≠ '?' ∧ c ≠ '#'

/-- The byte-to-characters view of `quote_plus` before the space-to-plus
substitution is undone: a space byte gives a space, any other byte gives
its plain `quote` image. -/
def spByte (b : Nat) : Str := if b = 0x20 then [' '] else quoteByte [] b

/-- The fragment-query-params stage of `urlparse?` (given the already
extracted scheme and netloc and the remaining string). -/
def parseRest (scheme netloc rest2 : Str) : UrlParts :=
  let pf := match splitFirst '#' rest2 with
    | some ab => ab
    | none => (rest2, [])
  let pq := match splitFirst '?' pf.1 with
    | some ab => ab
    | none => (pf.1, [])
  let pp := if inUsesParams scheme ∧ ';' ∈ pq.1 then splitParams pq.1 else (pq.1, [])
  ⟨scheme, netloc, pp.1, pp.2, pq.2, pf.2⟩

/-- `urlparse?` after the strip-and-filter stage. -/
def parseNoStrip (url2 : Str) : Option UrlParts :=
  let sp := match extractScheme url2 with
    | some sr => sr
    | none => ([], url2)
  let scheme := sp.1
  let rest := sp.2
  let nr : Option (Str × Str) :=
    if rest.take 2 = ['/', '/'] then
      let nl := splitNetloc (rest.drop 2)
      if (nl.1.contains '[' != nl.1.contains ']') then none else some nl
    else some ([], rest)
  match nr with
  | none => none
  | some (netloc, rest2) => some (parseRest scheme netloc rest2)

/-- The scheme-and-netloc core of the `urlunparse` result (everything
before the query and fragment tails, without the scheme prefix). -/
def urlCore (p : UrlParts) : Str :=
  if p.netloc ≠ [] ∨ (p.scheme ≠ [] ∧ inUsesNetloc p.scheme ∧ (joinPP p).take 2 ≠ ['/', '/']) then
    '/' :: '/' :: (p.netloc ++
      (if joinPP p ≠ [] ∧ (joinPP p).head? ≠ some '/' then '/' :: joinPP p else joinPP p))
  else joinPP p

/-- Does `urlunparse` insert `//` and prepend a `/` to the joined
path-params portion (the case in which the path of the reparse gains a
leading slash). -/
def prependFlag (p : UrlParts) : Bool :=
  (p.netloc ≠ [] ∨ (p.scheme ≠ [] ∧ inUsesNetloc p.scheme = true ∧
    (joinPP p).take 2 ≠ ['/', '/'])) ∧
  (joinPP p ≠ [] ∧ (joinPP p).head? ≠ some '/')

/-- The invariants of the five non-query components needed for the rebuilt
URL string to parse back to the same components (with the path possibly
gaining a leading slash); every successful `urlparse?` result satisfies
them. -/
structure Recon (p : UrlParts) : Prop where
  scheme_shape : p.scheme = [] ∨ (p.scheme ≠ [] ∧
    (∀ c, p.scheme.head? = some c → c.isAlpha = true) ∧
    p.scheme.all schemeChar = true ∧ p.scheme.map asciiLower = p.scheme)
  netloc_ok : ∀ c ∈ p.netloc, c ≠ '/' ∧ c ≠ '?' ∧ c ≠ '#' ∧ isUnsafeUrlByte c = false
  netloc_br : p.netloc.contains '[' = p.netloc.contains ']'
  path_ok : ∀ c ∈ p.path, c ≠ '?' ∧ c ≠ '#' ∧ isUnsafeUrlByte c = false
  params_ok : ∀ c ∈ p.params, c ≠ '?' ∧ c ≠ '#' ∧ c ≠ '/' ∧ isUnsafeUrlByte c = false
  frag_ok : ∀ c ∈ p.fragment, isUnsafeUrlByte c = false
  nl_u1 : p.netloc ≠ [] → joinPP p = [] ∨ (joinPP p).head? = some '/'
  par_scheme : p.params ≠ [] → inUsesParams p.scheme = true
  split_stable : inUsesParams p.scheme = true → ';' ∉ afterLastSlash p.path
  no_fake : p.scheme = [] → p.netloc = [] → extractScheme (joinPP p) = none
  head_c0 : p.scheme = [] → p.netloc = [] →
    ∀ c, (joinPP p).head? = some c → isC0OrSpace c = false

/-! ### Claim theorems -/

/-- C1.  Scenario A.  The markup-parsing capability (declared an assumed
external capability by the spec, section 1) turns the body
`<a href="https://safelinks.protection.outlook.com/?url=https%3A%2F%2Fevil.example.com%2Flogin&data=x">click</a>`
into one anchor with that href and visible text `click`; the engine then
extracts the href candidate (the text scan finds nothing in `click`),
unwraps the SafeLinks wrapper to the percent-decoded `url` parameter, and
the survivor passes filtering, canonicalization and deduplication
unchanged, giving exactly `["https://evil.example.com/login"]`. -/
theorem c1_scenario_a :
    engineOutput (extractCandidates
      ["https://safelinks.protection.outlook.com/?url=https%3A%2F%2Fevil.example.com%2Flogin&data=x"]
      "click") = Except.ok ["https://evil.example.com/login"] := rfl

/-- C2, counterexample.  The body `<a href="x">y</a>` parses to one anchor
with href `x` and visible text `y`; the engine's final output is `["x"]`,
and `x` has neither a scheme nor a host, so not every output string is
syntactically a URL. -/
theorem c2_counterexample :
    engineOutput (extractCandidates ["x"] "y") = Except.ok ["x"] ∧
    hasSchemeAndHost "x" = false := by
  exact ⟨rfl, rfl⟩

/-- C3, counterexample.  For the candidate
`https://safelinks.protection.outlook.com/tracking.inflection.io?redirect=http%3A%2F%2Fevil.com`
the first rule's marker matches but its `url` parameter is absent, yet the
unwrapper does not halt with the input: it falls through to the second
rule in the same iteration and rewrites to `http://evil.com`. -/
theorem c3_counterexample :
    containsSub marker1
      "https://safelinks.protection.outlook.com/tracking.inflection.io?redirect=http%3A%2F%2Fevil.com".data
      = true ∧
    ((urlparse? "https://safelinks.protection.outlook.com/tracking.inflection.io?redirect=http%3A%2F%2Fevil.com".data).map
      (fun p => qsHas (parseQs p.query) "url".data)) = some false ∧
    unwrap_url "https://safelinks.protection.outlook.com/tracking.inflection.io?redirect=http%3A%2F%2Fevil.com"
      = "http://evil.com" := by
  exact ⟨rfl, rfl, rfl⟩

/-- C4.  Evaluation of the code at the failing input: the candidate
`http://[` reaches the unguarded `urlparse` of the extension filter
(server.py line 168), which raises `ValueError("Invalid IPv6 URL")`, so
the engine aborts and the well-formed second candidate is never
processed; alone, that second candidate survives. -/
theorem c4_exception_aborts_loop :
    engineOutput ["http://[", "http://b.example/x"] = Except.error () ∧
    engineOutput ["http://b.example/x"] = Except.ok ["http://b.example/x"] := by
  exact ⟨rfl, rfl⟩

/-- C5, counterexample.  In the body `X<!doctype html><html>` the first
marker occurrence is `<!doctype html` at index 1, before `<html` at index
16; the claim therefore demands the output `<!doctype html><html>`, but
the code tests `<html` first and discards the doctype, returning
`<html>`.  A second divergence from the claim: `İ` (U+0130) expands to
two characters under `lower()`, so the index found in `lower_body`
misaligns with the original body and `İ<html>x` is sliced to `html>x`,
not to the suffix starting at the `<html` occurrence. -/
theorem c5_counterexample :
    findIdx doctypeMarker ("X<!doctype html><html>".data.flatMap pyLowerChar) = some 1 ∧
    findIdx htmlMarker ("X<!doctype html><html>".data.flatMap pyLowerChar) = some 16 ∧
    preprocess "X<!doctype html><html>" = "<html>" ∧
    preprocess "İ<html>x" = "html>x" := by
  exact ⟨rfl, rfl, rfl, rfl⟩

/-- C7, counterexample.  `clean_url_display "////"` is `"//"` (the parse
gives an empty netloc and path `//`; CPython 3.11's `urlunsplit` does not
re-insert `//` for an empty netloc without a netloc-carrying scheme), and
cleaning `"//"` gives `""`: canonicalization is not idempotent. -/
theorem c7_counterexample :
    clean_url_display "////" = "//" ∧ clean_url_display "//" = "" := by
  exact ⟨rfl, rfl⟩

/-- C9, counterexample.  The candidate `http://a.com/?x=w3%2Eorg` does not
contain `w3.org` and survives the filter, but canonicalization
percent-decodes the query value, so the final output string contains
`w3.org` as a substring. -/
theorem c9_counterexample :
    engineOutput ["http://a.com/?x=w3%2Eorg"] = Except.ok ["http://a.com/?x=w3.org"] ∧
    containsSub "w3.org".data "http://a.com/?x=w3.org".data = true := by
  exact ⟨rfl, rfl⟩

/-- C10, counterexample.  `http:x?utm_source=1` parses successfully with
path `x`, but the canonicalizer's output `http:///x` has path `/x`
(CPython 3.11's `urlunsplit` re-inserts `//` for the netloc-carrying
scheme `http` and prefixes the path with `/`): canonicalization does not
preserve the path component. -/
theorem c10_counterexample :
    (urlparse? "http:x?utm_source=1".data).map UrlParts.path = some ['x'] ∧
    clean_url_display "http:x?utm_source=1" = "http:///x" ∧
    (urlparse? (clean_url_display "http:x?utm_source=1").data).map UrlParts.path
      = some ['/', 'x'] := by
  exact ⟨rfl, rfl, rfl⟩

/-! ### C6: bounded termination of the unwrapper -/

theorem unwrapGo_bounded (n : Nat) (u : Str) :
    ∃ k, k ≤ n ∧ stepN? k u = some (unwrapGo n u) ∧
      (k = n ∨ unwrapStep (unwrapGo n u) = none) := by
  induction n generalizing u with
  | zero => exact ⟨0, Nat.le_refl 0, rfl, Or.inl rfl⟩
  | succ n ih =>
    cases h : unwrapStep u with
    | none =>
      refine ⟨0, Nat.zero_le _, by simp [stepN?, unwrapGo, h], Or.inr ?_⟩
      simp [unwrapGo, h]
    | some v =>
      obtain ⟨k, hk, hs, hterm⟩ := ih v
      refine ⟨k + 1, Nat.succ_le_succ hk, ?_, ?_⟩
      · simpa [stepN?, unwrapGo, h] using hs
      · simp only [unwrapGo, h]
        rcases hterm with h1 | h2
        · exact Or.inl (by omega)
        · exact Or.inr h2

/-- C6.  The unwrapper performs at most `max_depth = 5` rewrite
transitions: for every candidate string (including one whose wrapper chain
rewrites to itself) the returned value is reached by some `k ≤ 5` genuine
transitions of the one-iteration step function, and either the bound `5`
was exhausted (not an error — the last computed value is returned) or the
returned value is terminal (no rule fires on it). -/
theorem c6_bounded_termination (s : String) :
    ∃ k, k ≤ 5 ∧ stepN? k s.data = some (unwrap_url s).data ∧
      (k = 5 ∨ unwrapStep ((unwrap_url s).data) = none) :=
  unwrapGo_bounded 5 s.data

/-! ### C3 amended: ordered rule table with fall-through -/

/-- C3, amended.  At each unwrap iteration the wrapper rules are tried in
fixed table order and the first rule that fully fires (marker is a
substring, the URL parses, and the rule's query parameter is present)
rewrites the URL; when the first rule's marker matches but its parameter
is absent, the unwrapper does not halt but falls through to later rules in
the same iteration; the iteration halts (`none`) exactly when no rule
fully fires (which includes a parse failure on a marker match, since the
later rule then fails to parse the same string). -/
theorem c3_amended_rule_order (u : Str) :
    unwrapStep u = wrapperRules.findSome? (ruleFire u) := by
  unfold unwrapStep unwrapStep2 wrapperRules ruleFire
  by_cases h1 : containsSub marker1 u
  · cases hp : urlparse? u with
    | none =>
      by_cases h2 : containsSub marker2 u <;> simp [h1, h2, hp, List.findSome?]
    | some p =>
      cases hq : qsGet (parseQs p.query) "url".data with
      | some v => simp [h1, hp, hq, List.findSome?]
      | none =>
        by_cases h2 : containsSub marker2 u <;>
          cases hr : qsGet (parseQs p.query) "redirect".data <;>
            simp [h1, h2, hp, hq, hr, List.findSome?]
  · by_cases h2 : containsSub marker2 u <;>
      cases hp : urlparse? u
    · simp [h1, h2, hp, List.findSome?]
    · rename_i p
      cases hr : qsGet (parseQs p.query) "redirect".data <;>
        simp [h1, h2, hp, hr, List.findSome?]
    · simp [h1, h2, hp, List.findSome?]
    · simp [h1, h2, hp, List.findSome?]

/-! ### C5 amended: first-occurrence characterization of the preprocessor -/

theorem findIdx_some_occurs (pat : Str) (l : Str) (i : Nat)
    (h : findIdx pat l = some i) :
    OccursAt pat l i ∧ ∀ j, j < i → ¬ OccursAt pat l j := by
  induction l generalizing i with
  | nil =>
    unfold findIdx at h
    by_cases hp : pat = ([] : Str)
    · simp [hp] at h
      subst h
      exact ⟨by simp [OccursAt, hp], fun j hj => by omega⟩
    · simp [hp] at h
  | cons c rest ih =>
    unfold findIdx at h
    by_cases hp : pat.isPrefixOf (c :: rest) = true
    · simp [hp] at h
      subst h
      exact ⟨by simpa [OccursAt] using hp, fun j hj => by omega⟩
    · simp [hp] at h
      obtain ⟨i', hi', rfl⟩ := h
      obtain ⟨h1, h2⟩ := ih i' hi'
      refine ⟨by simpa [OccursAt] using h1, ?_⟩
      intro j hj
      cases j with
      | zero => simpa [OccursAt] using hp
      | succ j' =>
        have := h2 j' (by omega)
        simpa [OccursAt] using this

theorem findIdx_none_occurs (pat : Str) (l : Str)
    (h : findIdx pat l = none) : ∀ j, ¬ OccursAt pat l j := by
  induction l with
  | nil =>
    unfold findIdx at h
    by_cases hp : pat = ([] : Str)
    · simp [hp] at h
    · intro j hOcc
      unfold OccursAt at hOcc
      rw [List.drop_nil] at hOcc
      cases pat with
      | nil => exact hp rfl
      | cons a as => simp [List.isPrefixOf] at hOcc
  | cons c rest ih =>
    unfold findIdx at h
    by_cases hp : pat.isPrefixOf (c :: rest) = true
    · simp [hp] at h
    · simp [hp] at h
      intro j
      cases j with
      | zero => simpa [OccursAt] using hp
      | succ j' =>
        have := ih h j'
        simpa [OccursAt] using this

theorem flatMap_pyLowerChar_of_not_mem {body : Str}
    (hE : Char.ofNat 0x130 ∉ body) :
    body.flatMap pyLowerChar = body.map asciiLower := by
  induction body with
  | nil => rfl
  | cons c rest ih =>
    have hc : ¬(c = Char.ofNat 0x130) := by
      intro he
      apply hE
      rw [← he]
      exact List.mem_cons_self _ _
    simp only [List.flatMap_cons, List.map_cons]
    rw [show pyLowerChar c = [asciiLower c] from if_neg hc,
      ih (fun hm => hE (List.mem_cons_of_mem _ hm))]
    rfl

/-- C5, amended.  For every body without `İ` (U+0130, the one character
whose `lower()` expands, shifting the find index — see the
counterexample): the preprocessor discards the prefix before the first
case-insensitive occurrence of `<html` whenever `<html` occurs anywhere
in the body — even when `<!doctype html` occurs earlier; only when
`<html` occurs nowhere does it use the first occurrence of
`<!doctype html`; when neither occurs the body passes through
unchanged. -/
theorem c5_amended_marker_priority (body : Str) (hE : Char.ofNat 0x130 ∉ body) :
    (∃ i, OccursAt htmlMarker (body.map asciiLower) i ∧
        (∀ j, j < i → ¬ OccursAt htmlMarker (body.map asciiLower) j) ∧
        preprocessBody body = body.drop i) ∨
    ((∀ j, ¬ OccursAt htmlMarker (body.map asciiLower) j) ∧
      ∃ i, OccursAt doctypeMarker (body.map asciiLower) i ∧
        (∀ j, j < i → ¬ OccursAt doctypeMarker (body.map asciiLower) j) ∧
        preprocessBody body = body.drop i) ∨
    ((∀ j, ¬ OccursAt htmlMarker (body.map asciiLower) j) ∧
      (∀ j, ¬ OccursAt doctypeMarker (body.map asciiLower) j) ∧
      preprocessBody body = body) := by
  have hb : body.flatMap pyLowerChar = body.map asciiLower :=
    flatMap_pyLowerChar_of_not_mem hE
  cases h1 : findIdx htmlMarker (body.map asciiLower) with
  | some i =>
    obtain ⟨ho, hmin⟩ := findIdx_some_occurs _ _ _ h1
    exact Or.inl ⟨i, ho, hmin, by simp [preprocessBody, hb, h1]⟩
  | none =>
    have hnone := findIdx_none_occurs _ _ h1
    cases h2 : findIdx doctypeMarker (body.map asciiLower) with
    | some i =>
      obtain ⟨ho, hmin⟩ := findIdx_some_occurs _ _ _ h2
      exact Or.inr (Or.inl ⟨hnone, i, ho, hmin, by simp [preprocessBody, hb, h1, h2]⟩)
    | none =>
      exact Or.inr (Or.inr ⟨hnone, findIdx_none_occurs _ _ h2,
        by simp [preprocessBody, hb, h1, h2]⟩)

theorem c5_amended_marker_priority_witness :
    (Char.ofNat 0x130 ∉ "X<!doctype html><html>".data) ∧
    ((∃ i, OccursAt htmlMarker ("X<!doctype html><html>".data.map asciiLower) i ∧
        (∀ j, j < i →
          ¬ OccursAt htmlMarker ("X<!doctype html><html>".data.map asciiLower) j) ∧
        preprocessBody "X<!doctype html><html>".data
          = "X<!doctype html><html>".data.drop i) ∨
    ((∀ j, ¬ OccursAt htmlMarker ("X<!doctype html><html>".data.map asciiLower) j) ∧
      ∃ i, OccursAt doctypeMarker ("X<!doctype html><html>".data.map asciiLower) i ∧
        (∀ j, j < i →
          ¬ OccursAt doctypeMarker ("X<!doctype html><html>".data.map asciiLower) j) ∧
        preprocessBody "X<!doctype html><html>".data
          = "X<!doctype html><html>".data.drop i) ∨
    ((∀ j, ¬ OccursAt htmlMarker ("X<!doctype html><html>".data.map asciiLower) j) ∧
      (∀ j, ¬ OccursAt doctypeMarker ("X<!doctype html><html>".data.map asciiLower) j) ∧
      preprocessBody "X<!doctype html><html>".data = "X<!doctype html><html>".data)) :=
  ⟨by decide, c5_amended_marker_priority "X<!doctype html><html>".data (by decide)⟩

/-! ### C8: the final output is strictly sorted (hence duplicate-free) -/

theorem lexLt_trans {a b c : Str} (h1 : lexLt a b = true) (h2 : lexLt b c = true) :
    lexLt a c = true := by
  induction a generalizing b c with
  | nil =>
    cases b with
    | nil => simp [lexLt] at h1
    | cons y bs =>
      cases c with
      | nil => simp [lexLt] at h2
      | cons z cs => simp [lexLt]
  | cons x as_ ih =>
    cases b with
    | nil => simp [lexLt] at h1
    | cons y bs =>
      cases c with
      | nil => simp [lexLt] at h2
      | cons z cs =>
        simp only [lexLt] at h1 h2 ⊢
        rcases lt_trichotomy x y with hxy | hxy | hxy
        · rcases lt_trichotomy y z with hyz | hyz | hyz
          · simp [lt_trans hxy hyz]
          · subst hyz; simp [hxy]
          · simp [hyz, asymm hyz] at h2
        · subst hxy
          rcases lt_trichotomy x z with hxz | hxz | hxz
          · simp [hxz]
          · subst hxz
            simp only [lt_irrefl, if_false] at h1 h2 ⊢
            exact ih h1 h2
          · simp [hxz, asymm hxz] at h2
        · simp [hxy, asymm hxy] at h1

theorem lexLt_trichotomy (a b : Str) :
    lexLt a b = true ∨ a = b ∨ lexLt b a = true := by
  induction a generalizing b with
  | nil =>
    cases b with
    | nil => exact Or.inr (Or.inl rfl)
    | cons y bs => exact Or.inl (by simp [lexLt])
  | cons x as_ ih =>
    cases b with
    | nil => exact Or.inr (Or.inr (by simp [lexLt]))
    | cons y bs =>
      rcases lt_trichotomy x y with h | h | h
      · exact Or.inl (by simp [lexLt, h])
      · subst h
        rcases ih bs with h' | h' | h'
        · exact Or.inl (by simp [lexLt, h'])
        · subst h'; exact Or.inr (Or.inl rfl)
        · exact Or.inr (Or.inr (by simp [lexLt, h']))
      · exact Or.inr (Or.inr (by simp [lexLt, h, asymm h]))

theorem mem_insertSorted {x s : Str} {l : List Str} :
    x ∈ insertSorted s l ↔ x = s ∨ x ∈ l := by
  induction l with
  | nil => simp [insertSorted]
  | cons t rest ih =>
    unfold insertSorted
    by_cases he : s = t
    · subst he; simp
    · by_cases hlt : lexLt s t = true
      · simp [he, hlt, List.mem_cons]
      · simp [he, hlt, List.mem_cons, ih]
        tauto

theorem pairwise_insertSorted (s : Str) (l : List Str) (h : l.Pairwise LexLt) :
    (insertSorted s l).Pairwise LexLt := by
  induction l with
  | nil => simp [insertSorted, List.Pairwise]
  | cons t rest ih =>
    rw [List.pairwise_cons] at h
    obtain ⟨ht, hrest⟩ := h
    unfold insertSorted
    by_cases he : s = t
    · rw [if_pos he]
      exact List.pairwise_cons.mpr ⟨ht, hrest⟩
    · rw [if_neg he]
      by_cases hlt : lexLt s t = true
      · rw [if_pos hlt]
        refine List.pairwise_cons.mpr ⟨fun y hy => ?_, List.pairwise_cons.mpr ⟨ht, hrest⟩⟩
        rcases List.mem_cons.mp hy with rfl | hy'
        · exact hlt
        · exact lexLt_trans hlt (ht y hy')
      · rw [if_neg hlt]
        refine List.pairwise_cons.mpr ⟨fun y hy => ?_, ih hrest⟩
        rcases mem_insertSorted.mp hy with rfl | hy'
        · rcases lexLt_trichotomy y t with h' | h' | h'
          · exact absurd h' hlt
          · exact absurd h' he
          · exact h'
        · exact ht y hy'

theorem pairwise_dedupSort (l : List Str) : (dedupSort l).Pairwise LexLt := by
  induction l with
  | nil => simp [dedupSort, List.Pairwise]
  | cons c rest ih => exact pairwise_insertSorted c (dedupSort rest) ih

/-- C8.  For every candidate list on which the engine completes, the final
output is strictly increasing in Python's lexicographic string order — in
particular it is sorted ascending and contains no duplicate strings. -/
theorem c8_output_sorted_distinct (cands out : List Str)
    (h : enginePipeline cands = Except.ok out) : out.Pairwise LexLt := by
  unfold enginePipeline at h
  cases hc : collectSurvivors cands with
  | error e => rw [hc] at h; simp [Except.map] at h
  | ok l =>
    rw [hc] at h
    simp only [Except.map] at h
    have : dedupSort l = out := by injection h
    rw [← this]
    exact pairwise_dedupSort l

/-- Witness for C8 at a concrete input: two candidates arriving in
descending order leave the engine sorted strictly ascending. -/
theorem c8_output_sorted_distinct_witness :
    (["http://a.example/x".data, "http://b.example/x".data] : List Str).Pairwise LexLt :=
  c8_output_sorted_distinct
    ["http://b.example/x".data, "http://a.example/x".data] _ rfl

/-! ### C2 amended: every output string is the image of a surviving candidate -/

theorem mem_dedupSort {u : Str} {l : List Str} : u ∈ dedupSort l ↔ u ∈ l := by
  induction l with
  | nil => simp [dedupSort]
  | cons c rest ih =>
    show u ∈ insertSorted c (dedupSort rest) ↔ _
    rw [mem_insertSorted, ih, List.mem_cons]

theorem collectSurvivors_mem {cands l : List Str}
    (h : collectSurvivors cands = Except.ok l) {u : Str} (hu : u ∈ l) :
    ∃ c ∈ cands, processCandidate c = Except.ok (some u) := by
  induction cands generalizing l with
  | nil =>
    unfold collectSurvivors at h
    injection h with h'
    subst h'
    simp at hu
  | cons c rest ih =>
    unfold collectSurvivors at h
    cases hp : processCandidate c with
    | error e => rw [hp] at h; exact absurd h (by simp)
    | ok o =>
      rw [hp] at h
      cases o with
      | none =>
        obtain ⟨c', hc', hpc⟩ := ih h hu
        exact ⟨c', List.mem_cons_of_mem _ hc', hpc⟩
      | some v =>
        cases hr : collectSurvivors rest with
        | error e => rw [hr] at h; simp [Except.map] at h
        | ok l' =>
          rw [hr] at h
          simp only [Except.map] at h
          have hl : v :: l' = l := by injection h
          rw [← hl] at hu
          rcases List.mem_cons.mp hu with rfl | hu'
          · exact ⟨c, List.mem_cons_self c rest, hp⟩
          · obtain ⟨c', hc', hpc⟩ := ih hr hu'
            exact ⟨c', List.mem_cons_of_mem _ hc', hpc⟩

/-- C2, amended.  Not every output string is syntactically a URL (an href
like `x` passes through whole, see the counterexample); what holds is the
spec invariant's correspondence half: every string in the final output is
exactly the unwrap-trim-filter-canonicalize image of at least one
extracted candidate that survived the filter. -/
theorem c2_amended_output_from_survivor (cands out : List Str)
    (h : enginePipeline cands = Except.ok out) (u : Str) (hu : u ∈ out) :
    ∃ c ∈ cands, processCandidate c = Except.ok (some u) := by
  unfold enginePipeline at h
  cases hc : collectSurvivors cands with
  | error e => rw [hc] at h; simp [Except.map] at h
  | ok l =>
    rw [hc] at h
    simp only [Except.map] at h
    have : dedupSort l = out := by injection h
    rw [← this] at hu
    exact collectSurvivors_mem hc (mem_dedupSort.mp hu)

/-- Witness for C2 amended at a concrete input. -/
theorem c2_amended_output_from_survivor_witness :
    ∃ c ∈ (["x".data] : List Str), processCandidate c = Except.ok (some "x".data) :=
  c2_amended_output_from_survivor ["x".data] ["x".data] rfl "x".data
    (List.mem_singleton.mpr rfl)

/-! ### C9 amended: what the filter stage guarantees -/

/-- C9, amended.  The filter drops every unwrapped-and-trimmed candidate
that contains `w3.org` as a substring (regardless of path) and every one
whose parsed path, lower-cased, ends in `.png` (regardless of domain):
such a candidate contributes nothing to the output.  (By the
counterexample, this exclusion is about the strings the filter examines,
not about the final output strings: canonicalization may percent-decode a
query value and reintroduce `w3.org` into an output string.) -/
theorem c9_amended_filter (u0 : Str) :
    (containsSub "w3.org".data (trimCand (unwrapGo 5 u0)) = true →
      processCandidate u0 = Except.ok none) ∧
    (∀ p, urlparse? (trimCand (unwrapGo 5 u0)) = some p →
      ".png".data.isSuffixOf (p.path.map asciiLower) = true →
      processCandidate u0 = Except.ok none) := by
  constructor
  · intro hw
    have hd : domainIgnored (trimCand (unwrapGo 5 u0)) = true := by
      unfold domainIgnored ignoredDomains
      simp only [List.any_cons, hw, Bool.true_or]
    unfold processCandidate
    simp [hd]
  · intro p hp hpng
    unfold processCandidate
    by_cases hd : domainIgnored (trimCand (unwrapGo 5 u0)) = true
    · simp [hd]
    · have he : extIgnored p.path = true := by
        unfold extIgnored ignoredExts
        simp only [List.any_cons]
        rw [hpng]
        simp
      simp [hd, hp, he]

/-- Witness for C9 amended at concrete inputs: a candidate containing
`w3.org` and a candidate with a `.png` path are both dropped. -/
theorem c9_amended_filter_witness :
    processCandidate "http://x.w3.org/a".data = Except.ok none ∧
    processCandidate "http://a.example/img.png".data = Except.ok none :=
  ⟨(c9_amended_filter _).1 (by decide),
   (c9_amended_filter _).2
     ⟨"http".data, "a.example".data, "/img.png".data, [], [], []⟩
     (by decide) (by decide)⟩

/-! ### Splitting infrastructure for the canonicalizer development -/

theorem splitFirst_of_not_mem {sep : Char} {l : Str} (h : sep ∉ l) :
    splitFirst sep l = none := by
  induction l with
  | nil => rfl
  | cons c cs ih =>
    have hc : ¬(c = sep) := fun hc => h (by simp [hc])
    simp [splitFirst, hc, ih (fun hm => h (List.mem_cons_of_mem _ hm))]

theorem splitFirst_append {sep : Char} {a : Str} (b : Str) (h : sep ∉ a) :
    splitFirst sep (a ++ sep :: b) = some (a, b) := by
  induction a with
  | nil => simp [splitFirst]
  | cons c cs ih =>
    have hc : ¬(c = sep) := fun hc => h (by simp [hc])
    simp [splitFirst, hc, ih (fun hm => h (List.mem_cons_of_mem _ hm))]

theorem splitFirst_eq_some {sep : Char} {l a b : Str}
    (h : splitFirst sep l = some (a, b)) : l = a ++ sep :: b ∧ sep ∉ a := by
  induction l generalizing a b with
  | nil => exact absurd h (by simp [splitFirst])
  | cons c cs ih =>
    by_cases hc : c = sep
    · subst hc
      simp [splitFirst] at h
      obtain ⟨rfl, rfl⟩ := h
      simp
    · simp only [splitFirst, if_neg hc] at h
      cases hs : splitFirst sep cs with
      | none => rw [hs] at h; exact absurd h (by simp)
      | some ab =>
        rw [hs] at h
        simp only [Option.map_some'] at h
        have h1 : c :: ab.1 = a := congrArg Prod.fst (Option.some.inj h)
        have h2 : ab.2 = b := congrArg Prod.snd (Option.some.inj h)
        obtain ⟨hl, hm⟩ := ih (hs.trans (congrArg some (Prod.mk.eta).symm))
        constructor
        · rw [← h1, ← h2, hl]; rfl
        · rw [← h1]
          intro hmem
          rcases List.mem_cons.mp hmem with h' | h'
          · exact hc h'.symm
          · exact hm h'

theorem splitLast_eq_some {sep : Char} {l a b : Str}
    (h : splitLast sep l = some (a, b)) : l = a ++ sep :: b ∧ sep ∉ b := by
  unfold splitLast at h
  cases hs : splitFirst sep l.reverse with
  | none => rw [hs] at h; exact absurd h (by simp)
  | some xy =>
    rw [hs] at h
    simp only [Option.map_some'] at h
    have h1 : xy.2.reverse = a := congrArg Prod.fst (Option.some.inj h)
    have h2 : xy.1.reverse = b := congrArg Prod.snd (Option.some.inj h)
    obtain ⟨hl, hm⟩ := splitFirst_eq_some
      (hs.trans (congrArg some (Prod.mk.eta).symm))
    constructor
    · have := congrArg List.reverse hl
      rw [List.reverse_reverse] at this
      rw [this, ← h1, ← h2]
      simp
    · rw [← h2]
      intro hmem
      exact hm (by simpa using hmem)

theorem splitLast_of_not_mem {sep : Char} {l : Str} (h : sep ∉ l) :
    splitLast sep l = none := by
  unfold splitLast
  rw [splitFirst_of_not_mem (by simpa using h)]
  rfl

theorem takeWhile_netloc {nl rest : Str}
    (h1 : ∀ c ∈ nl, ¬(c = '/' ∨ c = '?' ∨ c = '#'))
    (h2 : rest = [] ∨ ∃ c cs, rest = c :: cs ∧ (c = '/' ∨ c = '?' ∨ c = '#')) :
    (nl ++ rest).takeWhile (fun c => ¬(c = '/' ∨ c = '?' ∨ c = '#')) = nl := by
  induction nl with
  | nil =>
    rcases h2 with rfl | ⟨c, cs, rfl, hc⟩
    · rfl
    · rw [List.nil_append, List.takeWhile_cons, decide_eq_false (not_not_intro hc)]
      simp
  | cons c nl' ih =>
    have hc := h1 c (List.mem_cons_self _ _)
    have ihr := ih (fun x hx => h1 x (List.mem_cons_of_mem _ hx))
    rw [List.cons_append, List.takeWhile_cons, decide_eq_true hc]
    simp only [if_true]
    rw [ihr]

theorem dropWhile_netloc {nl rest : Str}
    (h1 : ∀ c ∈ nl, ¬(c = '/' ∨ c = '?' ∨ c = '#'))
    (h2 : rest = [] ∨ ∃ c cs, rest = c :: cs ∧ (c = '/' ∨ c = '?' ∨ c = '#')) :
    (nl ++ rest).dropWhile (fun c => ¬(c = '/' ∨ c = '?' ∨ c = '#')) = rest := by
  induction nl with
  | nil =>
    rcases h2 with rfl | ⟨c, cs, rfl, hc⟩
    · rfl
    · rw [List.nil_append, List.dropWhile_cons, decide_eq_false (not_not_intro hc)]
      simp
  | cons c nl' ih =>
    have hc := h1 c (List.mem_cons_self _ _)
    have ihr := ih (fun x hx => h1 x (List.mem_cons_of_mem _ hx))
    rw [List.cons_append, List.dropWhile_cons, decide_eq_true hc]
    simp only [if_true]
    rw [ihr]

theorem splitNetloc_append {nl rest : Str}
    (h1 : ∀ c ∈ nl, ¬(c = '/' ∨ c = '?' ∨ c = '#'))
    (h2 : rest = [] ∨ ∃ c cs, rest = c :: cs ∧ (c = '/' ∨ c = '?' ∨ c = '#')) :
    splitNetloc (nl ++ rest) = (nl, rest) := by
  unfold splitNetloc
  rw [takeWhile_netloc h1 h2, dropWhile_netloc h1 h2]

/-! ### Character facts -/

theorem toNat_ofNat_valid {n : Nat} (h : n.isValidChar) : (Char.ofNat n).toNat = n := by
  unfold Char.ofNat
  rw [dif_pos h]
  unfold Char.ofNatAux Char.toNat
  simp [UInt32.toNat]

theorem isValidChar_of_lt {n : Nat} (h : n < 0xD800) : n.isValidChar := Or.inl h

/-! ### Percent-decode equations and the quote roundtrip -/

theorem pct_nil : pctDecodeBytes [] = [] := rfl

theorem splitPct_cons (c : Char) (l : Str) :
    splitPct (c :: l) =
      if c = '%' then ([], (splitPct l).1 :: (splitPct l).2)
      else (c :: (splitPct l).1, (splitPct l).2) := rfl

theorem pct_cons {c : Char} (hc : c ≠ '%') (l : Str) :
    pctDecodeBytes (c :: l) = c.toNat :: pctDecodeBytes l := by
  unfold pctDecodeBytes
  rw [splitPct_cons, if_neg hc]
  simp

theorem hexVal_ne_pct {c : Char} {h : Nat} (hh : hexVal c = some h) : c ≠ '%' := by
  intro e
  subst e
  rw [show hexVal '%' = none from rfl] at hh
  cases hh

theorem pctPiece_hex {c1 c2 : Char} {h l : Nat}
    (h1 : hexVal c1 = some h) (h2 : hexVal c2 = some l) (rest : Str) :
    pctPiece (c1 :: c2 :: rest) = (16 * h + l) :: rest.map Char.toNat := by
  show (match hexVal c1, hexVal c2 with
    | some h, some l => (16 * h + l) :: rest.map Char.toNat
    | _, _ => 0x25 :: (c1 :: c2 :: rest).map Char.toNat) = _
  rw [h1, h2]

theorem pct_esc {c1 c2 : Char} {h l : Nat}
    (h1 : hexVal c1 = some h) (h2 : hexVal c2 = some l) (rest : Str) :
    pctDecodeBytes ('%' :: c1 :: c2 :: rest) = (16 * h + l) :: pctDecodeBytes rest := by
  have hc1 := hexVal_ne_pct h1
  have hc2 := hexVal_ne_pct h2
  unfold pctDecodeBytes
  rw [show splitPct ('%' :: c1 :: c2 :: rest)
      = ([], (c1 :: c2 :: (splitPct rest).1) :: (splitPct rest).2) from by
    rw [splitPct_cons, if_pos rfl, splitPct_cons, if_neg hc1, splitPct_cons, if_neg hc2]]
  simp only [List.map_nil, List.nil_append, List.flatMap_cons]
  rw [pctPiece_hex h1 h2]
  simp

theorem hexVal_hexDigitUpper {n : Nat} (h : n < 16) :
    hexVal (hexDigitUpper n) = some n := by
  interval_cases n <;> rfl

theorem utf8dGo_none_cons (b : Nat) (bs : List Nat) :
    utf8dGo none (b :: bs) = (utf8Lead b).1 ++ utf8dGo (utf8Lead b).2 bs := rfl

theorem utf8dGo_mk_ok {va lo hi b : Nat} (hlo : lo ≤ b) (hhi : b ≤ hi) (bs : List Nat) :
    utf8dGo (some ⟨1, va, lo, hi⟩) (b :: bs)
      = Char.ofNat (va * 0x40 + (b - 0x80)) :: utf8dGo none bs := by
  show (if lo ≤ b ∧ b ≤ hi then
      if (1 : Nat) = 1 then Char.ofNat (va * 0x40 + (b - 0x80)) :: utf8dGo none bs
      else utf8dGo (some ⟨1 - 1, va * 0x40 + (b - 0x80), 0x80, 0xBF⟩) bs
    else
      match utf8Lead b with
      | (cs, st) => repChar :: (cs ++ utf8dGo st bs)) = _
  rw [if_pos ⟨hlo, hhi⟩, if_pos rfl]

theorem utf8dGo_mk_step {ne va lo hi b : Nat} (hlo : lo ≤ b) (hhi : b ≤ hi)
    (hne : ne ≠ 1) (bs : List Nat) :
    utf8dGo (some ⟨ne, va, lo, hi⟩) (b :: bs)
      = utf8dGo (some ⟨ne - 1, va * 0x40 + (b - 0x80), 0x80, 0xBF⟩) bs := by
  show (if lo ≤ b ∧ b ≤ hi then
      if ne = 1 then Char.ofNat (va * 0x40 + (b - 0x80)) :: utf8dGo none bs
      else utf8dGo (some ⟨ne - 1, va * 0x40 + (b - 0x80), 0x80, 0xBF⟩) bs
    else
      match utf8Lead b with
      | (cs, st) => repChar :: (cs ++ utf8dGo st bs)) = _
  rw [if_pos ⟨hlo, hhi⟩, if_neg hne]

theorem utf8dGo_encodeChar (c : Char) (rest : List Nat) :
    utf8dGo none (utf8EncodeChar c ++ rest) = c :: utf8dGo none rest := by
  have hlt : c.toNat < 0xD800 ∨ (0xDFFF < c.toNat ∧ c.toNat < 0x110000) := c.valid
  by_cases h1 : c.toNat ≤ 0x7F
  · have henc : utf8EncodeChar c = [c.toNat] := by
      simp only [utf8EncodeChar]
      rw [if_pos h1]
    rw [henc, List.cons_append, List.nil_append, utf8dGo_none_cons]
    have hl : utf8Lead c.toNat = ([Char.ofNat c.toNat], none) := by
      unfold utf8Lead
      rw [if_pos h1]
    rw [hl]
    simp [Char.ofNat_toNat]
  · by_cases h2 : c.toNat ≤ 0x7FF
    · have henc : utf8EncodeChar c = [0xC0 + c.toNat / 0x40, 0x80 + c.toNat % 0x40] := by
        simp only [utf8EncodeChar]
        rw [if_neg h1, if_pos h2]
      rw [henc]
      simp only [List.cons_append, List.nil_append]
      rw [utf8dGo_none_cons]
      have hl : utf8Lead (0xC0 + c.toNat / 0x40)
          = ([], some ⟨1, 0xC0 + c.toNat / 0x40 - 0xC0, 0x80, 0xBF⟩) := by
        unfold utf8Lead
        rw [if_neg (by omega), if_pos (by omega)]
      rw [hl]
      simp only [List.nil_append]
      rw [utf8dGo_mk_ok (by omega) (by omega)]
      have hv : (0xC0 + c.toNat / 0x40 - 0xC0) * 0x40 + (0x80 + c.toNat % 0x40 - 0x80)
          = c.toNat := by omega
      rw [hv, Char.ofNat_toNat]
    · by_cases h3 : c.toNat ≤ 0xFFFF
      · have hns : c.toNat < 0xD800 ∨ 0xDFFF < c.toNat := by
          rcases hlt with h | ⟨h, _⟩
          · exact Or.inl h
          · exact Or.inr h
        have henc : utf8EncodeChar c = [0xE0 + c.toNat / 0x1000,
            0x80 + (c.toNat / 0x40) % 0x40, 0x80 + c.toNat % 0x40] := by
          simp only [utf8EncodeChar]
          rw [if_neg h1, if_neg h2, if_pos h3]
        rw [henc]
        simp only [List.cons_append, List.nil_append]
        rw [utf8dGo_none_cons]
        have hl : utf8Lead (0xE0 + c.toNat / 0x1000)
            = ([], some ⟨2, 0xE0 + c.toNat / 0x1000 - 0xE0,
                if 0xE0 + c.toNat / 0x1000 = 0xE0 then 0xA0 else 0x80,
                if 0xE0 + c.toNat / 0x1000 = 0xED then 0x9F else 0xBF⟩) := by
          unfold utf8Lead
          rw [if_neg (by omega), if_neg (by omega), if_pos (by omega)]
        rw [hl]
        simp only [List.nil_append]
        have hlo : (if 0xE0 + c.toNat / 0x1000 = 0xE0 then 0xA0 else 0x80)
            ≤ 0x80 + (c.toNat / 0x40) % 0x40 := by
          by_cases hE : 0xE0 + c.toNat / 0x1000 = 0xE0
          · rw [if_pos hE]; omega
          · rw [if_neg hE]; omega
        have hhi : 0x80 + (c.toNat / 0x40) % 0x40
            ≤ (if 0xE0 + c.toNat / 0x1000 = 0xED then 0x9F else 0xBF) := by
          by_cases hE : 0xE0 + c.toNat / 0x1000 = 0xED
          · rw [if_pos hE]
            rcases hns with h | h <;> omega
          · rw [if_neg hE]; omega
        rw [utf8dGo_mk_step hlo hhi (by omega)]
        rw [utf8dGo_mk_ok (by omega) (by omega)]
        have hv : ((0xE0 + c.toNat / 0x1000 - 0xE0) * 0x40
              + (0x80 + (c.toNat / 0x40) % 0x40 - 0x80)) * 0x40
            + (0x80 + c.toNat % 0x40 - 0x80) = c.toNat := by omega
        rw [hv, Char.ofNat_toNat]
      · have h4 : c.toNat ≤ 0x10FFFF := by
          rcases hlt with h | ⟨_, h⟩ <;> omega
        have henc : utf8EncodeChar c = [0xF0 + c.toNat / 0x40000,
            0x80 + (c.toNat / 0x1000) % 0x40, 0x80 + (c.toNat / 0x40) % 0x40,
            0x80 + c.toNat % 0x40] := by
          simp only [utf8EncodeChar]
          rw [if_neg h1, if_neg h2, if_neg h3]
        rw [henc]
        simp only [List.cons_append, List.nil_append]
        rw [utf8dGo_none_cons]
        have hl : utf8Lead (0xF0 + c.toNat / 0x40000)
            = ([], some ⟨3, 0xF0 + c.toNat / 0x40000 - 0xF0,
                if 0xF0 + c.toNat / 0x40000 = 0xF0 then 0x90 else 0x80,
                if 0xF0 + c.toNat / 0x40000 = 0xF4 then 0x8F else 0xBF⟩) := by
          unfold utf8Lead
          rw [if_neg (by omega), if_neg (by omega), if_neg (by omega), if_pos (by omega)]
        rw [hl]
        simp only [List.nil_append]
        have hlo : (if 0xF0 + c.toNat / 0x40000 = 0xF0 then 0x90 else 0x80)
            ≤ 0x80 + (c.toNat / 0x1000) % 0x40 := by
          by_cases hE : 0xF0 + c.toNat / 0x40000 = 0xF0
          · rw [if_pos hE]; omega
          · rw [if_neg hE]; omega
        have hhi : 0x80 + (c.toNat / 0x1000) % 0x40
            ≤ (if 0xF0 + c.toNat / 0x40000 = 0xF4 then 0x8F else 0xBF) := by
          by_cases hE : 0xF0 + c.toNat / 0x40000 = 0xF4
          · rw [if_pos hE]; omega
          · rw [if_neg hE]; omega
        rw [utf8dGo_mk_step hlo hhi (by omega)]
        rw [utf8dGo_mk_step (by omega) (by omega) (by omega)]
        rw [utf8dGo_mk_ok (by omega) (by omega)]
        have hv : (((0xF0 + c.toNat / 0x40000 - 0xF0) * 0x40
              + (0x80 + (c.toNat / 0x1000) % 0x40 - 0x80)) * 0x40
              + (0x80 + (c.toNat / 0x40) % 0x40 - 0x80)) * 0x40
            + (0x80 + c.toNat % 0x40 - 0x80) = c.toNat := by omega
        rw [hv, Char.ofNat_toNat]

theorem utf8d_utf8Encode (s : Str) : utf8d (utf8Encode s) = s := by
  induction s with
  | nil => rfl
  | cons c cs ih =>
    show utf8dGo none (utf8EncodeChar c ++ utf8Encode cs) = c :: cs
    rw [utf8dGo_encodeChar]
    exact congrArg (c :: ·) ih

theorem flatMap_congr {α β : Type} {l : List α} {f g : α → List β}
    (h : ∀ a ∈ l, f a = g a) : l.flatMap f = l.flatMap g := by
  induction l with
  | nil => rfl
  | cons a as_ ih =>
    simp only [List.flatMap_cons]
    rw [h a (List.mem_cons_self _ _), ih (fun x hx => h x (List.mem_cons_of_mem _ hx))]

theorem char_toNat_inj {c d : Char} (h : c.toNat = d.toNat) : c = d := by
  have h2 := congrArg Char.ofNat h
  rwa [Char.ofNat_toNat, Char.ofNat_toNat] at h2

theorem utf8EncodeChar_lt (c : Char) : ∀ b ∈ utf8EncodeChar c, b < 0x100 := by
  have hlt : c.toNat < 0xD800 ∨ (0xDFFF < c.toNat ∧ c.toNat < 0x110000) := c.valid
  intro b hb
  unfold utf8EncodeChar at hb
  by_cases h1 : c.toNat ≤ 0x7F
  · simp only [h1, if_true] at hb
    simp at hb
    omega
  · by_cases h2 : c.toNat ≤ 0x7FF
    · simp only [h1, h2, if_false, if_true] at hb
      simp at hb
      rcases hb with rfl | rfl <;> omega
    · by_cases h3 : c.toNat ≤ 0xFFFF
      · simp only [h1, h2, h3, if_false, if_true] at hb
        simp at hb
        rcases hb with rfl | rfl | rfl <;> omega
      · simp only [h1, h2, h3, if_false] at hb
        simp at hb
        rcases hb with rfl | rfl | rfl | rfl <;> omega

theorem utf8Encode_lt (s : Str) : ∀ b ∈ utf8Encode s, b < 0x100 := by
  intro b hb
  unfold utf8Encode at hb
  obtain ⟨c, _, hbc⟩ := List.mem_flatMap.mp hb
  exact utf8EncodeChar_lt c b hbc

theorem space_mem_utf8Encode {s : Str} (h : (0x20 : Nat) ∈ utf8Encode s) : ' ' ∈ s := by
  unfold utf8Encode at h
  obtain ⟨c, hc, hb⟩ := List.mem_flatMap.mp h
  have hlt : c.toNat < 0xD800 ∨ (0xDFFF < c.toNat ∧ c.toNat < 0x110000) := c.valid
  unfold utf8EncodeChar at hb
  by_cases h1 : c.toNat ≤ 0x7F
  · simp only [h1, if_true] at hb
    simp at hb
    have hce : c = ' ' := char_toNat_inj (by rw [← hb]; rfl)
    rwa [hce] at hc
  · exfalso
    by_cases h2 : c.toNat ≤ 0x7FF
    · simp only [h1, h2, if_false, if_true] at hb
      simp at hb
      rcases hb with h | h <;> omega
    · by_cases h3 : c.toNat ≤ 0xFFFF
      · simp only [h1, h2, h3, if_false, if_true] at hb
        simp at hb
        rcases hb with h | h | h <;> omega
      · simp only [h1, h2, h3, if_false] at hb
        simp at hb
        rcases hb with h | h | h | h <;> omega

theorem hexDigitUpper_lt {n : Nat} (h : n < 16) :
    (0x2F < (hexDigitUpper n).toNat ∧ (hexDigitUpper n).toNat ≤ 0x39) ∨
    (0x40 < (hexDigitUpper n).toNat ∧ (hexDigitUpper n).toNat ≤ 0x46) := by
  unfold hexDigitUpper
  by_cases h10 : n < 10
  · rw [if_pos h10]
    rw [toNat_ofNat_valid (isValidChar_of_lt (by omega))]
    omega
  · rw [if_neg h10]
    rw [toNat_ofNat_valid (isValidChar_of_lt (by omega))]
    omega

theorem alwaysSafeByte_range {b : Nat} (h : alwaysSafeByte b = true) :
    0x2C < b ∧ b ≤ 0x7E ∧ b ≠ 0x25 ∧ b ≠ 0x20 ∧ b ≠ 0x3D ∧ b ≠ 0x3F := by
  unfold alwaysSafeByte at h
  simp at h
  omega

theorem ofNat_ne_char {b t : Nat} {d : Char} (hval : (Char.ofNat b).toNat = b)
    (hd : d.toNat = t) (h : b ≠ t) : Char.ofNat b ≠ d := by
  intro he
  have h2 := congrArg Char.toNat he
  rw [hval, hd] at h2
  exact h h2

theorem hexDigitUpper_ne {n t : Nat} {d : Char} (hn : n < 16) (hd : d.toNat = t)
    (h : t ≤ 0x2F ∨ (0x39 < t ∧ t ≤ 0x40) ∨ 0x46 < t) : hexDigitUpper n ≠ d := by
  intro he
  have h2 := hexDigitUpper_lt hn
  have h3 := congrArg Char.toNat he
  rw [hd] at h3
  omega

theorem spByte_chars {b : Nat} (hb : b < 0x100) :
    ∀ c ∈ spByte b, c.toNat ≤ 0x7F ∧ 0x1F < c.toNat ∧ c ≠ '+' ∧
      c ≠ '&' ∧ c ≠ '=' ∧ c ≠ '?' ∧ c ≠ '#' := by
  intro c hc
  unfold spByte at hc
  by_cases hsp : b = 0x20
  · rw [if_pos hsp] at hc
    simp at hc
    subst hc
    refine ⟨by decide, by decide, by decide, by decide, by decide, by decide, by decide⟩
  · rw [if_neg hsp] at hc
    unfold quoteByte at hc
    by_cases hsafe : alwaysSafeByte b = true ∨ b ∈ ([] : List Nat)
    · rw [if_pos hsafe] at hc
      simp at hc
      subst hc
      have hsb : alwaysSafeByte b = true := by
        rcases hsafe with h | h
        · exact h
        · simp at h
      obtain ⟨hr1, hr2, hr3, hr4, hr5, hr6⟩ := alwaysSafeByte_range hsb
      have hval : (Char.ofNat b).toNat = b :=
        toNat_ofNat_valid (isValidChar_of_lt (by omega))
      exact ⟨by omega, by omega,
        ofNat_ne_char hval (show ('+').toNat = 0x2B from rfl) (by omega),
        ofNat_ne_char hval (show ('&').toNat = 0x26 from rfl) (by omega),
        ofNat_ne_char hval (show ('=').toNat = 0x3D from rfl) (by omega),
        ofNat_ne_char hval (show ('?').toNat = 0x3F from rfl) (by omega),
        ofNat_ne_char hval (show ('#').toNat = 0x23 from rfl) (by omega)⟩
    · rw [if_neg hsafe] at hc
      simp at hc
      rcases hc with rfl | rfl | rfl
      · refine ⟨by decide, by decide, by decide, by decide, by decide, by decide, by decide⟩
      · have hn : b / 16 < 16 := by omega
        have h2 := hexDigitUpper_lt hn
        exact ⟨by omega, by omega,
          hexDigitUpper_ne hn (show ('+').toNat = 0x2B from rfl) (by omega),
          hexDigitUpper_ne hn (show ('&').toNat = 0x26 from rfl) (by omega),
          hexDigitUpper_ne hn (show ('=').toNat = 0x3D from rfl) (by omega),
          hexDigitUpper_ne hn (show ('?').toNat = 0x3F from rfl) (by omega),
          hexDigitUpper_ne hn (show ('#').toNat = 0x23 from rfl) (by omega)⟩
      · have hn : b % 16 < 16 := by omega
        have h2 := hexDigitUpper_lt hn
        exact ⟨by omega, by omega,
          hexDigitUpper_ne hn (show ('+').toNat = 0x2B from rfl) (by omega),
          hexDigitUpper_ne hn (show ('&').toNat = 0x26 from rfl) (by omega),
          hexDigitUpper_ne hn (show ('=').toNat = 0x3D from rfl) (by omega),
          hexDigitUpper_ne hn (show ('?').toNat = 0x3F from rfl) (by omega),
          hexDigitUpper_ne hn (show ('#').toNat = 0x23 from rfl) (by omega)⟩

theorem pct_spByte {bs : List Nat} (hb : ∀ b ∈ bs, b < 0x100) :
    pctDecodeBytes (bs.flatMap spByte) = bs := by
  induction bs with
  | nil => rfl
  | cons b bs_ ih =>
    have hblt := hb b (List.mem_cons_self _ _)
    have ihr := ih (fun x hx => hb x (List.mem_cons_of_mem _ hx))
    simp only [List.flatMap_cons]
    by_cases hsp : b = 0x20
    · subst hsp
      rw [show spByte 0x20 = [' '] from rfl, List.cons_append,
        List.nil_append, pct_cons (by decide)]
      rw [ihr]
      rfl
    · rw [show spByte b = quoteByte [] b from if_neg hsp]
      unfold quoteByte
      by_cases hsafe : alwaysSafeByte b = true ∨ b ∈ ([] : List Nat)
      · rw [if_pos hsafe]
        have hsb : alwaysSafeByte b = true := by
          rcases hsafe with h | h
          · exact h
          · simp at h
        obtain ⟨hr1, hr2, hr3, _⟩ := alwaysSafeByte_range hsb
        have hval : (Char.ofNat b).toNat = b :=
          toNat_ofNat_valid (isValidChar_of_lt (by omega))
        have hne : Char.ofNat b ≠ '%' := by
          intro he
          have h2 := congrArg Char.toNat he
          rw [hval, show ('%').toNat = 0x25 from rfl] at h2
          omega
        rw [List.cons_append, List.nil_append, pct_cons hne, hval, ihr]
      · rw [if_neg hsafe]
        simp only [List.cons_append, List.nil_append]
        rw [pct_esc (hexVal_hexDigitUpper (show b / 16 < 16 by omega))
          (hexVal_hexDigitUpper (show b % 16 < 16 by omega))]
        rw [ihr]
        congr 1
        omega

theorem unquoteGo_ascii {l : Str} (h : ∀ c ∈ l, c.toNat ≤ 0x7F) (acc : Str) :
    unquoteGo acc l = unquoteAscii (acc.reverse ++ l) := by
  induction l generalizing acc with
  | nil => simp [unquoteGo]
  | cons c rest ih =>
    have hc := h c (List.mem_cons_self _ _)
    unfold unquoteGo
    rw [if_pos hc, ih (fun x hx => h x (List.mem_cons_of_mem _ hx))]
    simp

theorem unquote_ascii {l : Str} (h : ∀ c ∈ l, c.toNat ≤ 0x7F) :
    unquote l = unquoteAscii l := by
  unfold unquote
  rw [unquoteGo_ascii h]
  rfl

theorem quoteByte_extra_spByte (b : Nat) : quoteByte [0x20] b = spByte b := by
  by_cases hsp : b = 0x20
  · subst hsp
    rfl
  · rw [show spByte b = quoteByte [] b from if_neg hsp]
    unfold quoteByte
    by_cases hsafe : alwaysSafeByte b = true
    · rw [if_pos (Or.inl hsafe), if_pos (Or.inl hsafe)]
    · have h1 : ¬(alwaysSafeByte b = true ∨ b ∈ ([0x20] : List Nat)) := by
        rintro (h | h)
        · exact hsafe h
        · exact hsp (by simpa using h)
      have h2 : ¬(alwaysSafeByte b = true ∨ b ∈ ([] : List Nat)) := by
        rintro (h | h)
        · exact hsafe h
        · simp at h
      rw [if_neg h1, if_neg h2]

theorem map_p2s_id {l : Str} (h : ∀ c ∈ l, c ≠ '+') :
    l.map (fun c => if c = '+' then ' ' else c) = l := by
  induction l with
  | nil => rfl
  | cons c rest ih =>
    simp only [List.map_cons]
    rw [if_neg (h c (List.mem_cons_self _ _)),
      ih (fun x hx => h x (List.mem_cons_of_mem _ hx))]

theorem map_s2p_p2s {l : Str} (h : ∀ c ∈ l, c ≠ '+') :
    (l.map (fun c => if c = ' ' then '+' else c)).map
      (fun c => if c = '+' then ' ' else c) = l := by
  induction l with
  | nil => rfl
  | cons c rest ih =>
    simp only [List.map_cons]
    rw [ih (fun x hx => h x (List.mem_cons_of_mem _ hx))]
    by_cases hsp : c = ' '
    · rw [if_pos hsp, if_pos rfl, hsp]
    · rw [if_neg hsp, if_neg (h c (List.mem_cons_self _ _))]

theorem spByte_flatMap_no_plus {bs : List Nat} (hb : ∀ b ∈ bs, b < 0x100) :
    ∀ c ∈ bs.flatMap spByte, c ≠ '+' := by
  intro c hc
  obtain ⟨b, hbm, hcb⟩ := List.mem_flatMap.mp hc
  exact (spByte_chars (hb b hbm) c hcb).2.2.1

theorem quotePlus_map_p2s (s : Str) :
    (quotePlus s).map (fun c => if c = '+' then ' ' else c)
      = (utf8Encode s).flatMap spByte := by
  unfold quotePlus
  by_cases hsp : ' ' ∈ s
  · rw [if_pos hsp]
    unfold pyQuote
    rw [flatMap_congr (fun b _ => quoteByte_extra_spByte b)]
    exact map_s2p_p2s (spByte_flatMap_no_plus (utf8Encode_lt s))
  · rw [if_neg hsp]
    unfold pyQuote
    have hnosp : ∀ b ∈ utf8Encode s, b ≠ 0x20 := by
      intro b hbm he
      exact hsp (space_mem_utf8Encode (he ▸ hbm))
    rw [flatMap_congr (fun b hbm =>
      (show spByte b = quoteByte [] b from if_neg (hnosp b hbm)).symm)]
    exact map_p2s_id (spByte_flatMap_no_plus (utf8Encode_lt s))

theorem spByte_all_ascii {bs : List Nat} (hb : ∀ b ∈ bs, b < 0x100) :
    ∀ c ∈ bs.flatMap spByte, c.toNat ≤ 0x7F := by
  intro c hc
  obtain ⟨b, hbm, hcb⟩ := List.mem_flatMap.mp hc
  exact (spByte_chars (hb b hbm) c hcb).1

theorem unquotePlus_quotePlus (s : Str) : unquotePlus (quotePlus s) = s := by
  unfold unquotePlus
  rw [quotePlus_map_p2s]
  rw [unquote_ascii (spByte_all_ascii (utf8Encode_lt s))]
  unfold unquoteAscii
  rw [pct_spByte (utf8Encode_lt s)]
  exact utf8d_utf8Encode s

theorem asciiLower_idem (c : Char) : asciiLower (asciiLower c) = asciiLower c := by
  unfold asciiLower
  by_cases h : 'A' ≤ c ∧ c ≤ 'Z'
  · rw [if_pos h]
    have hv : c.toNat + 32 < 0xD800 := by
      have : c.toNat ≤ 90 := h.2
      omega
    have ht : (Char.ofNat (c.toNat + 32)).toNat = c.toNat + 32 :=
      toNat_ofNat_valid (isValidChar_of_lt hv)
    rw [if_neg]
    intro ⟨hA, hZ⟩
    have h65 : 65 ≤ c.toNat := h.1
    have h90 : c.toNat ≤ 90 := h.2
    have : (Char.ofNat (c.toNat + 32)).toNat ≤ 90 := hZ
    omega
  · rw [if_neg h, if_neg h]


theorem quoteByte_nil_chars {b : Nat} (hb : b < 0x100) :
    ∀ c ∈ quoteByte [] b, 0x20 < c.toNat ∧ c.toNat ≤ 0x7F ∧ c ≠ '&' ∧ c ≠ '=' ∧
      c ≠ '?' ∧ c ≠ '#' := by
  intro c hc
  unfold quoteByte at hc
  by_cases hsafe : alwaysSafeByte b = true ∨ b ∈ ([] : List Nat)
  · rw [if_pos hsafe] at hc
    simp at hc
    subst hc
    have hsb : alwaysSafeByte b = true := by
      rcases hsafe with h | h
      · exact h
      · simp at h
    obtain ⟨hr1, hr2, hr3, hr4, hr5, hr6⟩ := alwaysSafeByte_range hsb
    have hval : (Char.ofNat b).toNat = b :=
      toNat_ofNat_valid (isValidChar_of_lt (by omega))
    exact ⟨by omega, by omega,
      ofNat_ne_char hval (show ('&').toNat = 0x26 from rfl) (by omega),
      ofNat_ne_char hval (show ('=').toNat = 0x3D from rfl) (by omega),
      ofNat_ne_char hval (show ('?').toNat = 0x3F from rfl) (by omega),
      ofNat_ne_char hval (show ('#').toNat = 0x23 from rfl) (by omega)⟩
  · rw [if_neg hsafe] at hc
    simp at hc
    rcases hc with rfl | rfl | rfl
    · exact ⟨by decide, by decide, by decide, by decide, by decide, by decide⟩
    · have hn : b / 16 < 16 := by omega
      have h2 := hexDigitUpper_lt hn
      exact ⟨by omega, by omega,
        hexDigitUpper_ne hn (show ('&').toNat = 0x26 from rfl) (by omega),
        hexDigitUpper_ne hn (show ('=').toNat = 0x3D from rfl) (by omega),
        hexDigitUpper_ne hn (show ('?').toNat = 0x3F from rfl) (by omega),
        hexDigitUpper_ne hn (show ('#').toNat = 0x23 from rfl) (by omega)⟩
    · have hn : b % 16 < 16 := by omega
      have h2 := hexDigitUpper_lt hn
      exact ⟨by omega, by omega,
        hexDigitUpper_ne hn (show ('&').toNat = 0x26 from rfl) (by omega),
        hexDigitUpper_ne hn (show ('=').toNat = 0x3D from rfl) (by omega),
        hexDigitUpper_ne hn (show ('?').toNat = 0x3F from rfl) (by omega),
        hexDigitUpper_ne hn (show ('#').toNat = 0x23 from rfl) (by omega)⟩

theorem quotePlus_chars (s : Str) :
    ∀ c ∈ quotePlus s, 0x20 < c.toNat ∧ c.toNat ≤ 0x7F ∧ c ≠ '&' ∧ c ≠ '=' ∧
      c ≠ '?' ∧ c ≠ '#' := by
  intro c hc
  unfold quotePlus at hc
  by_cases hsp : ' ' ∈ s
  · rw [if_pos hsp] at hc
    obtain ⟨d, hd, hdc⟩ := List.mem_map.mp hc
    unfold pyQuote at hd
    obtain ⟨b, hbm, hdb⟩ := List.mem_flatMap.mp hd
    have hblt := utf8Encode_lt s b hbm
    by_cases hb20 : b = 0x20
    · subst hb20
      have hq : quoteByte [0x20] 0x20 = [' '] := by decide
      rw [hq] at hdb
      simp at hdb
      subst hdb
      rw [if_pos rfl] at hdc
      subst hdc
      exact ⟨by decide, by decide, by decide, by decide, by decide, by decide⟩
    · rw [quoteByte_extra_spByte, show spByte b = quoteByte [] b from if_neg hb20] at hdb
      obtain ⟨p1, p2, p3, p4, p5, p6⟩ := quoteByte_nil_chars hblt d hdb
      have hdne : d ≠ ' ' := by
        intro he
        rw [he] at p1
        exact absurd p1 (by decide)
      rw [if_neg hdne] at hdc
      subst hdc
      exact ⟨p1, p2, p3, p4, p5, p6⟩
  · rw [if_neg hsp] at hc
    unfold pyQuote at hc
    obtain ⟨b, hbm, hdb⟩ := List.mem_flatMap.mp hc
    exact quoteByte_nil_chars (utf8Encode_lt s b hbm) c hdb

theorem quotePlus_ne_nil {s : Str} (h : s ≠ []) : quotePlus s ≠ [] := by
  intro he
  apply h
  rw [← unquotePlus_quotePlus s, he]
  rfl

theorem qslSeg_enc {k v : Str} (hv : v ≠ []) :
    qslSeg (quotePlus k ++ '=' :: quotePlus v) = some (k, v) := by
  unfold qslSeg
  have hne : quotePlus k ++ '=' :: quotePlus v ≠ [] := by simp
  rw [if_neg hne]
  have heq : '=' ∉ quotePlus k := fun hm => ((quotePlus_chars k '=' hm).2.2.2.1) rfl
  rw [splitFirst_append _ heq]
  show (if quotePlus v = [] then none
    else some (unquotePlus (quotePlus k), unquotePlus (quotePlus v))) = _
  rw [if_neg (quotePlus_ne_nil hv), unquotePlus_quotePlus, unquotePlus_quotePlus]

theorem qsPieces_props (m : List (Str × List Str)) :
    ∀ p ∈ qsPieces m, p ≠ [] ∧ '&' ∉ p := by
  intro p hp
  unfold qsPieces at hp
  obtain ⟨kv, _, hpm⟩ := List.mem_flatMap.mp hp
  obtain ⟨v, _, rfl⟩ := List.mem_map.mp hpm
  refine ⟨by simp, ?_⟩
  intro hm
  rcases List.mem_append.mp hm with h | h
  · exact (quotePlus_chars kv.1 '&' h).2.2.1 rfl
  · rcases List.mem_cons.mp h with h | h
    · exact absurd h (by decide)
    · exact (quotePlus_chars v '&' h).2.2.1 rfl

theorem parseQsl_filterMap (q : Str) :
    parseQsl q = (q.splitOn '&').filterMap qslSeg := rfl

theorem urlencode_pieces (m : List (Str × List Str)) :
    urlencode m = List.intercalate ['&'] (qsPieces m) := rfl

theorem filterMap_qslSeg_map {k : Str} {vs : List Str} (hv : ∀ v ∈ vs, v ≠ []) :
    (vs.map (fun v => quotePlus k ++ '=' :: quotePlus v)).filterMap qslSeg
      = vs.map (fun v => (k, v)) := by
  induction vs with
  | nil => rfl
  | cons v vs' ih =>
    simp only [List.map_cons]
    rw [List.filterMap_cons_some (qslSeg_enc (hv v (List.mem_cons_self _ _)))]
    rw [ih (fun x hx => hv x (List.mem_cons_of_mem _ hx))]

theorem filterMap_qslSeg_pieces :
    ∀ {m : List (Str × List Str)}, (∀ kv ∈ m, ∀ v ∈ kv.2, v ≠ []) →
    (qsPieces m).filterMap qslSeg = qsFlatten m := by
  intro m
  induction m with
  | nil => intro _; rfl
  | cons kv m' ih =>
    intro hval
    unfold qsPieces qsFlatten
    simp only [List.flatMap_cons, List.filterMap_append]
    rw [filterMap_qslSeg_map (hval kv (List.mem_cons_self _ _))]
    have := ih (fun x hx v hv => hval x (List.mem_cons_of_mem _ hx) v hv)
    unfold qsPieces qsFlatten at this
    rw [this]

theorem parseQsl_urlencode {m : List (Str × List Str)}
    (hval : ∀ kv ∈ m, ∀ v ∈ kv.2, v ≠ []) :
    parseQsl (urlencode m) = qsFlatten m := by
  rw [parseQsl_filterMap, urlencode_pieces]
  by_cases hp : qsPieces m = []
  · rw [hp]
    have hz : qsFlatten m = [] := by
      unfold qsFlatten
      rw [List.flatMap_eq_nil_iff]
      intro kv hkv
      unfold qsPieces at hp
      rw [List.flatMap_eq_nil_iff] at hp
      have h2 := hp kv hkv
      rw [List.map_eq_nil_iff] at h2 ⊢
      exact h2
    rw [hz]
    rfl
  · rw [List.splitOn_intercalate (qsPieces m) '&'
      (fun l hl => (qsPieces_props m l hl).2) hp]
    exact filterMap_qslSeg_pieces hval

theorem utf8dGo_some_ne_nil : ∀ (bs : List Nat) (p : Utf8Pending),
    utf8dGo (some p) bs ≠ [] := by
  intro bs
  induction bs with
  | nil =>
    intro p
    simp [utf8dGo]
  | cons b bs' ih =>
    intro p
    obtain ⟨ne, va, lo, hi⟩ := p
    show (if lo ≤ b ∧ b ≤ hi then
        if ne = 1 then Char.ofNat (va * 0x40 + (b - 0x80)) :: utf8dGo none bs'
        else utf8dGo (some ⟨ne - 1, va * 0x40 + (b - 0x80), 0x80, 0xBF⟩) bs'
      else
        match utf8Lead b with
        | (cs, st) => repChar :: (cs ++ utf8dGo st bs')) ≠ []
    by_cases hr : lo ≤ b ∧ b ≤ hi
    · rw [if_pos hr]
      by_cases h1 : ne = 1
      · rw [if_pos h1]
        simp
      · rw [if_neg h1]
        exact ih _
    · rw [if_neg hr]
      simp

theorem utf8d_ne_nil {bs : List Nat} (h : bs ≠ []) : utf8d bs ≠ [] := by
  cases bs with
  | nil => exact absurd rfl h
  | cons b bs' =>
    unfold utf8d
    rw [utf8dGo_none_cons]
    unfold utf8Lead
    by_cases h1 : b ≤ 0x7F
    · rw [if_pos h1]
      simp
    · rw [if_neg h1]
      by_cases h2 : 0xC2 ≤ b ∧ b ≤ 0xDF
      · rw [if_pos h2]
        simpa using utf8dGo_some_ne_nil bs' _
      · rw [if_neg h2]
        by_cases h3 : 0xE0 ≤ b ∧ b ≤ 0xEF
        · rw [if_pos h3]
          simpa using utf8dGo_some_ne_nil bs' _
        · rw [if_neg h3]
          by_cases h4 : 0xF0 ≤ b ∧ b ≤ 0xF4
          · rw [if_pos h4]
            simpa using utf8dGo_some_ne_nil bs' _
          · rw [if_neg h4]
            simp

theorem pctPiece_ne_nil (p : Str) : pctPiece p ≠ [] := by
  unfold pctPiece
  split
  · split <;> simp
  · simp

theorem pctDecodeBytes_ne_nil {s : Str} (h : s ≠ []) : pctDecodeBytes s ≠ [] := by
  cases s with
  | nil => exact absurd rfl h
  | cons c rest =>
    unfold pctDecodeBytes
    rw [splitPct_cons]
    by_cases hc : c = '%'
    · rw [if_pos hc]
      simp only [List.map_nil, List.flatMap_cons, List.nil_append]
      intro he
      exact pctPiece_ne_nil _ (List.append_eq_nil.mp he).1
    · rw [if_neg hc]
      simp

theorem unquoteAscii_ne_nil {seg : Str} (h : seg ≠ []) : unquoteAscii seg ≠ [] :=
  utf8d_ne_nil (pctDecodeBytes_ne_nil h)

theorem unquoteGo_ne_nil : ∀ (l acc : Str), acc ≠ [] ∨ l ≠ [] →
    unquoteGo acc l ≠ [] := by
  intro l
  induction l with
  | nil =>
    intro acc h
    rcases h with h | h
    · show unquoteAscii acc.reverse ≠ []
      exact unquoteAscii_ne_nil (by simpa using h)
    · exact absurd rfl h
  | cons c rest ih =>
    intro acc _
    unfold unquoteGo
    by_cases hc : c.toNat ≤ 0x7F
    · rw [if_pos hc]
      exact ih (c :: acc) (Or.inl (by simp))
    · rw [if_neg hc]
      simp

theorem unquote_ne_nil {s : Str} (h : s ≠ []) : unquote s ≠ [] :=
  unquoteGo_ne_nil s [] (Or.inr h)

theorem unquotePlus_ne_nil {s : Str} (h : s ≠ []) : unquotePlus s ≠ [] := by
  unfold unquotePlus
  apply unquote_ne_nil
  simpa using h

theorem parseQsl_snd_ne_nil (q : Str) : ∀ kv ∈ parseQsl q, kv.2 ≠ [] := by
  intro kv hkv
  rw [parseQsl_filterMap] at hkv
  obtain ⟨seg, _, hv⟩ := List.mem_filterMap.mp hkv
  unfold qslSeg at hv
  split at hv
  · exact absurd hv (by simp)
  · split at hv
    · exact absurd hv (by simp)
    · rename_i n v hvne
      split at hv
      · exact absurd hv (by simp)
      · rename_i hvne2
        have := Option.some.inj hv
        rw [← this]
        exact unquotePlus_ne_nil hvne2

theorem qsInsert_fresh : ∀ {m : List (Str × List Str)} {k v : Str},
    (∀ kv ∈ m, kv.1 ≠ k) → qsInsert m k v = m ++ [(k, [v])] := by
  intro m
  induction m with
  | nil => intro k v _; rfl
  | cons hd tl ih =>
    intro k v h
    obtain ⟨k2, vs⟩ := hd
    show (if k2 = k then (k2, vs ++ [v]) :: tl else (k2, vs) :: qsInsert tl k v) = _
    rw [if_neg (h (k2, vs) (List.mem_cons_self _ _))]
    rw [ih (fun kv hkv => h kv (List.mem_cons_of_mem _ hkv))]
    rfl

theorem qsInsert_last : ∀ {a : List (Str × List Str)} {k v : Str} {ws : List Str},
    (∀ kv ∈ a, kv.1 ≠ k) → qsInsert (a ++ [(k, ws)]) k v = a ++ [(k, ws ++ [v])] := by
  intro a
  induction a with
  | nil =>
    intro k v ws _
    show (if k = k then (k, ws ++ [v]) :: [] else (k, ws) :: qsInsert [] k v) = _
    rw [if_pos rfl]
    rfl
  | cons hd tl ih =>
    intro k v ws h
    obtain ⟨k2, vs⟩ := hd
    show (if k2 = k then (k2, vs ++ [v]) :: (tl ++ [(k, ws)])
        else (k2, vs) :: qsInsert (tl ++ [(k, ws)]) k v) = _
    rw [if_neg (h (k2, vs) (List.mem_cons_self _ _))]
    rw [ih (fun kv hkv => h kv (List.mem_cons_of_mem _ hkv))]
    rfl

theorem foldl_qsInsert_vs : ∀ (w : List Str) (a : List (Str × List Str))
    (k : Str) (ws : List Str), (∀ kv ∈ a, kv.1 ≠ k) →
    (w.map (fun v => (k, v))).foldl (fun a2 kv => qsInsert a2 kv.1 kv.2) (a ++ [(k, ws)])
      = a ++ [(k, ws ++ w)] := by
  intro w
  induction w with
  | nil =>
    intro a k ws _
    simp
  | cons v w' ih =>
    intro a k ws h
    simp only [List.map_cons, List.foldl_cons]
    rw [show qsInsert (a ++ [(k, ws)]) k v = a ++ [(k, ws ++ [v])] from qsInsert_last h]
    rw [ih a k (ws ++ [v]) h]
    simp

theorem foldl_qsInsert_flatten : ∀ (m a : List (Str × List Str)),
    (∀ kv ∈ m, kv.2 ≠ []) → m.Pairwise (fun x y => x.1 ≠ y.1) →
    (∀ kv ∈ a, ∀ kv2 ∈ m, kv.1 ≠ kv2.1) →
    (qsFlatten m).foldl (fun a2 kv => qsInsert a2 kv.1 kv.2) a = a ++ m := by
  intro m
  induction m with
  | nil =>
    intro a _ _ _
    simp [qsFlatten]
  | cons kv m' ih =>
    intro a hvv hp hacc
    obtain ⟨k, vs⟩ := kv
    have hvs : vs ≠ [] := hvv (k, vs) (List.mem_cons_self _ _)
    obtain ⟨hk, hptl⟩ := List.pairwise_cons.mp hp
    unfold qsFlatten
    simp only [List.flatMap_cons, List.foldl_append]
    cases vs with
    | nil => exact absurd rfl hvs
    | cons v0 vs1 =>
      simp only [List.map_cons, List.foldl_cons]
      rw [show qsInsert a k v0 = a ++ [(k, [v0])] from
        qsInsert_fresh (fun kv2 hkv2 => hacc kv2 hkv2 (k, v0 :: vs1) (List.mem_cons_self _ _))]
      rw [foldl_qsInsert_vs vs1 a k [v0]
        (fun kv2 hkv2 => hacc kv2 hkv2 (k, v0 :: vs1) (List.mem_cons_self _ _))]
      have ha2 : ∀ kv2 ∈ a ++ [(k, v0 :: vs1)], ∀ kv3 ∈ m', kv2.1 ≠ kv3.1 := by
        intro kv2 hkv2 kv3 hkv3
        rcases List.mem_append.mp hkv2 with h | h
        · exact hacc kv2 h kv3 (List.mem_cons_of_mem _ hkv3)
        · have : kv2 = (k, v0 :: vs1) := by simpa using h
          rw [this]
          exact hk kv3 hkv3
      have := ih (a ++ [(k, v0 :: vs1)])
        (fun kv2 hkv2 => hvv kv2 (List.mem_cons_of_mem _ hkv2)) hptl ha2
      unfold qsFlatten at this
      rw [show ([v0] ++ vs1 : List Str) = v0 :: vs1 from rfl, this]
      simp

theorem parseQs_urlencode {m : List (Str × List Str)} (h : wfQS m) :
    parseQs (urlencode m) = m := by
  unfold parseQs
  rw [parseQsl_urlencode (fun kv hkv => (h.1 kv hkv).2)]
  have h2 := foldl_qsInsert_flatten m [] (fun kv hkv => (h.1 kv hkv).1) h.2 (by simp)
  simpa using h2

theorem qsInsert_keys : ∀ {m : List (Str × List Str)} {k v : Str},
    ∀ kv ∈ qsInsert m k v, kv.1 = k ∨ kv.1 ∈ m.map Prod.fst := by
  intro m
  induction m with
  | nil =>
    intro k v kv hkv
    have : kv = (k, [v]) := by simpa [qsInsert] using hkv
    rw [this]
    exact Or.inl rfl
  | cons hd tl ih =>
    intro k v kv hkv
    obtain ⟨k2, vs⟩ := hd
    by_cases he : k2 = k
    · rw [show qsInsert ((k2, vs) :: tl) k v = (k2, vs ++ [v]) :: tl from by
        show (if k2 = k then _ else _) = _; rw [if_pos he]] at hkv
      rcases List.mem_cons.mp hkv with h | h
      · rw [h]
        exact Or.inr (by simp)
      · exact Or.inr (List.mem_cons_of_mem _ (List.mem_map_of_mem _ h))
    · rw [show qsInsert ((k2, vs) :: tl) k v = (k2, vs) :: qsInsert tl k v from by
        show (if k2 = k then _ else _) = _; rw [if_neg he]] at hkv
      rcases List.mem_cons.mp hkv with h | h
      · rw [h]
        exact Or.inr (by simp)
      · rcases ih kv h with h2 | h2
        · exact Or.inl h2
        · exact Or.inr (List.mem_cons_of_mem _ h2)

theorem qsInsert_vals : ∀ {m : List (Str × List Str)} {k v : Str}, v ≠ [] →
    (∀ kv ∈ m, kv.2 ≠ [] ∧ ∀ x ∈ kv.2, x ≠ []) →
    ∀ kv ∈ qsInsert m k v, kv.2 ≠ [] ∧ ∀ x ∈ kv.2, x ≠ [] := by
  intro m
  induction m with
  | nil =>
    intro k v hv _ kv hkv
    have : kv = (k, [v]) := by simpa [qsInsert] using hkv
    rw [this]
    refine ⟨by simp, ?_⟩
    intro x hx
    have : x = v := by simpa using hx
    rw [this]
    exact hv
  | cons hd tl ih =>
    intro k v hv h kv hkv
    obtain ⟨k2, vs⟩ := hd
    by_cases he : k2 = k
    · rw [show qsInsert ((k2, vs) :: tl) k v = (k2, vs ++ [v]) :: tl from by
        show (if k2 = k then _ else _) = _; rw [if_pos he]] at hkv
      rcases List.mem_cons.mp hkv with h2 | h2
      · rw [h2]
        refine ⟨by simp, ?_⟩
        intro x hx
        rcases List.mem_append.mp hx with h3 | h3
        · exact (h (k2, vs) (List.mem_cons_self _ _)).2 x h3
        · have : x = v := by simpa using h3
          rw [this]
          exact hv
      · exact h kv (List.mem_cons_of_mem _ h2)
    · rw [show qsInsert ((k2, vs) :: tl) k v = (k2, vs) :: qsInsert tl k v from by
        show (if k2 = k then _ else _) = _; rw [if_neg he]] at hkv
      rcases List.mem_cons.mp hkv with h2 | h2
      · rw [h2]
        exact h (k2, vs) (List.mem_cons_self _ _)
      · exact ih hv (fun x hx => h x (List.mem_cons_of_mem _ hx)) kv h2

theorem qsInsert_pairwise : ∀ {m : List (Str × List Str)} {k v : Str},
    m.Pairwise (fun x y => x.1 ≠ y.1) →
    (qsInsert m k v).Pairwise (fun x y => x.1 ≠ y.1) := by
  intro m
  induction m with
  | nil =>
    intro k v _
    simp [qsInsert]
  | cons hd tl ih =>
    intro k v h
    obtain ⟨k2, vs⟩ := hd
    obtain ⟨hk, htl⟩ := List.pairwise_cons.mp h
    by_cases he : k2 = k
    · rw [show qsInsert ((k2, vs) :: tl) k v = (k2, vs ++ [v]) :: tl from by
        show (if k2 = k then _ else _) = _; rw [if_pos he]]
      exact List.pairwise_cons.mpr ⟨hk, htl⟩
    · rw [show qsInsert ((k2, vs) :: tl) k v = (k2, vs) :: qsInsert tl k v from by
        show (if k2 = k then _ else _) = _; rw [if_neg he]]
      refine List.pairwise_cons.mpr ⟨?_, ih htl⟩
      intro kv hkv
      rcases qsInsert_keys kv hkv with h2 | h2
      · rw [h2]
        exact he
      · obtain ⟨kv2, hkv2, hfst⟩ := List.mem_map.mp h2
        rw [← hfst]
        exact hk kv2 hkv2

theorem wfQS_foldl : ∀ (l : List (Str × Str)), (∀ kv ∈ l, kv.2 ≠ []) →
    ∀ (a : List (Str × List Str)), wfQS a →
    wfQS (l.foldl (fun a2 kv => qsInsert a2 kv.1 kv.2) a) := by
  intro l
  induction l with
  | nil => intro _ a h; exact h
  | cons kv l2 ih =>
    intro hl a h
    simp only [List.foldl_cons]
    exact ih (fun x hx => hl x (List.mem_cons_of_mem _ hx)) _
      ⟨qsInsert_vals (hl kv (List.mem_cons_self _ _)) h.1, qsInsert_pairwise h.2⟩

theorem parseQs_wf (q : Str) : wfQS (parseQs q) :=
  wfQS_foldl (parseQsl q) (parseQsl_snd_ne_nil q) [] ⟨by simp, List.Pairwise.nil⟩

theorem wfQS_filter (p : Str × List Str → Bool) {m : List (Str × List Str)}
    (h : wfQS m) : wfQS (m.filter p) :=
  ⟨fun kv hkv => h.1 kv (List.mem_filter.mp hkv).1,
   List.Pairwise.sublist (List.filter_sublist m) h.2⟩

theorem cleanQuery_idem (q : Str) : cleanQuery (cleanQuery q) = cleanQuery q := by
  unfold cleanQuery
  rw [parseQs_urlencode (wfQS_filter _ (parseQs_wf q))]
  rw [List.filter_eq_self.mpr (fun kv hkv => (List.mem_filter.mp hkv).2)]

theorem mem_of_mem_intersperse {α : Type} {sep x : α} :
    ∀ {L : List α}, x ∈ L.intersperse sep → x = sep ∨ x ∈ L := by
  intro L
  induction L with
  | nil =>
    intro h
    simp at h
  | cons a L2 ih =>
    intro h
    cases L2 with
    | nil =>
      simp at h
      exact Or.inr (by simp [h])
    | cons b L3 =>
      rw [List.intersperse_cons₂] at h
      rcases List.mem_cons.mp h with h2 | h2
      · exact Or.inr (by simp [h2])
      · rcases List.mem_cons.mp h2 with h3 | h3
        · exact Or.inl h3
        · rcases ih h3 with h4 | h4
          · exact Or.inl h4
          · exact Or.inr (List.mem_cons_of_mem _ h4)

theorem urlencode_encChar (m : List (Str × List Str)) :
    ∀ c ∈ urlencode m, encChar c = true := by
  intro c hc
  rw [urlencode_pieces] at hc
  unfold List.intercalate at hc
  obtain ⟨l, hl, hcl⟩ := List.mem_flatten.mp hc
  rcases mem_of_mem_intersperse hl with h | h
  · have : c = '&' := by
      rw [h] at hcl
      simpa using hcl
    rw [this]
    decide
  · obtain ⟨kv, _, hpm⟩ := List.mem_flatMap.mp h
    obtain ⟨v, _, rfl⟩ := List.mem_map.mp hpm
    simp only [encChar, Bool.decide_and, Bool.and_eq_true, decide_eq_true_eq]
    rcases List.mem_append.mp hcl with h2 | h2
    · obtain ⟨p1, _, _, _, p5, p6⟩ := quotePlus_chars kv.1 c h2
      exact ⟨p1, p5, p6⟩
    · rcases List.mem_cons.mp h2 with h3 | h3
      · rw [h3]
        exact ⟨by decide, by decide, by decide⟩
      · obtain ⟨p1, _, _, _, p5, p6⟩ := quotePlus_chars v c h3
        exact ⟨p1, p5, p6⟩

theorem cleanQuery_encChar (q : Str) : ∀ c ∈ cleanQuery q, encChar c = true :=
  fun c hc => urlencode_encChar _ c hc

theorem splitFirst_none {sep : Char} : ∀ {l : Str}, splitFirst sep l = none → sep ∉ l := by
  intro l
  induction l with
  | nil =>
    intro _ hm
    simp at hm
  | cons c cs ih =>
    intro h hm
    unfold splitFirst at h
    by_cases hc : c = sep
    · rw [if_pos hc] at h
      simp at h
    · rw [if_neg hc] at h
      rw [Option.map_eq_none'] at h
      rcases List.mem_cons.mp hm with h2 | h2
      · exact hc h2.symm
      · exact ih h h2

theorem splitLast_none {sep : Char} {l : Str} (h : splitLast sep l = none) : sep ∉ l := by
  unfold splitLast at h
  rw [Option.map_eq_none'] at h
  intro hm
  exact splitFirst_none h (List.mem_reverse.mpr hm)

theorem splitLast_append {sep : Char} {a : Str} (b : Str) (h : sep ∉ b) :
    splitLast sep (a ++ sep :: b) = some (a, b) := by
  unfold splitLast
  have he : (a ++ sep :: b).reverse = b.reverse ++ sep :: a.reverse := by simp
  rw [he, splitFirst_append a.reverse (fun hm => h (List.mem_reverse.mp hm))]
  simp

theorem afterLastSlash_no_slash {l : Str} (h : ('/' : Char) ∉ l) : afterLastSlash l = l := by
  unfold afterLastSlash
  cases hs : splitLast '/' l with
  | none => rfl
  | some ab =>
    obtain ⟨a, b⟩ := ab
    obtain ⟨hl, _⟩ := splitLast_eq_some hs
    exact absurd (by rw [hl]; exact List.mem_append.mpr (Or.inr (List.mem_cons_self _ _)))
      h

theorem afterLastSlash_append {a : Str} (b : Str) (h : ('/' : Char) ∉ b) :
    afterLastSlash (a ++ '/' :: b) = b := by
  unfold afterLastSlash
  rw [splitLast_append b h]

theorem afterLastSlash_cons_slash (l : Str) :
    afterLastSlash ('/' :: l) = afterLastSlash l := by
  by_cases h : ('/' : Char) ∈ l
  · cases hs : splitLast '/' l with
    | none => exact absurd h (splitLast_none hs)
    | some ab =>
      obtain ⟨a, b⟩ := ab
      obtain ⟨hl, hm⟩ := splitLast_eq_some hs
      rw [hl]
      rw [show ('/' :: (a ++ '/' :: b) : Str) = ('/' :: a) ++ '/' :: b from rfl]
      rw [afterLastSlash_append b hm, afterLastSlash_append b hm]
  · rw [afterLastSlash_no_slash h]
    rw [show ('/' :: l : Str) = [] ++ '/' :: l from rfl, afterLastSlash_append l h]

theorem dropWhile_head_false {p : Char → Bool} {l : Str}
    (h : ∀ c, l.head? = some c → p c = false) : l.dropWhile p = l := by
  cases l with
  | nil => rfl
  | cons c cs =>
    rw [List.dropWhile_cons, h c rfl]
    simp

theorem filter_unsafe_id {l : Str} (h : ∀ c ∈ l, isUnsafeUrlByte c = false) :
    l.filter (fun c => ¬ isUnsafeUrlByte c) = l := by
  rw [List.filter_eq_self]
  intro c hc
  simp [h c hc]

theorem extractScheme_head_none {l : Str}
    (h : ∀ c, l.head? = some c → c.isAlpha = false) : extractScheme l = none := by
  unfold extractScheme
  cases hs : splitFirst ':' l with
  | none => rfl
  | some pr =>
    obtain ⟨pre, post⟩ := pr
    obtain ⟨hl, _⟩ := splitFirst_eq_some hs
    cases pre with
    | nil => rfl
    | cons c0 pre2 =>
      have hc0 : l.head? = some c0 := by rw [hl]; rfl
      show (if c0.isAlpha ∧ (c0 :: pre2).all schemeChar
        then some ((c0 :: pre2).map asciiLower, post) else none) = none
      rw [if_neg]
      intro hand
      rw [h c0 hc0] at hand
      exact Bool.false_ne_true hand.1

theorem extractScheme_some {s : Str} (r : Str) (hne : s ≠ [])
    (hh : ∀ c, s.head? = some c → c.isAlpha = true)
    (hall : s.all schemeChar = true) (hlow : s.map asciiLower = s) :
    extractScheme (s ++ ':' :: r) = some (s, r) := by
  have hcol : (':' : Char) ∉ s := by
    intro hm
    exact absurd (List.all_eq_true.mp hall ':' hm) (by decide)
  unfold extractScheme
  rw [splitFirst_append r hcol]
  cases s with
  | nil => exact absurd rfl hne
  | cons c0 s2 =>
    show (if c0.isAlpha ∧ (c0 :: s2).all schemeChar
      then some ((c0 :: s2).map asciiLower, r) else none) = _
    rw [if_pos ⟨hh c0 rfl, hall⟩, hlow]

theorem eq_append_cons_of_ne : ∀ (a : Str) (x : Char) (b cs : Str) (y : Char) (ds : Str),
    a ++ x :: b = cs ++ y :: ds → y ∉ a → y ≠ x → ∃ e, cs = a ++ x :: e := by
  intro a
  induction a with
  | nil =>
    intro x b cs y ds he hy hyx
    cases cs with
    | nil =>
      simp at he
      exact absurd he.1.symm hyx
    | cons c cs2 =>
      simp at he
      exact ⟨cs2, by rw [List.nil_append, ← he.1]⟩
  | cons a0 a2 ih =>
    intro x b cs y ds he hy hyx
    cases cs with
    | nil =>
      simp at he
      apply absurd _ hy
      rw [← he.1]
      exact List.mem_cons_self _ _
    | cons c cs2 =>
      simp at he
      obtain ⟨rfl, he2⟩ := he
      obtain ⟨e, hee⟩ := ih x b cs2 y ds he2 (fun hm => hy (List.mem_cons_of_mem _ hm)) hyx
      exact ⟨e, by rw [hee]; rfl⟩

theorem extractScheme_append {u t : Str} (hu : extractScheme u = none)
    (ht : t = [] ∨ ∃ c t2, t = c :: t2 ∧ schemeChar c = false ∧ c ≠ ':') :
    extractScheme (u ++ t) = none := by
  cases hu0 : splitFirst ':' u with
  | some pr =>
    obtain ⟨pre, post⟩ := pr
    obtain ⟨hl, hm⟩ := splitFirst_eq_some hu0
    have hsp : splitFirst ':' (u ++ t) = some (pre, post ++ t) := by
      rw [hl, List.append_assoc]
      exact splitFirst_append (post ++ t) hm
    unfold extractScheme at hu ⊢
    rw [hu0] at hu
    rw [hsp]
    cases pre with
    | nil => rfl
    | cons c0 pre2 =>
      have hu2 : (if c0.isAlpha ∧ (c0 :: pre2).all schemeChar
          then some ((c0 :: pre2).map asciiLower, post) else none) = none := hu
      show (if c0.isAlpha ∧ (c0 :: pre2).all schemeChar
        then some ((c0 :: pre2).map asciiLower, post ++ t) else none) = none
      by_cases hcond : c0.isAlpha = true ∧ (c0 :: pre2).all schemeChar = true
      · rw [if_pos hcond] at hu2
        exact absurd hu2 (by simp)
      · rw [if_neg hcond]
  | none =>
    have hcu : (':' : Char) ∉ u := splitFirst_none hu0
    rcases ht with rfl | ⟨c, t2, rfl, hsc, hct⟩
    · rw [List.append_nil]
      exact hu
    · unfold extractScheme
      cases hs : splitFirst ':' (u ++ c :: t2) with
      | none => rfl
      | some pr =>
        obtain ⟨pre, post⟩ := pr
        obtain ⟨hl, _⟩ := splitFirst_eq_some hs
        obtain ⟨e, hee⟩ := eq_append_cons_of_ne u c t2 pre ':' post hl hcu
          (fun h2 => hct h2.symm)
        have hcm : c ∈ pre := by
          rw [hee]
          exact List.mem_append.mpr (Or.inr (List.mem_cons_self _ _))
        cases pre with
        | nil => rfl
        | cons c0 pre2 =>
          show (if c0.isAlpha ∧ (c0 :: pre2).all schemeChar
            then some ((c0 :: pre2).map asciiLower, post) else none) = none
          rw [if_neg]
          intro hand
          have h3 := List.all_eq_true.mp hand.2 c hcm
          rw [hsc] at h3
          exact Bool.false_ne_true h3

theorem splitParams_restore (w par : Str) (hpar : ('/' : Char) ∉ par)
    (hs : (';' : Char) ∉ afterLastSlash w) :
    splitParams (w ++ ';' :: par) = (w, par) := by
  by_cases hsl : ('/' : Char) ∈ w
  · cases hd : splitLast '/' w with
    | none => exact absurd hsl (splitLast_none hd)
    | some ab =>
      obtain ⟨a, b⟩ := ab
      obtain ⟨hl, hm⟩ := splitLast_eq_some hd
      have hax : (';' : Char) ∉ b := by
        rw [hl, afterLastSlash_append b hm] at hs
        exact hs
      have h1 : splitLast '/' (w ++ ';' :: par) = some (a, b ++ ';' :: par) := by
        rw [hl, List.append_assoc]
        apply splitLast_append
        intro h2
        rcases List.mem_append.mp h2 with h3 | h3
        · exact hm h3
        · rcases List.mem_cons.mp h3 with h3 | h3
          · exact absurd h3 (by decide)
          · exact hpar h3
      unfold splitParams
      rw [h1]
      show (match splitFirst ';' (b ++ ';' :: par) with
        | some (b1, b2) => (a ++ '/' :: b1, b2)
        | none => (w ++ ';' :: par, [])) = (w, par)
      rw [splitFirst_append par hax]
      show (a ++ '/' :: b, par) = (w, par)
      rw [hl]
  · have hplain : (';' : Char) ∉ w := by rwa [afterLastSlash_no_slash hsl] at hs
    have h1 : splitLast '/' (w ++ ';' :: par) = none := by
      apply splitLast_of_not_mem
      intro hm
      rcases List.mem_append.mp hm with h2 | h2
      · exact hsl h2
      · rcases List.mem_cons.mp h2 with h2 | h2
        · exact absurd h2 (by decide)
        · exact hpar h2
    unfold splitParams
    rw [h1]
    show (match splitFirst ';' (w ++ ';' :: par) with
      | some (p1, p2) => (p1, p2)
      | none => (w ++ ';' :: par, [])) = (w, par)
    rw [splitFirst_append par hplain]

theorem splitParams_self (w : Str) (h : (';' : Char) ∉ afterLastSlash w) :
    splitParams w = (w, []) := by
  unfold splitParams
  cases hd : splitLast '/' w with
  | some ab =>
    obtain ⟨a, b⟩ := ab
    obtain ⟨hl, hm⟩ := splitLast_eq_some hd
    have hb : (';' : Char) ∉ b := by
      rw [hl, afterLastSlash_append b hm] at h
      exact h
    show (match splitFirst ';' b with
      | some (b1, b2) => (a ++ '/' :: b1, b2)
      | none => (w, [])) = (w, [])
    rw [splitFirst_of_not_mem hb]
  | none =>
    have hp : (';' : Char) ∉ w := by
      rwa [afterLastSlash_no_slash (splitLast_none hd)] at h
    show (match splitFirst ';' w with
      | some (p1, p2) => (p1, p2)
      | none => (w, [])) = (w, [])
    rw [splitFirst_of_not_mem hp]

theorem urlparse_stages (u : Str) :
    urlparse? u =
      parseNoStrip ((u.dropWhile isC0OrSpace).filter (fun c => ¬ isUnsafeUrlByte c)) := rfl

theorem urlunparse_decomp (p : UrlParts) :
    urlunparse p =
      (if p.scheme = [] then urlCore p else p.scheme ++ ':' :: urlCore p) ++
      ((if p.query = [] then [] else '?' :: p.query) ++
       (if p.fragment = [] then [] else '#' :: p.fragment)) := by
  unfold urlunparse urlCore joinPP
  by_cases hq0 : p.query = [] <;> by_cases hf0 : p.fragment = [] <;>
    by_cases hs0 : p.scheme = [] <;>
    simp [hq0, hf0, hs0, List.append_assoc]

theorem parseRest_eval (scheme netloc w q f : Str)
    (hw : ∀ c ∈ w, c ≠ '?' ∧ c ≠ '#')
    (hq : ∀ c ∈ q, c ≠ '#')
    (hpar : inUsesParams scheme = true → (';' : Char) ∉ afterLastSlash w) :
    parseRest scheme netloc
      (w ++ ((if q = [] then [] else '?' :: q) ++ (if f = [] then [] else '#' :: f)))
      = ⟨scheme, netloc, w, [], q, f⟩ := by
  have hwq : ('?' : Char) ∉ w := fun hm => (hw _ hm).1 rfl
  have hwh : ('#' : Char) ∉ w := fun hm => (hw _ hm).2 rfl
  have hqh : ('#' : Char) ∉ q := fun hm => (hq _ hm) rfl
  have hpp : ∀ u : Str, (if inUsesParams scheme ∧ (';' : Char) ∈ u then splitParams u
      else (u, [])) = (u, []) → True := fun _ _ => trivial
  have hparw : (if inUsesParams scheme ∧ (';' : Char) ∈ w then splitParams w
      else (w, [])) = (w, []) := by
    by_cases hcnd : inUsesParams scheme = true ∧ (';' : Char) ∈ w
    · rw [if_pos hcnd]
      exact splitParams_self w (hpar hcnd.1)
    · rw [if_neg hcnd]
  by_cases hf0 : f = []
  · by_cases hq0 : q = []
    · rw [if_pos hf0, if_pos hq0]
      simp only [List.append_nil]
      unfold parseRest
      simp only [splitFirst_of_not_mem hwh, splitFirst_of_not_mem hwq, hparw]
      rw [hf0, hq0]
    · rw [if_pos hf0, if_neg hq0]
      simp only [List.append_nil]
      have h1 : splitFirst '#' (w ++ '?' :: q) = none := by
        apply splitFirst_of_not_mem
        intro hm
        rcases List.mem_append.mp hm with h | h
        · exact hwh h
        · rcases List.mem_cons.mp h with h | h
          · exact absurd h (by decide)
          · exact hqh h
      unfold parseRest
      simp only [h1, splitFirst_append q hwq, hparw]
      rw [hf0]
  · by_cases hq0 : q = []
    · rw [if_neg hf0, if_pos hq0]
      simp only [List.nil_append]
      unfold parseRest
      simp only [splitFirst_append f hwh, splitFirst_of_not_mem hwq, hparw]
      rw [hq0]
    · rw [if_neg hf0, if_neg hq0]
      have ha : w ++ ('?' :: q ++ '#' :: f) = (w ++ '?' :: q) ++ '#' :: f := by
        rw [List.append_assoc]
      have h1 : splitFirst '#' ((w ++ '?' :: q) ++ '#' :: f) = some (w ++ '?' :: q, f) := by
        apply splitFirst_append
        intro hm
        rcases List.mem_append.mp hm with h | h
        · exact hwh h
        · rcases List.mem_cons.mp h with h | h
          · exact absurd h (by decide)
          · exact hqh h
      unfold parseRest
      rw [ha]
      simp only [h1, splitFirst_append q hwq, hparw]

theorem parseRest_eval_params (scheme netloc w par q f : Str)
    (hw : ∀ c ∈ w, c ≠ '?' ∧ c ≠ '#')
    (hparc : ∀ c ∈ par, c ≠ '?' ∧ c ≠ '#' ∧ c ≠ '/')
    (hq : ∀ c ∈ q, c ≠ '#')
    (hu : inUsesParams scheme = true)
    (hsemi : (';' : Char) ∉ afterLastSlash w) :
    parseRest scheme netloc
      ((w ++ ';' :: par) ++
        ((if q = [] then [] else '?' :: q) ++ (if f = [] then [] else '#' :: f)))
      = ⟨scheme, netloc, w, par, q, f⟩ := by
  have hw2 : ∀ c ∈ w ++ ';' :: par, c ≠ '?' ∧ c ≠ '#' := by
    intro c hc
    rcases List.mem_append.mp hc with h | h
    · exact hw c h
    · rcases List.mem_cons.mp h with rfl | h
      · exact ⟨by decide, by decide⟩
      · exact ⟨(hparc c h).1, (hparc c h).2.1⟩
  have hwq : ('?' : Char) ∉ w ++ ';' :: par := fun hm => (hw2 _ hm).1 rfl
  have hwh : ('#' : Char) ∉ w ++ ';' :: par := fun hm => (hw2 _ hm).2 rfl
  have hqh : ('#' : Char) ∉ q := fun hm => (hq _ hm) rfl
  have hcnd : inUsesParams scheme = true ∧ (';' : Char) ∈ w ++ ';' :: par :=
    ⟨hu, List.mem_append.mpr (Or.inr (List.mem_cons_self _ _))⟩
  have hsp : splitParams (w ++ ';' :: par) = (w, par) :=
    splitParams_restore w par (fun hm => (hparc _ hm).2.2 rfl) hsemi
  have hparw : (if inUsesParams scheme ∧ (';' : Char) ∈ w ++ ';' :: par
      then splitParams (w ++ ';' :: par) else (w ++ ';' :: par, [])) = (w, par) := by
    rw [if_pos hcnd, hsp]
  by_cases hf0 : f = []
  · by_cases hq0 : q = []
    · rw [if_pos hf0, if_pos hq0]
      simp only [List.append_nil]
      unfold parseRest
      simp only [splitFirst_of_not_mem hwh, splitFirst_of_not_mem hwq, hparw]
      rw [hf0, hq0]
    · rw [if_pos hf0, if_neg hq0]
      simp only [List.append_nil]
      have h1 : splitFirst '#' ((w ++ ';' :: par) ++ '?' :: q) = none := by
        apply splitFirst_of_not_mem
        intro hm
        rcases List.mem_append.mp hm with h | h
        · exact hwh h
        · rcases List.mem_cons.mp h with h | h
          · exact absurd h (by decide)
          · exact hqh h
      unfold parseRest
      simp only [h1, splitFirst_append q hwq, hparw]
      rw [hf0]
  · by_cases hq0 : q = []
    · rw [if_neg hf0, if_pos hq0]
      simp only [List.nil_append]
      unfold parseRest
      simp only [splitFirst_append f hwh, splitFirst_of_not_mem hwq, hparw]
      rw [hq0]
    · rw [if_neg hf0, if_neg hq0]
      have ha : (w ++ ';' :: par) ++ ('?' :: q ++ '#' :: f)
          = ((w ++ ';' :: par) ++ '?' :: q) ++ '#' :: f := by
        simp [List.append_assoc]
      have h1 : splitFirst '#' (((w ++ ';' :: par) ++ '?' :: q) ++ '#' :: f)
          = some ((w ++ ';' :: par) ++ '?' :: q, f) := by
        apply splitFirst_append
        intro hm
        rcases List.mem_append.mp hm with h | h
        · exact hwh h
        · rcases List.mem_cons.mp h with h | h
          · exact absurd h (by decide)
          · exact hqh h
      unfold parseRest
      rw [ha]
      simp only [h1, splitFirst_append q hwq, hparw]

theorem isAlpha_range {c : Char} (h : c.isAlpha = true) :
    (0x41 ≤ c.toNat ∧ c.toNat ≤ 0x5A) ∨ (0x61 ≤ c.toNat ∧ c.toNat ≤ 0x7A) := by
  simp [Char.isAlpha, Char.isUpper, Char.isLower, Char.le_def, UInt32.le_def,
    BitVec.le_def] at h
  exact h

theorem isDigit_range {c : Char} (h : c.isDigit = true) :
    0x30 ≤ c.toNat ∧ c.toNat ≤ 0x39 := by
  simp [Char.isDigit, Char.le_def, UInt32.le_def, BitVec.le_def] at h
  exact h

theorem gt20_not_unsafe {c : Char} (h : 0x20 < c.toNat) : isUnsafeUrlByte c = false := by
  unfold isUnsafeUrlByte
  rw [decide_eq_false]
  rintro (rfl | rfl | rfl) <;> exact absurd h (by decide)

theorem gt20_not_c0 {c : Char} (h : 0x20 < c.toNat) : isC0OrSpace c = false := by
  unfold isC0OrSpace
  rw [decide_eq_false]
  omega

theorem alpha_gt20 {c : Char} (h : c.isAlpha = true) : 0x20 < c.toNat := by
  rcases isAlpha_range h with ⟨h1, _⟩ | ⟨h1, _⟩ <;> omega

theorem schemeChar_gt20 {c : Char} (h : schemeChar c = true) : 0x20 < c.toNat := by
  simp [schemeChar] at h
  rcases h with h | h | rfl | rfl | rfl
  · exact alpha_gt20 h
  · rcases isDigit_range h with ⟨h1, _⟩
    omega
  · decide
  · decide
  · decide

theorem encChar_parts {c : Char} (h : encChar c = true) :
    0x20 < c.toNat ∧ c ≠ '?' ∧ c ≠ '#' := by
  simpa [encChar] using h

theorem urlparse_urlunparse {p : UrlParts} (hr : Recon p)
    (hq : ∀ c ∈ p.query, encChar c = true)
    (hx : ¬(p.netloc = [] ∧ (joinPP p).take 2 = ['/', '/'])) :
    urlparse? (urlunparse p) =
      some { p with path := if prependFlag p then '/' :: p.path else p.path } := by
  obtain ⟨hscheme, hnet, hbr, hpath, hparams, hfrag, hnlu, hpars, hsplit, hnofake, hheadc0⟩ := hr
  have hJc : ∀ c ∈ joinPP p, c ≠ '?' ∧ c ≠ '#' ∧ isUnsafeUrlByte c = false := by
    intro c hc
    unfold joinPP at hc
    by_cases hp0 : p.params = []
    · rw [if_pos hp0] at hc
      exact hpath c hc
    · rw [if_neg hp0] at hc
      rcases List.mem_append.mp hc with h | h
      · exact hpath c h
      · rcases List.mem_cons.mp h with rfl | h
        · exact ⟨by decide, by decide, by decide⟩
        · obtain ⟨h1, h2, _, h4⟩ := hparams c h
          exact ⟨h1, h2, h4⟩
  have hqparts : ∀ c ∈ p.query, c ≠ '#' := fun c hc => (encChar_parts (hq c hc)).2.2
  have hnet1 : ∀ c ∈ p.netloc, ¬(c = '/' ∨ c = '?' ∨ c = '#') := by
    intro c hc
    obtain ⟨h1, h2, h3, _⟩ := hnet c hc
    rintro (he | he | he)
    exacts [h1 he, h2 he, h3 he]
  have hwpath : ∀ c ∈ p.path, c ≠ '?' ∧ c ≠ '#' :=
    fun c h => ⟨(hpath c h).1, (hpath c h).2.1⟩
  have hwslash : ∀ c ∈ ('/' :: p.path : Str), c ≠ '?' ∧ c ≠ '#' := by
    intro c hc
    rcases List.mem_cons.mp hc with rfl | h
    · exact ⟨by decide, by decide⟩
    · exact hwpath c h
  have hparc : ∀ c ∈ p.params, c ≠ '?' ∧ c ≠ '#' ∧ c ≠ '/' :=
    fun c h => ⟨(hparams c h).1, (hparams c h).2.1, (hparams c h).2.2.1⟩
  have hTshape : ((if p.query = [] then [] else '?' :: p.query) ++
      (if p.fragment = [] then [] else '#' :: p.fragment)) = [] ∨
      ∃ c t2, ((if p.query = [] then [] else '?' :: p.query) ++
        (if p.fragment = [] then [] else '#' :: p.fragment)) = c :: t2 ∧
        (c = '?' ∨ c = '#') := by
    by_cases hq0 : p.query = []
    · by_cases hf0 : p.fragment = []
      · rw [if_pos hq0, if_pos hf0]
        exact Or.inl rfl
      · rw [if_pos hq0, if_neg hf0]
        exact Or.inr ⟨'#', p.fragment, by simp, Or.inr rfl⟩
    · rw [if_neg hq0]
      exact Or.inr ⟨'?', p.query ++ (if p.fragment = [] then [] else '#' :: p.fragment),
        by simp, Or.inl rfl⟩
  have hCoreSafe : ∀ c ∈ urlCore p, isUnsafeUrlByte c = false := by
    intro c hc
    unfold urlCore at hc
    by_cases hcond : p.netloc ≠ [] ∨ (p.scheme ≠ [] ∧ inUsesNetloc p.scheme = true ∧
        (joinPP p).take 2 ≠ ['/', '/'])
    · rw [if_pos hcond] at hc
      rcases List.mem_cons.mp hc with rfl | hc2
      · decide
      rcases List.mem_cons.mp hc2 with rfl | hc3
      · decide
      rcases List.mem_append.mp hc3 with h | h
      · exact (hnet c h).2.2.2
      · by_cases hpr : joinPP p ≠ [] ∧ (joinPP p).head? ≠ some '/'
        · rw [if_pos hpr] at h
          rcases List.mem_cons.mp h with rfl | h2
          · decide
          · exact (hJc c h2).2.2
        · rw [if_neg hpr] at h
          exact (hJc c h).2.2
    · rw [if_neg hcond] at hc
      exact (hJc c hc).2.2
  have hsafe : ∀ c ∈ urlunparse p, isUnsafeUrlByte c = false := by
    intro c hc
    rw [urlunparse_decomp] at hc
    rcases List.mem_append.mp hc with h | h
    · by_cases hs0 : p.scheme = []
      · rw [if_pos hs0] at h
        exact hCoreSafe c h
      · rw [if_neg hs0] at h
        rcases List.mem_append.mp h with h2 | h2
        · rcases hscheme with he | ⟨_, _, hall, _⟩
          · exact absurd he hs0
          · exact gt20_not_unsafe (schemeChar_gt20 (List.all_eq_true.mp hall c h2))
        · rcases List.mem_cons.mp h2 with rfl | h3
          · decide
          · exact hCoreSafe c h3
    · rcases List.mem_append.mp h with h2 | h2
      · by_cases hq0 : p.query = []
        · rw [if_pos hq0] at h2
          simp at h2
        · rw [if_neg hq0] at h2
          rcases List.mem_cons.mp h2 with rfl | h3
          · decide
          · exact gt20_not_unsafe (encChar_parts (hq c h3)).1
      · by_cases hf0 : p.fragment = []
        · rw [if_pos hf0] at h2
          simp at h2
        · rw [if_neg hf0] at h2
          rcases List.mem_cons.mp h2 with rfl | h3
          · decide
          · exact hfrag c h3
  have hhead : ∀ c, (urlunparse p).head? = some c → isC0OrSpace c = false := by
    intro c hc
    rw [urlunparse_decomp] at hc
    by_cases hs0 : p.scheme = []
    · rw [if_pos hs0] at hc
      unfold urlCore at hc
      by_cases hcond : p.netloc ≠ [] ∨ (p.scheme ≠ [] ∧ inUsesNetloc p.scheme = true ∧
          (joinPP p).take 2 ≠ ['/', '/'])
      · rw [if_pos hcond] at hc
        have : c = '/' := by simpa using hc.symm
        subst this
        decide
      · rw [if_neg hcond] at hc
        have hn0 : p.netloc = [] := by
          by_contra hnn
          exact hcond (Or.inl hnn)
        cases hJ0 : joinPP p with
        | nil =>
          rw [hJ0, List.nil_append] at hc
          by_cases hq0 : p.query = []
          · rw [if_pos hq0, List.nil_append] at hc
            by_cases hf0 : p.fragment = []
            · rw [if_pos hf0] at hc
              exact absurd hc (by simp)
            · rw [if_neg hf0] at hc
              have : c = '#' := by simpa using hc.symm
              subst this
              decide
          · rw [if_neg hq0] at hc
            have : c = '?' := by simpa using hc.symm
            subst this
            decide
        | cons j0 jr =>
          rw [hJ0] at hc
          have hcj : c = j0 := by simpa using hc.symm
          subst hcj
          exact hheadc0 hs0 hn0 c (by rw [hJ0]; rfl)
    · rw [if_neg hs0] at hc
      rcases hscheme with he | ⟨_, hh, _, _⟩
      · exact absurd he hs0
      cases hsc : p.scheme with
      | nil => exact absurd hsc hs0
      | cons s0 sr =>
        rw [hsc] at hc
        have : c = s0 := by simpa using hc.symm
        subst this
        exact gt20_not_c0 (alpha_gt20 (hh c (by rw [hsc]; rfl)))
  rw [urlparse_stages, dropWhile_head_false hhead, filter_unsafe_id hsafe, urlunparse_decomp]
  by_cases hcond : p.netloc ≠ [] ∨ (p.scheme ≠ [] ∧ inUsesNetloc p.scheme = true ∧
      (joinPP p).take 2 ≠ ['/', '/'])
  · by_cases hpr : joinPP p ≠ [] ∧ (joinPP p).head? ≠ some '/'
    · -- `//` inserted and `/` prepended
      have hcore : urlCore p = '/' :: '/' :: (p.netloc ++ '/' :: joinPP p) := by
        unfold urlCore
        rw [if_pos hcond, if_pos hpr]
      have hpf : prependFlag p = true := by
        unfold prependFlag
        exact decide_eq_true ⟨hcond, hpr⟩
      have htgt : (if prependFlag p then '/' :: p.path else p.path) = '/' :: p.path := by
        rw [hpf]
        rfl
      rw [hcore, htgt]
      have hrestGen : ∀ s : Str, (p.params ≠ [] → inUsesParams s = true) →
          (inUsesParams s = true → (';' : Char) ∉ afterLastSlash p.path) →
          parseRest s p.netloc (('/' :: joinPP p) ++
            ((if p.query = [] then [] else '?' :: p.query) ++
             (if p.fragment = [] then [] else '#' :: p.fragment)))
            = ⟨s, p.netloc, '/' :: p.path, p.params, p.query, p.fragment⟩ := by
        intro s hps hss
        by_cases hp0 : p.params = []
        · have hJeq : joinPP p = p.path := by
            unfold joinPP
            rw [if_pos hp0]
          rw [hJeq, hp0]
          exact parseRest_eval s p.netloc ('/' :: p.path) p.query p.fragment hwslash
            hqparts (fun hu => by rw [afterLastSlash_cons_slash]; exact hss hu)
        · have hJeq : joinPP p = p.path ++ ';' :: p.params := by
            unfold joinPP
            rw [if_neg hp0]
          rw [hJeq,
            show ('/' :: (p.path ++ ';' :: p.params) : Str)
              = ('/' :: p.path) ++ ';' :: p.params from rfl]
          exact parseRest_eval_params s p.netloc ('/' :: p.path) p.params p.query
            p.fragment hwslash hparc hqparts (hps hp0)
            (by rw [afterLastSlash_cons_slash]; exact hss (hps hp0))
      have htk : (('/' :: '/' :: (p.netloc ++ '/' :: joinPP p)) ++
          ((if p.query = [] then [] else '?' :: p.query) ++
           (if p.fragment = [] then [] else '#' :: p.fragment))).take 2 = ['/', '/'] := rfl
      have hdr : (('/' :: '/' :: (p.netloc ++ '/' :: joinPP p)) ++
          ((if p.query = [] then [] else '?' :: p.query) ++
           (if p.fragment = [] then [] else '#' :: p.fragment))).drop 2
          = p.netloc ++ (('/' :: joinPP p) ++
            ((if p.query = [] then [] else '?' :: p.query) ++
             (if p.fragment = [] then [] else '#' :: p.fragment))) := by
        simp
      have hsn : splitNetloc (p.netloc ++ (('/' :: joinPP p) ++
          ((if p.query = [] then [] else '?' :: p.query) ++
           (if p.fragment = [] then [] else '#' :: p.fragment))))
          = (p.netloc, ('/' :: joinPP p) ++
            ((if p.query = [] then [] else '?' :: p.query) ++
             (if p.fragment = [] then [] else '#' :: p.fragment))) :=
        splitNetloc_append hnet1 (Or.inr ⟨'/', joinPP p ++
          ((if p.query = [] then [] else '?' :: p.query) ++
           (if p.fragment = [] then [] else '#' :: p.fragment)), by simp, Or.inl rfl⟩)
      have hbrf : (p.netloc.contains '[' != p.netloc.contains ']') = false := by
        rw [hbr]
        exact bne_self_eq_false _
      by_cases hs0 : p.scheme = []
      · rw [if_pos hs0]
        have hext : extractScheme (('/' :: '/' :: (p.netloc ++ '/' :: joinPP p)) ++
            ((if p.query = [] then [] else '?' :: p.query) ++
             (if p.fragment = [] then [] else '#' :: p.fragment))) = none :=
          extractScheme_head_none (by
            intro c hc
            have : c = '/' := by simpa using hc.symm
            subst this
            decide)
        unfold parseNoStrip
        simp only [hext, if_pos htk, hdr, hsn, hbrf, if_neg Bool.false_ne_true]
        rw [hrestGen [] (fun h => hs0 ▸ hpars h) (fun h => (hs0 ▸ hsplit) h)]
        rw [hs0]
      · rw [if_neg hs0]
        rcases hscheme with he | ⟨_, hh, hall, hlow⟩
        · exact absurd he hs0
        have hasc : (p.scheme ++ ':' :: ('/' :: '/' :: (p.netloc ++ '/' :: joinPP p))) ++
            ((if p.query = [] then [] else '?' :: p.query) ++
             (if p.fragment = [] then [] else '#' :: p.fragment))
            = p.scheme ++ ':' :: (('/' :: '/' :: (p.netloc ++ '/' :: joinPP p)) ++
              ((if p.query = [] then [] else '?' :: p.query) ++
               (if p.fragment = [] then [] else '#' :: p.fragment))) := by
          simp
        rw [hasc]
        have hext : extractScheme (p.scheme ++ ':' ::
            (('/' :: '/' :: (p.netloc ++ '/' :: joinPP p)) ++
             ((if p.query = [] then [] else '?' :: p.query) ++
              (if p.fragment = [] then [] else '#' :: p.fragment))))
            = some (p.scheme, ('/' :: '/' :: (p.netloc ++ '/' :: joinPP p)) ++
              ((if p.query = [] then [] else '?' :: p.query) ++
               (if p.fragment = [] then [] else '#' :: p.fragment))) :=
          extractScheme_some _ hs0 hh hall hlow
        unfold parseNoStrip
        simp only [hext, if_pos htk, hdr, hsn, hbrf, if_neg Bool.false_ne_true]
        rw [hrestGen p.scheme hpars hsplit]
    · -- `//` inserted, no `/` prepended
      have hcore : urlCore p = '/' :: '/' :: (p.netloc ++ joinPP p) := by
        unfold urlCore
        rw [if_pos hcond, if_neg hpr]
      have hpf : prependFlag p = false := by
        unfold prependFlag
        exact decide_eq_false (fun hcp => hpr hcp.2)
      have htgt : (if prependFlag p then '/' :: p.path else p.path) = p.path := by
        rw [hpf]
        rfl
      rw [hcore, htgt]
      have hJshape : joinPP p = [] ∨ ∃ jr, joinPP p = '/' :: jr := by
        by_cases hJ0 : joinPP p = []
        · exact Or.inl hJ0
        · right
          cases hJh : joinPP p with
          | nil => exact absurd hJh hJ0
          | cons j0 jr =>
            have hj : j0 = '/' := by
              by_contra hne
              exact hpr ⟨hJ0, by rw [hJh]; simpa using hne⟩
            subst hj
            exact ⟨jr, rfl⟩
      have hrestGen : ∀ s : Str, (p.params ≠ [] → inUsesParams s = true) →
          (inUsesParams s = true → (';' : Char) ∉ afterLastSlash p.path) →
          parseRest s p.netloc (joinPP p ++
            ((if p.query = [] then [] else '?' :: p.query) ++
             (if p.fragment = [] then [] else '#' :: p.fragment)))
            = ⟨s, p.netloc, p.path, p.params, p.query, p.fragment⟩ := by
        intro s hps hss
        by_cases hp0 : p.params = []
        · have hJeq : joinPP p = p.path := by
            unfold joinPP
            rw [if_pos hp0]
          rw [hJeq, hp0]
          exact parseRest_eval s p.netloc p.path p.query p.fragment hwpath hqparts hss
        · have hJeq : joinPP p = p.path ++ ';' :: p.params := by
            unfold joinPP
            rw [if_neg hp0]
          rw [hJeq]
          exact parseRest_eval_params s p.netloc p.path p.params p.query
            p.fragment hwpath hparc hqparts (hps hp0) (hss (hps hp0))
      have hPPT : (joinPP p ++
          ((if p.query = [] then [] else '?' :: p.query) ++
           (if p.fragment = [] then [] else '#' :: p.fragment))) = [] ∨
          ∃ c cs, (joinPP p ++
            ((if p.query = [] then [] else '?' :: p.query) ++
             (if p.fragment = [] then [] else '#' :: p.fragment))) = c :: cs ∧
            (c = '/' ∨ c = '?' ∨ c = '#') := by
        rcases hJshape with hJ0 | ⟨jr, hJ0⟩
        · rw [hJ0, List.nil_append]
          rcases hTshape with hT0 | ⟨c, t2, hTe, hc⟩
          · exact Or.inl hT0
          · refine Or.inr ⟨c, t2, hTe, ?_⟩
            rcases hc with rfl | rfl
            · exact Or.inr (Or.inl rfl)
            · exact Or.inr (Or.inr rfl)
        · rw [hJ0]
          exact Or.inr ⟨'/', jr ++
            ((if p.query = [] then [] else '?' :: p.query) ++
             (if p.fragment = [] then [] else '#' :: p.fragment)), by simp, Or.inl rfl⟩
      have htk : (('/' :: '/' :: (p.netloc ++ joinPP p)) ++
          ((if p.query = [] then [] else '?' :: p.query) ++
           (if p.fragment = [] then [] else '#' :: p.fragment))).take 2 = ['/', '/'] := rfl
      have hdr : (('/' :: '/' :: (p.netloc ++ joinPP p)) ++
          ((if p.query = [] then [] else '?' :: p.query) ++
           (if p.fragment = [] then [] else '#' :: p.fragment))).drop 2
          = p.netloc ++ (joinPP p ++
            ((if p.query = [] then [] else '?' :: p.query) ++
             (if p.fragment = [] then [] else '#' :: p.fragment))) := by
        simp
      have hsn : splitNetloc (p.netloc ++ (joinPP p ++
          ((if p.query = [] then [] else '?' :: p.query) ++
           (if p.fragment = [] then [] else '#' :: p.fragment))))
          = (p.netloc, joinPP p ++
            ((if p.query = [] then [] else '?' :: p.query) ++
             (if p.fragment = [] then [] else '#' :: p.fragment))) :=
        splitNetloc_append hnet1 hPPT
      have hbrf : (p.netloc.contains '[' != p.netloc.contains ']') = false := by
        rw [hbr]
        exact bne_self_eq_false _
      by_cases hs0 : p.scheme = []
      · rw [if_pos hs0]
        have hext : extractScheme (('/' :: '/' :: (p.netloc ++ joinPP p)) ++
            ((if p.query = [] then [] else '?' :: p.query) ++
             (if p.fragment = [] then [] else '#' :: p.fragment))) = none :=
          extractScheme_head_none (by
            intro c hc
            have : c = '/' := by simpa using hc.symm
            subst this
            decide)
        unfold parseNoStrip
        simp only [hext, if_pos htk, hdr, hsn, hbrf, if_neg Bool.false_ne_true]
        rw [hrestGen [] (fun h => hs0 ▸ hpars h) (fun h => (hs0 ▸ hsplit) h)]
        rw [hs0]
      · rw [if_neg hs0]
        rcases hscheme with he | ⟨_, hh, hall, hlow⟩
        · exact absurd he hs0
        have hasc : (p.scheme ++ ':' :: ('/' :: '/' :: (p.netloc ++ joinPP p))) ++
            ((if p.query = [] then [] else '?' :: p.query) ++
             (if p.fragment = [] then [] else '#' :: p.fragment))
            = p.scheme ++ ':' :: (('/' :: '/' :: (p.netloc ++ joinPP p)) ++
              ((if p.query = [] then [] else '?' :: p.query) ++
               (if p.fragment = [] then [] else '#' :: p.fragment))) := by
          simp
        rw [hasc]
        have hext : extractScheme (p.scheme ++ ':' ::
            (('/' :: '/' :: (p.netloc ++ joinPP p)) ++
             ((if p.query = [] then [] else '?' :: p.query) ++
              (if p.fragment = [] then [] else '#' :: p.fragment))))
            = some (p.scheme, ('/' :: '/' :: (p.netloc ++ joinPP p)) ++
              ((if p.query = [] then [] else '?' :: p.query) ++
               (if p.fragment = [] then [] else '#' :: p.fragment))) :=
          extractScheme_some _ hs0 hh hall hlow
        unfold parseNoStrip
        simp only [hext, if_pos htk, hdr, hsn, hbrf, if_neg Bool.false_ne_true]
        rw [hrestGen p.scheme hpars hsplit]
  · -- no `//` inserted
    have hn0 : p.netloc = [] := by
      by_contra hnn
      exact hcond (Or.inl hnn)
    have hcore : urlCore p = joinPP p := by
      unfold urlCore
      rw [if_neg hcond]
    have hpf : prependFlag p = false := by
      unfold prependFlag
      exact decide_eq_false (fun hcp => hcond hcp.1)
    have htgt : (if prependFlag p then '/' :: p.path else p.path) = p.path := by
      rw [hpf]
      rfl
    rw [hcore, htgt]
    have hJ2 : (joinPP p).take 2 ≠ ['/', '/'] := fun h => hx ⟨hn0, h⟩
    have htk : ((joinPP p) ++
        ((if p.query = [] then [] else '?' :: p.query) ++
         (if p.fragment = [] then [] else '#' :: p.fragment))).take 2 ≠ ['/', '/'] := by
      cases hJ0 : joinPP p with
      | nil =>
        rw [List.nil_append]
        rcases hTshape with hT0 | ⟨c, t2, hTe, hc⟩
        · rw [hT0]
          simp
        · rw [hTe]
          intro he
          have : c = '/' := by
            cases t2 with
            | nil => simp at he
            | cons x xs => exact (by simpa using he : c = '/' ∧ x = '/').1
          rcases hc with rfl | rfl <;> exact absurd this (by decide)
      | cons j0 jr =>
        cases jr with
        | nil =>
          rcases hTshape with hT0 | ⟨c, t2, hTe, hc⟩
          · rw [hT0]
            simp
          · rw [hTe]
            intro he
            have : c = '/' := (by simpa using he : j0 = '/' ∧ c = '/').2
            rcases hc with rfl | rfl <;> exact absurd this (by decide)
        | cons j1 jr2 =>
          intro he
          apply hJ2
          rw [hJ0]
          have : j0 = '/' ∧ j1 = '/' := by simpa using he
          rw [this.1, this.2]
          rfl
    have hrestGen : ∀ s : Str, (p.params ≠ [] → inUsesParams s = true) →
        (inUsesParams s = true → (';' : Char) ∉ afterLastSlash p.path) →
        parseRest s [] (joinPP p ++
          ((if p.query = [] then [] else '?' :: p.query) ++
           (if p.fragment = [] then [] else '#' :: p.fragment)))
          = ⟨s, [], p.path, p.params, p.query, p.fragment⟩ := by
      intro s hps hss
      by_cases hp0 : p.params = []
      · have hJeq : joinPP p = p.path := by
          unfold joinPP
          rw [if_pos hp0]
        rw [hJeq, hp0]
        exact parseRest_eval s [] p.path p.query p.fragment hwpath hqparts hss
      · have hJeq : joinPP p = p.path ++ ';' :: p.params := by
          unfold joinPP
          rw [if_neg hp0]
        rw [hJeq]
        exact parseRest_eval_params s [] p.path p.params p.query
          p.fragment hwpath hparc hqparts (hps hp0) (hss (hps hp0))
    by_cases hs0 : p.scheme = []
    · rw [if_pos hs0]
      have hext : extractScheme (joinPP p ++
          ((if p.query = [] then [] else '?' :: p.query) ++
           (if p.fragment = [] then [] else '#' :: p.fragment))) = none := by
        apply extractScheme_append (hnofake hs0 hn0)
        rcases hTshape with hT0 | ⟨c, t2, hTe, hc⟩
        · exact Or.inl hT0
        · refine Or.inr ⟨c, t2, hTe, ?_, ?_⟩
          · rcases hc with rfl | rfl <;> decide
          · rcases hc with rfl | rfl <;> decide
      unfold parseNoStrip
      simp only [hext, if_neg htk]
      rw [hrestGen [] (fun h => hs0 ▸ hpars h) (fun h => (hs0 ▸ hsplit) h)]
      rw [hs0, hn0]
    · rw [if_neg hs0]
      rcases hscheme with he | ⟨_, hh, hall, hlow⟩
      · exact absurd he hs0
      have hasc : (p.scheme ++ ':' :: joinPP p) ++
          ((if p.query = [] then [] else '?' :: p.query) ++
           (if p.fragment = [] then [] else '#' :: p.fragment))
          = p.scheme ++ ':' :: (joinPP p ++
            ((if p.query = [] then [] else '?' :: p.query) ++
             (if p.fragment = [] then [] else '#' :: p.fragment))) := by
        simp
      rw [hasc]
      have hext : extractScheme (p.scheme ++ ':' :: (joinPP p ++
          ((if p.query = [] then [] else '?' :: p.query) ++
           (if p.fragment = [] then [] else '#' :: p.fragment))))
          = some (p.scheme, joinPP p ++
            ((if p.query = [] then [] else '?' :: p.query) ++
             (if p.fragment = [] then [] else '#' :: p.fragment))) :=
        extractScheme_some _ hs0 hh hall hlow
      unfold parseNoStrip
      simp only [hext, if_neg htk]
      rw [hrestGen p.scheme hpars hsplit]
      rw [hn0]

theorem head_of_prefix {a : Str} (t : Str) {c : Char} (ha : a.head? = some c) :
    (a ++ t).head? = some c := by
  cases a with
  | nil => simp at ha
  | cons x xs => simpa using ha

theorem unsafe_c0 {c : Char} (h : isUnsafeUrlByte c = true) : isC0OrSpace c = true := by
  unfold isUnsafeUrlByte at h
  have h2 := of_decide_eq_true h
  rcases h2 with rfl | rfl | rfl <;> decide

theorem dropWhile_head_not {p : Char → Bool} : ∀ {l : Str} {c : Char} {r : Str},
    l.dropWhile p = c :: r → p c = false := by
  intro l
  induction l with
  | nil =>
    intro c r h
    simp at h
  | cons x xs ih =>
    intro c r h
    rw [List.dropWhile_cons] at h
    by_cases hx : p x = true
    · rw [if_pos hx] at h
      exact ih h
    · rw [if_neg hx] at h
      have : x = c := (List.cons.inj h).1
      rw [← this]
      simpa using hx

theorem mem_afterLastSlash {c : Char} {w : Str} (h : c ∈ afterLastSlash w) : c ∈ w := by
  unfold afterLastSlash at h
  cases hs : splitLast '/' w with
  | none =>
    rw [hs] at h
    exact h
  | some ab =>
    obtain ⟨a, b⟩ := ab
    rw [hs] at h
    obtain ⟨hl, _⟩ := splitLast_eq_some hs
    rw [hl]
    exact List.mem_append.mpr (Or.inr (List.mem_cons_of_mem _ h))

theorem extractScheme_eq_some {u sch rest : Str} (h : extractScheme u = some (sch, rest)) :
    ∃ pre, u = pre ++ ':' :: rest ∧ pre ≠ [] ∧
      (∀ c, pre.head? = some c → c.isAlpha = true) ∧ pre.all schemeChar = true ∧
      sch = pre.map asciiLower := by
  unfold extractScheme at h
  cases hs : splitFirst ':' u with
  | none =>
    rw [hs] at h
    exact absurd h (by simp)
  | some pr =>
    obtain ⟨pre, post⟩ := pr
    rw [hs] at h
    obtain ⟨hl, _⟩ := splitFirst_eq_some hs
    cases pre with
    | nil => exact absurd h (by simp)
    | cons c0 pr2 =>
      have h2 : (if c0.isAlpha ∧ (c0 :: pr2).all schemeChar
          then some ((c0 :: pr2).map asciiLower, post) else none) = some (sch, rest) := h
      by_cases hcond : c0.isAlpha = true ∧ (c0 :: pr2).all schemeChar = true
      · rw [if_pos hcond] at h2
        have h3 := Option.some.inj h2
        have hsch : sch = (c0 :: pr2).map asciiLower := (congrArg Prod.fst h3).symm
        have hrest : post = rest := congrArg Prod.snd h3
        refine ⟨c0 :: pr2, by rw [hl, hrest], by simp, ?_, hcond.2, hsch⟩
        intro c hc
        have : c = c0 := by simpa using hc.symm
        rw [this]
        exact hcond.1
      · rw [if_neg hcond] at h2
        exact absurd h2 (by simp)

theorem extractScheme_prefix_none {w t : Str} (h : extractScheme (w ++ t) = none) :
    extractScheme w = none := by
  cases hs : splitFirst ':' w with
  | none =>
    unfold extractScheme
    rw [hs]
  | some pr =>
    obtain ⟨pre, post⟩ := pr
    obtain ⟨hl, hm⟩ := splitFirst_eq_some hs
    have hsp : splitFirst ':' (w ++ t) = some (pre, post ++ t) := by
      rw [hl, List.append_assoc]
      exact splitFirst_append (post ++ t) hm
    unfold extractScheme at h ⊢
    rw [hsp] at h
    rw [hs]
    cases pre with
    | nil => rfl
    | cons c0 pre2 =>
      have h2 : (if c0.isAlpha ∧ (c0 :: pre2).all schemeChar
          then some ((c0 :: pre2).map asciiLower, post ++ t) else none) = none := h
      show (if c0.isAlpha ∧ (c0 :: pre2).all schemeChar
        then some ((c0 :: pre2).map asciiLower, post) else none) = none
      by_cases hcond : c0.isAlpha = true ∧ (c0 :: pre2).all schemeChar = true
      · rw [if_pos hcond] at h2
        exact absurd h2 (by simp)
      · rw [if_neg hcond]

theorem splitParams_inv {w w1 w2 : Str} (h : splitParams w = (w1, w2)) :
    (w1 = w ∧ w2 = [] ∧ (';' : Char) ∉ afterLastSlash w) ∨
    (w = w1 ++ ';' :: w2 ∧ ('/' : Char) ∉ w2 ∧ (';' : Char) ∉ afterLastSlash w1 ∧
      (w1 = [] → w.head? = some ';')) := by
  unfold splitParams at h
  cases hd : splitLast '/' w with
  | some ab =>
    obtain ⟨a, b⟩ := ab
    rw [hd] at h
    obtain ⟨hl, hmb⟩ := splitLast_eq_some hd
    have hals : afterLastSlash w = b := by
      rw [hl]
      exact afterLastSlash_append b hmb
    have h2 : (match splitFirst ';' b with
        | some (b1, b2) => (a ++ '/' :: b1, b2)
        | none => (w, [])) = (w1, w2) := h
    cases hf : splitFirst ';' b with
    | some bc =>
      obtain ⟨b1, b2⟩ := bc
      rw [hf] at h2
      have h3 : (a ++ '/' :: b1, b2) = (w1, w2) := h2
      have hw1 : a ++ '/' :: b1 = w1 := congrArg Prod.fst h3
      have hw2 : b2 = w2 := congrArg Prod.snd h3
      obtain ⟨hbl, hmb1⟩ := splitFirst_eq_some hf
      have hb1s : ('/' : Char) ∉ b1 := fun hmm =>
        hmb (by rw [hbl]; exact List.mem_append.mpr (Or.inl hmm))
      right
      refine ⟨?_, ?_, ?_, ?_⟩
      · rw [← hw1, ← hw2, hl, hbl]
        simp
      · intro hmm
        apply hmb
        rw [hbl]
        apply List.mem_append.mpr
        right
        apply List.mem_cons_of_mem
        rw [hw2]
        exact hmm
      · rw [← hw1, afterLastSlash_append b1 hb1s]
        exact hmb1
      · intro he
        rw [← hw1] at he
        exact absurd he (by simp)
    | none =>
      rw [hf] at h2
      have h3 : (w, ([] : Str)) = (w1, w2) := h2
      left
      refine ⟨(congrArg Prod.fst h3).symm, (congrArg Prod.snd h3).symm, ?_⟩
      rw [hals]
      exact splitFirst_none hf
  | none =>
    rw [hd] at h
    have hnsl : ('/' : Char) ∉ w := splitLast_none hd
    have h2 : (match splitFirst ';' w with
        | some (p1, p2) => (p1, p2)
        | none => (w, [])) = (w1, w2) := h
    cases hf : splitFirst ';' w with
    | some pc =>
      obtain ⟨p1, p2⟩ := pc
      rw [hf] at h2
      have h3 : ((p1 : Str), (p2 : Str)) = (w1, w2) := h2
      have hw1 : p1 = w1 := congrArg Prod.fst h3
      have hw2 : p2 = w2 := congrArg Prod.snd h3
      obtain ⟨hbl, hmp1⟩ := splitFirst_eq_some hf
      right
      refine ⟨by rw [← hw1, ← hw2]; exact hbl, ?_, ?_, ?_⟩
      · intro hmm
        apply hnsl
        rw [hbl]
        apply List.mem_append.mpr
        right
        apply List.mem_cons_of_mem
        rw [hw2]
        exact hmm
      · have hp1s : ('/' : Char) ∉ w1 := by
          intro hmm
          apply hnsl
          rw [hbl]
          apply List.mem_append.mpr
          left
          rw [hw1]
          exact hmm
        rw [afterLastSlash_no_slash hp1s, ← hw1]
        exact hmp1
      · intro he
        rw [hbl, hw1, he]
        rfl
    | none =>
      rw [hf] at h2
      have h3 : (w, ([] : Str)) = (w1, w2) := h2
      left
      refine ⟨(congrArg Prod.fst h3).symm, (congrArg Prod.snd h3).symm, ?_⟩
      rw [afterLastSlash_no_slash hnsl]
      exact splitFirst_none hf

theorem recon_build {sch nlc w1 w2 q f : Str}
    (hsch : sch = [] ∨ (sch ≠ [] ∧ (∀ c, sch.head? = some c → c.isAlpha = true) ∧
      sch.all schemeChar = true ∧ sch.map asciiLower = sch))
    (hnlc : ∀ c ∈ nlc, c ≠ '/' ∧ c ≠ '?' ∧ c ≠ '#' ∧ isUnsafeUrlByte c = false)
    (hbrk : nlc.contains '[' = nlc.contains ']')
    (hw1 : ∀ c ∈ w1, c ≠ '?' ∧ c ≠ '#' ∧ isUnsafeUrlByte c = false)
    (hw2 : ∀ c ∈ w2, c ≠ '?' ∧ c ≠ '#' ∧ c ≠ '/' ∧ isUnsafeUrlByte c = false)
    (hf : ∀ c ∈ f, isUnsafeUrlByte c = false)
    (hnlu : nlc ≠ [] → (if w2 = [] then w1 else w1 ++ ';' :: w2) = [] ∨
      (if w2 = [] then w1 else w1 ++ ';' :: w2).head? = some '/')
    (hpars : w2 ≠ [] → inUsesParams sch = true)
    (hsplit : inUsesParams sch = true → (';' : Char) ∉ afterLastSlash w1)
    (hnf : sch = [] → nlc = [] →
      extractScheme (if w2 = [] then w1 else w1 ++ ';' :: w2) = none)
    (hhc : sch = [] → nlc = [] → ∀ c,
      (if w2 = [] then w1 else w1 ++ ';' :: w2).head? = some c → isC0OrSpace c = false) :
    Recon ⟨sch, nlc, w1, w2, q, f⟩ := by
  have hJ : joinPP ⟨sch, nlc, w1, w2, q, f⟩ = (if w2 = [] then w1 else w1 ++ ';' :: w2) := rfl
  constructor
  · exact hsch
  · exact hnlc
  · exact hbrk
  · exact hw1
  · exact hw2
  · exact hf
  · intro hn
    rw [hJ]
    exact hnlu hn
  · exact hpars
  · exact hsplit
  · intro h1 h2
    rw [hJ]
    exact hnf h1 h2
  · intro h1 h2
    rw [hJ]
    exact hhc h1 h2

theorem parseRest_recon_core {sch nlc r2 A W q f w1 w2 : Str}
    (hsch : sch = [] ∨ (sch ≠ [] ∧ (∀ c, sch.head? = some c → c.isAlpha = true) ∧
      sch.all schemeChar = true ∧ sch.map asciiLower = sch))
    (hnlc : ∀ c ∈ nlc, c ≠ '/' ∧ c ≠ '?' ∧ c ≠ '#' ∧ isUnsafeUrlByte c = false)
    (hbrk : nlc.contains '[' = nlc.contains ']')
    (hr2safe : ∀ c ∈ r2, isUnsafeUrlByte c = false)
    (hhd : nlc ≠ [] → r2 = [] ∨ ∃ c cs, r2 = c :: cs ∧ (c = '/' ∨ c = '?' ∨ c = '#'))
    (hnf : sch = [] → nlc = [] →
        (extractScheme r2 = none ∧ (∀ c, r2.head? = some c → isC0OrSpace c = false)) ∨
        (r2 = [] ∨ ∃ c cs, r2 = c :: cs ∧ (c = '/' ∨ c = '?' ∨ c = '#')))
    (hAeq : ∃ t, r2 = A ++ t) (hAnoh : ('#' : Char) ∉ A)
    (hFsub : ∀ c ∈ f, c ∈ r2)
    (hWeq : ∃ t, A = W ++ t) (hWnoq : ('?' : Char) ∉ W)
    (hPP : (w1 = W ∧ w2 = [] ∧
        (inUsesParams sch = true → (';' : Char) ∉ afterLastSlash W)) ∨
      (W = w1 ++ ';' :: w2 ∧ ('/' : Char) ∉ w2 ∧ (';' : Char) ∉ afterLastSlash w1 ∧
        (w1 = [] → W.head? = some ';') ∧ inUsesParams sch = true)) :
    Recon ⟨sch, nlc, w1, w2, q, f⟩ := by
  obtain ⟨tA, hAt⟩ := hAeq
  obtain ⟨tW, hWt⟩ := hWeq
  have hWsub : ∀ c ∈ W, c ∈ r2 := by
    intro c hc
    rw [hAt, hWt, List.append_assoc]
    exact List.mem_append.mpr (Or.inl hc)
  have hW1sub : ∀ c ∈ w1, c ∈ W := by
    intro c hc
    rcases hPP with ⟨h1, _, _⟩ | ⟨h1, _, _, _, _⟩
    · rw [← h1]
      exact hc
    · rw [h1]
      exact List.mem_append.mpr (Or.inl hc)
  have hW2sub : ∀ c ∈ w2, c ∈ W := by
    intro c hc
    rcases hPP with ⟨_, h2, _⟩ | ⟨h1, _, _, _, _⟩
    · rw [h2] at hc
      simp at hc
    · rw [h1]
      exact List.mem_append.mpr (Or.inr (List.mem_cons_of_mem _ hc))
  have hWpre : ∃ t, r2 = W ++ t := ⟨tW ++ tA, by rw [hAt, hWt, List.append_assoc]⟩
  have hJpre : ∃ t, r2 = (if w2 = [] then w1 else w1 ++ ';' :: w2) ++ t := by
    obtain ⟨t, ht⟩ := hWpre
    rcases hPP with ⟨h1, h2, _⟩ | ⟨h1, _, _, _, _⟩
    · rw [if_pos h2, h1]
      exact ⟨t, ht⟩
    · by_cases h20 : w2 = []
      · rw [if_pos h20]
        subst h20
        exact ⟨';' :: t, by rw [ht, h1]; simp⟩
      · rw [if_neg h20, ← h1]
        exact ⟨t, ht⟩
  have hWhead : ∀ c, W.head? = some c → r2.head? = some c := by
    intro c hc
    obtain ⟨t, ht⟩ := hWpre
    rw [ht]
    exact head_of_prefix t hc
  have hJhead : ∀ c, (if w2 = [] then w1 else w1 ++ ';' :: w2).head? = some c →
      r2.head? = some c := by
    intro c hc
    obtain ⟨t, ht⟩ := hJpre
    rw [ht]
    exact head_of_prefix t hc
  have hWnil_of_head : ∀ {c : Char} {cs : Str}, r2 = c :: cs → c ∉ A → W = [] := by
    intro c cs hr hcA
    cases hWc : W with
    | nil => rfl
    | cons x xs =>
      exfalso
      apply hcA
      have hA2 : A = x :: (xs ++ tW) := by
        rw [hWt, hWc]
        rfl
      have hr2 : r2 = x :: (xs ++ tW ++ tA) := by
        rw [hAt, hA2]
        simp
      rw [hr] at hr2
      have hcx : c = x := (List.cons.inj hr2).1
      rw [hcx, hA2]
      exact List.mem_cons_self _ _
  have hJnil : W = [] → (if w2 = [] then w1 else w1 ++ ';' :: w2) = [] := by
    intro hW0
    rcases hPP with ⟨h1, h2, _⟩ | ⟨h1, _, _, _, _⟩
    · rw [if_pos h2, h1, hW0]
    · rw [hW0] at h1
      exact absurd h1.symm (by simp)
  have hW1headW : ∀ c, w1.head? = some c → W.head? = some c := by
    intro c hc
    rcases hPP with ⟨h1, _, _⟩ | ⟨h1, _, _, _, _⟩
    · rw [← h1]
      exact hc
    · rw [h1]
      exact head_of_prefix _ hc
  apply recon_build hsch hnlc hbrk
  · intro c hc
    have hcW := hW1sub c hc
    exact ⟨fun he => hWnoq (he ▸ hcW), fun he => hAnoh (he ▸ (by
        rw [hWt]; exact List.mem_append.mpr (Or.inl hcW))),
      hr2safe c (hWsub c hcW)⟩
  · intro c hc
    have hcW := hW2sub c hc
    refine ⟨fun he => hWnoq (he ▸ hcW), fun he => hAnoh (he ▸ (by
        rw [hWt]; exact List.mem_append.mpr (Or.inl hcW))), ?_,
      hr2safe c (hWsub c hcW)⟩
    rcases hPP with ⟨_, h2, _⟩ | ⟨_, h2, _, _, _⟩
    · rw [h2] at hc
      simp at hc
    · exact fun he => h2 (he ▸ hc)
  · intro c hc
    exact hr2safe c (hFsub c hc)
  · -- nl_u1
    intro hn
    rcases hhd hn with hr0 | ⟨c, cs, hr, hc⟩
    · left
      apply hJnil
      cases hWc : W with
      | nil => rfl
      | cons x xs =>
        exfalso
        obtain ⟨t, ht⟩ := hWpre
        rw [hr0, hWc] at ht
        exact absurd ht.symm (by simp)
    · rcases hc with rfl | rfl | rfl
      · -- '/' head
        cases hJc : (if w2 = [] then w1 else w1 ++ ';' :: w2) with
        | nil => exact Or.inl rfl
        | cons x xs =>
          right
          have hx : r2.head? = some x := hJhead x (by rw [hJc]; rfl)
          rw [hr] at hx
          have hx2 : x = '/' := (Option.some.inj (show some '/' = some x from hx)).symm
          rw [hx2]
          rfl
      · -- '?' head: W must be empty
        left
        apply hJnil
        cases hWc : W with
        | nil => rfl
        | cons x xs =>
          exfalso
          have hx : r2.head? = some x := hWhead x (by rw [hWc]; rfl)
          rw [hr] at hx
          have hx2 : x = '?' := (Option.some.inj (show some '?' = some x from hx)).symm
          apply hWnoq
          rw [hWc, ← hx2]
          exact List.mem_cons_self _ _
      · -- '#' head: A must be empty, hence W empty
        left
        exact hJnil (hWnil_of_head hr (fun hmem => hAnoh hmem))
  · -- par_scheme
    intro h2
    rcases hPP with ⟨_, h20, _⟩ | ⟨_, _, _, _, h5⟩
    · exact absurd h20 h2
    · exact h5
  · -- split_stable
    intro hu
    rcases hPP with ⟨h1, _, h3⟩ | ⟨_, _, h3, _, _⟩
    · rw [h1]
      exact h3 hu
    · exact h3
  · -- no_fake
    intro h1 h2
    rcases hnf h1 h2 with ⟨hex, _⟩ | hsh
    · obtain ⟨t, ht⟩ := hJpre
      rw [ht] at hex
      exact extractScheme_prefix_none hex
    · rcases hsh with hr0 | ⟨c, cs, hr, hc⟩
      · have : (if w2 = [] then w1 else w1 ++ ';' :: w2) = [] := by
          apply hJnil
          cases hWc : W with
          | nil => rfl
          | cons x xs =>
            exfalso
            obtain ⟨t, ht⟩ := hWpre
            rw [hr0, hWc] at ht
            exact absurd ht.symm (by simp)
        rw [this]
        rfl
      · rcases hc with rfl | rfl | rfl
        · apply extractScheme_head_none
          intro c2 hc2
          have hx : r2.head? = some c2 := hJhead c2 hc2
          rw [hr] at hx
          have hx2 : c2 = '/' := (Option.some.inj (show some '/' = some c2 from hx)).symm
          rw [hx2]
          decide
        · have hW0 : W = [] := by
            cases hWc : W with
            | nil => rfl
            | cons x xs =>
              exfalso
              have hx : r2.head? = some x := hWhead x (by rw [hWc]; rfl)
              rw [hr] at hx
              have hx2 : x = '?' := (Option.some.inj (show some '?' = some x from hx)).symm
              apply hWnoq
              rw [hWc, ← hx2]
              exact List.mem_cons_self _ _
          rw [hJnil hW0]
          rfl
        · rw [hJnil (hWnil_of_head hr (fun hmem => hAnoh hmem))]
          rfl
  · -- head_c0
    intro h1 h2 c hc
    rcases hnf h1 h2 with ⟨_, hhc0⟩ | hsh
    · exact hhc0 c (hJhead c hc)
    · rcases hsh with hr0 | ⟨c2, cs, hr, hc2⟩
      · obtain ⟨t, ht⟩ := hJpre
        rw [hr0] at ht
        have : (if w2 = [] then w1 else w1 ++ ';' :: w2) = [] :=
          (List.append_eq_nil.mp ht.symm).1
        rw [this] at hc
        simp at hc
      · have hx : r2.head? = some c := hJhead c hc
        rw [hr] at hx
        have hx2 : c = c2 := (Option.some.inj (show some c2 = some c from hx)).symm
        rw [hx2]
        rcases hc2 with rfl | rfl | rfl <;> decide

theorem isAlpha_iff {c : Char} : c.isAlpha = true ↔
    ((0x41 ≤ c.toNat ∧ c.toNat ≤ 0x5A) ∨ (0x61 ≤ c.toNat ∧ c.toNat ≤ 0x7A)) := by
  simp [Char.isAlpha, Char.isUpper, Char.isLower, Char.le_def, UInt32.le_def,
    BitVec.le_def]
  exact Iff.rfl

theorem isAlpha_asciiLower {c : Char} (h : c.isAlpha = true) :
    (asciiLower c).isAlpha = true := by
  unfold asciiLower
  by_cases h2 : 'A' ≤ c ∧ c ≤ 'Z'
  · rw [if_pos h2]
    have h65 : 65 ≤ c.toNat := h2.1
    have h90 : c.toNat ≤ 90 := h2.2
    have ht : (Char.ofNat (c.toNat + 32)).toNat = c.toNat + 32 :=
      toNat_ofNat_valid (isValidChar_of_lt (by omega))
    rw [isAlpha_iff, ht]
    omega
  · rw [if_neg h2]
    exact h

theorem schemeChar_asciiLower {c : Char} (h : schemeChar c = true) :
    schemeChar (asciiLower c) = true := by
  simp [schemeChar] at h ⊢
  rcases h with h | h | rfl | rfl | rfl
  · exact Or.inl (isAlpha_asciiLower h)
  · have he : asciiLower c = c := by
      unfold asciiLower
      rw [if_neg]
      intro hand
      have h65 : (65 : Nat) ≤ c.toNat := hand.1
      have h90 : c.toNat ≤ 90 := hand.2
      have := isDigit_range h
      omega
    rw [he]
    exact Or.inr (Or.inl h)
  · decide
  · decide
  · decide

theorem parseRest_recon {sch nlc r2 : Str}
    (hsch : sch = [] ∨ (sch ≠ [] ∧ (∀ c, sch.head? = some c → c.isAlpha = true) ∧
      sch.all schemeChar = true ∧ sch.map asciiLower = sch))
    (hnlc : ∀ c ∈ nlc, c ≠ '/' ∧ c ≠ '?' ∧ c ≠ '#' ∧ isUnsafeUrlByte c = false)
    (hbrk : nlc.contains '[' = nlc.contains ']')
    (hr2safe : ∀ c ∈ r2, isUnsafeUrlByte c = false)
    (hhd : nlc ≠ [] → r2 = [] ∨ ∃ c cs, r2 = c :: cs ∧ (c = '/' ∨ c = '?' ∨ c = '#'))
    (hnf : sch = [] → nlc = [] →
        (extractScheme r2 = none ∧ (∀ c, r2.head? = some c → isC0OrSpace c = false)) ∨
        (r2 = [] ∨ ∃ c cs, r2 = c :: cs ∧ (c = '/' ∨ c = '?' ∨ c = '#'))) :
    Recon (parseRest sch nlc r2) := by
  cases hA : splitFirst '#' r2 with
  | none =>
    have hnoh : ('#' : Char) ∉ r2 := splitFirst_none hA
    cases hQ : splitFirst '?' r2 with
    | none =>
      have hnoq : ('?' : Char) ∉ r2 := splitFirst_none hQ
      by_cases hcnd : inUsesParams sch = true ∧ (';' : Char) ∈ r2
      · rcases hsp : splitParams r2 with ⟨w1, w2⟩
        have hval : parseRest sch nlc r2 = ⟨sch, nlc, w1, w2, [], []⟩ := by
          unfold parseRest
          simp only [hA, hQ, if_pos hcnd, hsp]
        rw [hval]
        rcases splitParams_inv hsp with ⟨h1, h2, h3⟩ | ⟨h1, h2, h3, h4⟩
        · exact @parseRest_recon_core sch nlc r2 r2 r2 [] [] w1 w2 hsch hnlc hbrk
            hr2safe hhd hnf ⟨[], by simp⟩ hnoh (by simp) ⟨[], by simp⟩ hnoq
            (Or.inl ⟨h1, h2, fun _ => h3⟩)
        · exact @parseRest_recon_core sch nlc r2 r2 r2 [] [] w1 w2 hsch hnlc hbrk
            hr2safe hhd hnf ⟨[], by simp⟩ hnoh (by simp) ⟨[], by simp⟩ hnoq
            (Or.inr ⟨h1, h2, h3, h4, hcnd.1⟩)
      · have hval : parseRest sch nlc r2 = ⟨sch, nlc, r2, [], [], []⟩ := by
          unfold parseRest
          simp only [hA, hQ, if_neg hcnd]
        rw [hval]
        exact @parseRest_recon_core sch nlc r2 r2 r2 [] [] r2 [] hsch hnlc hbrk
          hr2safe hhd hnf ⟨[], by simp⟩ hnoh (by simp) ⟨[], by simp⟩ hnoq
          (Or.inl ⟨rfl, rfl, fun hu hmm => hcnd ⟨hu, mem_afterLastSlash hmm⟩⟩)
    | some qp =>
      obtain ⟨W, q⟩ := qp
      obtain ⟨hWl, hWnoq⟩ := splitFirst_eq_some hQ
      by_cases hcnd : inUsesParams sch = true ∧ (';' : Char) ∈ W
      · rcases hsp : splitParams W with ⟨w1, w2⟩
        have hval : parseRest sch nlc r2 = ⟨sch, nlc, w1, w2, q, []⟩ := by
          unfold parseRest
          simp only [hA, hQ, if_pos hcnd, hsp]
        rw [hval]
        rcases splitParams_inv hsp with ⟨h1, h2, h3⟩ | ⟨h1, h2, h3, h4⟩
        · exact @parseRest_recon_core sch nlc r2 r2 W q [] w1 w2 hsch hnlc hbrk
            hr2safe hhd hnf ⟨[], by simp⟩ hnoh (by simp) ⟨'?' :: q, hWl⟩ hWnoq
            (Or.inl ⟨h1, h2, fun _ => h3⟩)
        · exact @parseRest_recon_core sch nlc r2 r2 W q [] w1 w2 hsch hnlc hbrk
            hr2safe hhd hnf ⟨[], by simp⟩ hnoh (by simp) ⟨'?' :: q, hWl⟩ hWnoq
            (Or.inr ⟨h1, h2, h3, h4, hcnd.1⟩)
      · have hval : parseRest sch nlc r2 = ⟨sch, nlc, W, [], q, []⟩ := by
          unfold parseRest
          simp only [hA, hQ, if_neg hcnd]
        rw [hval]
        exact @parseRest_recon_core sch nlc r2 r2 W q [] W [] hsch hnlc hbrk
          hr2safe hhd hnf ⟨[], by simp⟩ hnoh (by simp) ⟨'?' :: q, hWl⟩ hWnoq
          (Or.inl ⟨rfl, rfl, fun hu hmm => hcnd ⟨hu, mem_afterLastSlash hmm⟩⟩)
  | some fp =>
    obtain ⟨A, F⟩ := fp
    obtain ⟨hAl, hAnoh⟩ := splitFirst_eq_some hA
    have hFsub : ∀ c ∈ F, c ∈ r2 := by
      intro c hc
      rw [hAl]
      exact List.mem_append.mpr (Or.inr (List.mem_cons_of_mem _ hc))
    cases hQ : splitFirst '?' A with
    | none =>
      have hnoq : ('?' : Char) ∉ A := splitFirst_none hQ
      by_cases hcnd : inUsesParams sch = true ∧ (';' : Char) ∈ A
      · rcases hsp : splitParams A with ⟨w1, w2⟩
        have hval : parseRest sch nlc r2 = ⟨sch, nlc, w1, w2, [], F⟩ := by
          unfold parseRest
          simp only [hA, hQ, if_pos hcnd, hsp]
        rw [hval]
        rcases splitParams_inv hsp with ⟨h1, h2, h3⟩ | ⟨h1, h2, h3, h4⟩
        · exact @parseRest_recon_core sch nlc r2 A A [] F w1 w2 hsch hnlc hbrk
            hr2safe hhd hnf ⟨'#' :: F, hAl⟩ hAnoh hFsub ⟨[], by simp⟩ hnoq
            (Or.inl ⟨h1, h2, fun _ => h3⟩)
        · exact @parseRest_recon_core sch nlc r2 A A [] F w1 w2 hsch hnlc hbrk
            hr2safe hhd hnf ⟨'#' :: F, hAl⟩ hAnoh hFsub ⟨[], by simp⟩ hnoq
            (Or.inr ⟨h1, h2, h3, h4, hcnd.1⟩)
      · have hval : parseRest sch nlc r2 = ⟨sch, nlc, A, [], [], F⟩ := by
          unfold parseRest
          simp only [hA, hQ, if_neg hcnd]
        rw [hval]
        exact @parseRest_recon_core sch nlc r2 A A [] F A [] hsch hnlc hbrk
          hr2safe hhd hnf ⟨'#' :: F, hAl⟩ hAnoh hFsub ⟨[], by simp⟩ hnoq
          (Or.inl ⟨rfl, rfl, fun hu hmm => hcnd ⟨hu, mem_afterLastSlash hmm⟩⟩)
    | some qp =>
      obtain ⟨W, q⟩ := qp
      obtain ⟨hWl, hWnoq⟩ := splitFirst_eq_some hQ
      by_cases hcnd : inUsesParams sch = true ∧ (';' : Char) ∈ W
      · rcases hsp : splitParams W with ⟨w1, w2⟩
        have hval : parseRest sch nlc r2 = ⟨sch, nlc, w1, w2, q, F⟩ := by
          unfold parseRest
          simp only [hA, hQ, if_pos hcnd, hsp]
        rw [hval]
        rcases splitParams_inv hsp with ⟨h1, h2, h3⟩ | ⟨h1, h2, h3, h4⟩
        · exact @parseRest_recon_core sch nlc r2 A W q F w1 w2 hsch hnlc hbrk
            hr2safe hhd hnf ⟨'#' :: F, hAl⟩ hAnoh hFsub ⟨'?' :: q, hWl⟩ hWnoq
            (Or.inl ⟨h1, h2, fun _ => h3⟩)
        · exact @parseRest_recon_core sch nlc r2 A W q F w1 w2 hsch hnlc hbrk
            hr2safe hhd hnf ⟨'#' :: F, hAl⟩ hAnoh hFsub ⟨'?' :: q, hWl⟩ hWnoq
            (Or.inr ⟨h1, h2, h3, h4, hcnd.1⟩)
      · have hval : parseRest sch nlc r2 = ⟨sch, nlc, W, [], q, F⟩ := by
          unfold parseRest
          simp only [hA, hQ, if_neg hcnd]
        rw [hval]
        exact @parseRest_recon_core sch nlc r2 A W q F W [] hsch hnlc hbrk
          hr2safe hhd hnf ⟨'#' :: F, hAl⟩ hAnoh hFsub ⟨'?' :: q, hWl⟩ hWnoq
          (Or.inl ⟨rfl, rfl, fun hu hmm => hcnd ⟨hu, mem_afterLastSlash hmm⟩⟩)

theorem urlparse_recon {u : Str} {p : UrlParts} (h : urlparse? u = some p) : Recon p := by
  rw [urlparse_stages] at h
  set U := (u.dropWhile isC0OrSpace).filter (fun c => ¬ isUnsafeUrlByte c) with hU
  have hUsafe : ∀ c ∈ U, isUnsafeUrlByte c = false := by
    intro c hc
    rw [hU] at hc
    have h2 := (List.mem_filter.mp hc).2
    simpa using h2
  have hUhead : ∀ c, U.head? = some c → isC0OrSpace c = false := by
    intro c hc
    rw [hU] at hc
    cases hd : u.dropWhile isC0OrSpace with
    | nil =>
      rw [hd] at hc
      simp at hc
    | cons x xs =>
      have hx : isC0OrSpace x = false := dropWhile_head_not hd
      have hxu : isUnsafeUrlByte x = false := by
        cases hb : isUnsafeUrlByte x
        · rfl
        · rw [unsafe_c0 hb] at hx
          exact absurd hx (by simp)
      rw [hd, List.filter_cons, if_pos (by simp [hxu])] at hc
      have hcx : x = c := Option.some.inj (show some x = some c from hc)
      rw [← hcx]
      exact hx
  have hnetgo : ∀ (sch R : Str),
      (sch = [] ∨ (sch ≠ [] ∧ (∀ c, sch.head? = some c → c.isAlpha = true) ∧
        sch.all schemeChar = true ∧ sch.map asciiLower = sch)) →
      (∀ c ∈ R, isUnsafeUrlByte c = false) →
      (sch = [] → (extractScheme R = none ∧
        (∀ c, R.head? = some c → isC0OrSpace c = false))) →
      (match (if R.take 2 = ['/', '/'] then
            (if ((splitNetloc (R.drop 2)).1.contains '[' !=
                (splitNetloc (R.drop 2)).1.contains ']') then none
             else some (splitNetloc (R.drop 2)))
          else some ([], R)) with
        | none => none
        | some (netloc, rest2) => some (parseRest sch netloc rest2)) = some p →
      Recon p := by
    intro sch R hsch hRsafe hnfR hm
    by_cases h2 : R.take 2 = ['/', '/']
    · rw [if_pos h2] at hm
      by_cases hbc : ((splitNetloc (R.drop 2)).1.contains '[' !=
          (splitNetloc (R.drop 2)).1.contains ']') = true
      · rw [if_pos hbc] at hm
        exact absurd hm (by simp)
      · rw [if_neg hbc] at hm
        have hm2 : some (parseRest sch (splitNetloc (R.drop 2)).1
            (splitNetloc (R.drop 2)).2) = some p := hm
        have hp := Option.some.inj hm2
        rw [← hp]
        have hbeq : (splitNetloc (R.drop 2)).1.contains '[' =
            (splitNetloc (R.drop 2)).1.contains ']' := by
          by_contra hne
          exact hbc (bne_iff_ne.mpr hne)
        have hshape : (splitNetloc (R.drop 2)).2 = [] ∨
            ∃ c cs, (splitNetloc (R.drop 2)).2 = c :: cs ∧
              (c = '/' ∨ c = '?' ∨ c = '#') := by
          cases hr2 : (R.drop 2).dropWhile (fun c => ¬(c = '/' ∨ c = '?' ∨ c = '#')) with
          | nil => exact Or.inl hr2
          | cons c cs =>
            right
            refine ⟨c, cs, hr2, ?_⟩
            have hpx := dropWhile_head_not hr2
            simp at hpx
            by_cases hc1 : c = '/'
            · exact Or.inl hc1
            by_cases hc2 : c = '?'
            · exact Or.inr (Or.inl hc2)
            exact Or.inr (Or.inr (hpx hc1 hc2))
        apply parseRest_recon hsch
        · intro c hc
          have hc1 : c ∈ (R.drop 2).takeWhile
              (fun c => ¬(c = '/' ∨ c = '?' ∨ c = '#')) := hc
          have hpred := List.mem_takeWhile_imp hc1
          simp at hpred
          have hcU : c ∈ R := List.drop_subset 2 R ((List.takeWhile_sublist _).subset hc1)
          exact ⟨hpred.1, hpred.2.1, hpred.2.2, hRsafe c hcU⟩
        · exact hbeq
        · intro c hc
          have hc1 : c ∈ (R.drop 2).dropWhile
              (fun c => ¬(c = '/' ∨ c = '?' ∨ c = '#')) := hc
          exact hRsafe c (List.drop_subset 2 R ((List.dropWhile_sublist _).subset hc1))
        · intro _
          exact hshape
        · intro _ _
          exact Or.inr hshape
    · rw [if_neg h2] at hm
      have hm2 : some (parseRest sch [] R) = some p := hm
      have hp := Option.some.inj hm2
      rw [← hp]
      apply parseRest_recon hsch
      · intro c hc
        simp at hc
      · rfl
      · exact hRsafe
      · intro hn
        exact absurd rfl hn
      · intro h1 _
        exact Or.inl (hnfR h1)
  unfold parseNoStrip at h
  cases hext : extractScheme U with
  | none =>
    simp only [hext] at h
    exact hnetgo [] U (Or.inl rfl) hUsafe (fun _ => ⟨hext, hUhead⟩) h
  | some sr =>
    obtain ⟨sch, rest⟩ := sr
    simp only [hext] at h
    obtain ⟨pre, hpre_eq, hpre_ne, hpre_head, hpre_all, hsch_eq⟩ :=
      extractScheme_eq_some hext
    have hschf : sch ≠ [] ∧ (∀ c, sch.head? = some c → c.isAlpha = true) ∧
        sch.all schemeChar = true ∧ sch.map asciiLower = sch := by
      refine ⟨?_, ?_, ?_, ?_⟩
      · rw [hsch_eq]
        cases hpc : pre with
        | nil => exact absurd hpc hpre_ne
        | cons p0 pr => simp
      · intro c hc
        rw [hsch_eq] at hc
        cases hpc : pre with
        | nil => exact absurd hpc hpre_ne
        | cons p0 pr =>
          rw [hpc] at hc
          have hcp : asciiLower p0 = c :=
            Option.some.inj (show some (asciiLower p0) = some c from hc)
          rw [← hcp]
          exact isAlpha_asciiLower (hpre_head p0 (by rw [hpc]; rfl))
      · rw [hsch_eq, List.all_eq_true]
        intro x hx
        obtain ⟨y, hy, hyx⟩ := List.mem_map.mp hx
        rw [← hyx]
        exact schemeChar_asciiLower (List.all_eq_true.mp hpre_all y hy)
      · rw [hsch_eq, List.map_map]
        exact List.map_congr_left (fun a _ => asciiLower_idem a)
    have hrsub : ∀ c ∈ rest, c ∈ U := by
      intro c hc
      rw [hpre_eq]
      exact List.mem_append.mpr (Or.inr (List.mem_cons_of_mem _ hc))
    exact hnetgo sch rest (Or.inr hschf) (fun c hc => hUsafe c (hrsub c hc))
      (fun h1 => absurd h1 hschf.1) h

theorem joinPP_prepend (p : UrlParts) :
    joinPP { p with path := '/' :: p.path } = '/' :: joinPP p := by
  unfold joinPP
  by_cases hp0 : p.params = []
  · rw [if_pos hp0, if_pos hp0]
  · rw [if_neg hp0, if_neg hp0]
    rfl

theorem urlunparse_prepend {p : UrlParts} (hpf : prependFlag p = true) :
    urlunparse { p with path := '/' :: p.path } = urlunparse p := by
  have hcp : (p.netloc ≠ [] ∨ (p.scheme ≠ [] ∧ inUsesNetloc p.scheme = true ∧
      (joinPP p).take 2 ≠ ['/', '/'])) ∧ (joinPP p ≠ [] ∧ (joinPP p).head? ≠ some '/') :=
    of_decide_eq_true hpf
  obtain ⟨hcond, hne, hhd⟩ := hcp
  have htk : ('/' :: joinPP p).take 2 ≠ ['/', '/'] := by
    cases hJ0 : joinPP p with
    | nil => exact absurd hJ0 hne
    | cons j0 jr =>
      intro he
      have he2 : (['/', j0] : Str) = ['/', '/'] := he
      have hj : j0 = '/' := by
        have := (List.cons.inj he2).2
        exact (List.cons.inj this).1
      apply hhd
      rw [hJ0, hj]
      rfl
  have hcore : urlCore { p with path := '/' :: p.path } = urlCore p := by
    unfold urlCore
    rw [joinPP_prepend]
    rcases hcond with hnl | ⟨hs1, hs2, hs3⟩
    · rw [if_pos (Or.inl hnl), if_pos (Or.inl hnl)]
      rw [if_neg (fun hand => hand.2 rfl), if_pos ⟨hne, hhd⟩]
    · rw [if_pos (Or.inr ⟨hs1, hs2, htk⟩), if_pos (Or.inr ⟨hs1, hs2, hs3⟩)]
      rw [if_neg (fun hand => hand.2 rfl), if_pos ⟨hne, hhd⟩]
  rw [urlunparse_decomp, urlunparse_decomp, hcore]

theorem cleanL_idem (u : Str)
    (hx : ∀ p, urlparse? u = some p → p.netloc = [] → p.path.take 2 ≠ ['/', '/']) :
    cleanL (cleanL u) = cleanL u := by
  cases hparse : urlparse? u with
  | none =>
    have h1 : cleanL u = u := by
      unfold cleanL
      rw [hparse]
    rw [h1]
    exact h1
  | some p =>
    have hr := urlparse_recon hparse
    have hr' : Recon { p with query := cleanQuery p.query } := by
      obtain ⟨a1, a2, a3, a4, a5, a6, a7, a8, a9, a10, a11⟩ := hr
      exact ⟨a1, a2, a3, a4, a5, a6, a7, a8, a9, a10, a11⟩
    have hq' : ∀ c ∈ ({ p with query := cleanQuery p.query } : UrlParts).query,
        encChar c = true := cleanQuery_encChar p.query
    have hxx : ¬(({ p with query := cleanQuery p.query } : UrlParts).netloc = [] ∧
        (joinPP { p with query := cleanQuery p.query }).take 2 = ['/', '/']) := by
      rintro ⟨hn0, hj2⟩
      refine absurd ?_ (hx p hparse hn0)
      by_cases hp0 : p.params = []
      · have hJ : joinPP { p with query := cleanQuery p.query } = p.path := by
          unfold joinPP
          rw [if_pos hp0]
        rw [hJ] at hj2
        exact hj2
      · have hJ : joinPP { p with query := cleanQuery p.query }
            = p.path ++ ';' :: p.params := by
          unfold joinPP
          rw [if_neg hp0]
        rw [hJ] at hj2
        cases hpp : p.path with
        | nil =>
          rw [hpp] at hj2
          have hj3 : (';' :: p.params.take 1 : Str) = ['/', '/'] := by
            cases hps : p.params with
            | nil => rw [hps] at hj2; exact absurd hj2 (by decide)
            | cons x xs => rw [hps] at hj2; exact hj2
          exact absurd ((List.cons.inj hj3).1) (by decide)
        | cons c1 rest =>
          cases rest with
          | nil =>
            rw [hpp] at hj2
            have hj3 : ([c1, ';'] : Str) = ['/', '/'] := hj2
            have := (List.cons.inj hj3).2
            exact absurd ((List.cons.inj this).1) (by decide)
          | cons c2 r2 =>
            rw [hpp] at hj2
            exact hj2
    have hcl : cleanL u = urlunparse { p with query := cleanQuery p.query } := by
      unfold cleanL
      rw [hparse]
    have hmain := urlparse_urlunparse hr' hq' hxx
    have houter : cleanL (cleanL u) =
        urlunparse { { { p with query := cleanQuery p.query } with
            path := if prependFlag { p with query := cleanQuery p.query }
              then '/' :: ({ p with query := cleanQuery p.query } : UrlParts).path
              else ({ p with query := cleanQuery p.query } : UrlParts).path } with
          query := cleanQuery ({ { p with query := cleanQuery p.query } with
            path := if prependFlag { p with query := cleanQuery p.query }
              then '/' :: ({ p with query := cleanQuery p.query } : UrlParts).path
              else ({ p with query := cleanQuery p.query } : UrlParts).path } : UrlParts).query } := by
      show (match urlparse? (cleanL u) with
        | none => cleanL u
        | some q => urlunparse { q with query := cleanQuery q.query }) = _
      rw [hcl, hmain]
    rw [houter, hcl]
    have hq2 : cleanQuery ({ { p with query := cleanQuery p.query } with
        path := if prependFlag { p with query := cleanQuery p.query }
          then '/' :: ({ p with query := cleanQuery p.query } : UrlParts).path
          else ({ p with query := cleanQuery p.query } : UrlParts).path } : UrlParts).query
        = cleanQuery p.query := cleanQuery_idem p.query
    rw [hq2]
    by_cases hpf : prependFlag { p with query := cleanQuery p.query } = true
    · rw [hpf]
      exact urlunparse_prepend hpf
    · have hpf2 : prependFlag { p with query := cleanQuery p.query } = false := by
        cases hb : prependFlag { p with query := cleanQuery p.query }
        · rfl
        · exact absurd hb hpf
      rw [hpf2]
      rfl

/-- C10, amended.  When the candidate parses with a nonempty netloc,
`clean_url_display` preserves the scheme, netloc, path, params and
fragment components exactly and rewrites only the query (tracking keys
removed, the remainder re-encoded): reparsing the cleaned URL returns the
original components with the cleaned query. -/
theorem c10_amended (u : Str) (p : UrlParts) (h : urlparse? u = some p)
    (hn : p.netloc ≠ []) :
    urlparse? (cleanL u) = some { p with query := cleanQuery p.query } := by
  have hr := urlparse_recon h
  have hr' : Recon { p with query := cleanQuery p.query } := by
    obtain ⟨a1, a2, a3, a4, a5, a6, a7, a8, a9, a10, a11⟩ := hr
    exact ⟨a1, a2, a3, a4, a5, a6, a7, a8, a9, a10, a11⟩
  have hq' : ∀ c ∈ ({ p with query := cleanQuery p.query } : UrlParts).query,
      encChar c = true := cleanQuery_encChar p.query
  have hxx : ¬(({ p with query := cleanQuery p.query } : UrlParts).netloc = [] ∧
      (joinPP { p with query := cleanQuery p.query }).take 2 = ['/', '/']) :=
    fun hand => hn hand.1
  have hcl : cleanL u = urlunparse { p with query := cleanQuery p.query } := by
    unfold cleanL
    rw [h]
  rw [hcl]
  have hmain := urlparse_urlunparse hr' hq' hxx
  rw [hmain]
  have hpf : prependFlag { p with query := cleanQuery p.query } = false := by
    unfold prependFlag
    apply decide_eq_false
    intro hand
    rcases hr'.nl_u1 hn with h0 | h0
    · exact hand.2.1 h0
    · exact hand.2.2 h0
  rw [hpf]
  rfl

theorem c10_amended_witness :
    urlparse? (cleanL "http://a.com/x?utm_source=1&q=2".data) =
      some { (⟨"http".data, "a.com".data, "/x".data, [], "utm_source=1&q=2".data, []⟩ :
        UrlParts) with query := cleanQuery "utm_source=1&q=2".data } :=
  c10_amended _ _ rfl (by decide)

/-- C7, amended.  `clean_url_display` is idempotent on every input whose
parse does not combine an empty netloc with a path beginning `//` (the
counterexample class, e.g. `"////"`), and on every input that fails to
parse: cleaning an already-cleaned URL returns it unchanged. -/
theorem c7_amended (s : String)
    (hx : ∀ p, urlparse? s.data = some p → p.netloc = [] →
      p.path.take 2 ≠ ['/', '/']) :
    clean_url_display (clean_url_display s) = clean_url_display s :=
  congrArg (fun l => (⟨l⟩ : String)) (cleanL_idem s.data hx)

theorem c7_amended_witness :
    clean_url_display (clean_url_display "https://ex.com/a?utm_source=1&b=2") =
      clean_url_display "https://ex.com/a?utm_source=1&b=2" :=
  c7_amended _ (by
    intro p hp hn
    have h2 : some (⟨"https".data, "ex.com".data, "/a".data, [],
        "utm_source=1&b=2".data, []⟩ : UrlParts) = some p := by
      rw [← hp]
      rfl
    have h3 := Option.some.inj h2
    rw [← h3]
    decide)

end PhishSpec
